import Mathlib

/-!
Verification of the flow-network engine of the assignment solver.

The Rust source is shallowly embedded as follows: interior-mutability
(`Cell`/`RefCell`) state becomes explicit state passing; `usize` becomes `ℕ`;
`f32` costs become an arbitrary linearly ordered additive commutative group
`α` — the code only ever stores, negates, adds and compares costs, and this
is exactly the structure those operations use (instantiating `α := ℚ` gives
the exact-real reading of the spec; concrete runs below use `α := ℤ`);
`Vec` becomes `List`; operations that can panic (`unwrap`, `expect`) return
`Option`/tagged results, with `none`/`bug` marking the panic.  Loops that
Rust bounds by a counter are modelled by structural recursion on the
remaining allowance; the outer augmentation loop, which Rust does not
bound, gets explicit fuel and a `looped` marker for fuel exhaustion (the
fuel passed is the number of source-incident arcs, the termination measure
the spec claims).
-/

namespace AssignmentSolver

variable {α : Type} [LinearOrderedAddCommGroup α]

/-- Mirror of `Arc` (src/network/arc.rs): a directed edge with endpoints,
cost, flow bounds and current flow. -/
structure Arc (α : Type) where
  start_node : ℕ
  end_node : ℕ
  cost : α
  min_flow : ℕ
  max_flow : ℕ
  current_flow : ℕ
deriving DecidableEq, Repr

/-- Mirror of `Node` (src/network/node.rs): the list of ids of arcs that
currently originate at this node. -/
structure Node where
  connected_arcs : List ℕ
deriving DecidableEq, Repr

/-- Mirror of `Network` (src/network/mod.rs). -/
structure Network (α : Type) where
  min_flow_satisfied : Bool
  min_flow_amount : ℕ
  max_flow_amount : ℕ
  num_tasks : ℕ
  nodes : List Node
  arcs : List (Arc α)
deriving DecidableEq, Repr

/-- Mirror of `Arc::invert`: negate the cost, reset the current flow, swap
the endpoint ids.  (In the revision of the code that `Network` drives, the
node incidence lists are updated by the `Network` methods, not here.) -/
def Arc.invert (a : Arc α) : Arc α :=
  { a with cost := -a.cost, current_flow := 0,
           start_node := a.end_node, end_node := a.start_node }

/-- Mirror of `Arc::push_flow`: increment the current flow; invert when the
phase-appropriate threshold (`min_flow` before the phase flag is set,
`max_flow` after) is reached.  Returns the updated arc and whether inversion
occurred. -/
def Arc.push_flow (a : Arc α) (min_flow_satisfied : Bool) : Arc α × Bool :=
  let a1 := { a with current_flow := a.current_flow + 1 }
  if min_flow_satisfied then
    if a1.current_flow = a1.max_flow then (a1.invert, true) else (a1, false)
  else
    if a1.current_flow = a1.min_flow then (a1.invert, true) else (a1, false)

/-- Mirror of `Arc::update_for_second_phase`: a saturated (`min = max`) arc
is left alone; otherwise the arc is inverted and its current flow is set to
`min_flow`. -/
def Arc.update_for_second_phase (a : Arc α) : Arc α × Bool :=
  if a.min_flow = a.max_flow then (a, false)
  else ({ a.invert with current_flow := a.min_flow }, true)

/-- Mirror of `Vec::swap_remove`: replace the element at index `i` with the
last element and drop the last element. -/
def swapRemove {β : Type} (l : List β) (i : ℕ) : List β :=
  match l.getLast? with
  | none => []
  | some lastElem => (l.set i lastElem).dropLast

/-- Mirror of `Node::add_connection`: append the arc id unless it is already
present. -/
def Node.add_connection (nd : Node) (arc_id : ℕ) : Node :=
  if arc_id ∈ nd.connected_arcs then nd else ⟨nd.connected_arcs ++ [arc_id]⟩

/-- Mirror of `Node::remove_connection`: swap-remove the first occurrence of
the arc id; `none` models the `expect` panic when the id is absent. -/
def Node.remove_connection (nd : Node) (arc_id : ℕ) : Option Node :=
  match nd.connected_arcs.findIdx? (· = arc_id) with
  | none => none
  | some idx => some ⟨swapRemove nd.connected_arcs idx⟩

def emptyNode : Node := ⟨[]⟩

def arcDefault : Arc α := ⟨0, 0, 0, 0, 0, 0⟩

def Network.getNode (st : Network α) (i : ℕ) : Node := st.nodes.getD i emptyNode

def Network.getArc (st : Network α) (i : ℕ) : Arc α := st.arcs.getD i arcDefault

def Network.setNode (st : Network α) (i : ℕ) (nd : Node) : Network α :=
  { st with nodes := st.nodes.set i nd }

/-- Mirror of `Network::new`: source node id 0 and sink node id 1. -/
def Network.new : Network α :=
  { min_flow_satisfied := false, min_flow_amount := 0, max_flow_amount := 0,
    num_tasks := 0, nodes := [emptyNode, emptyNode], arcs := [] }

/-- Mirror of `Network::add_node`. -/
def Network.add_node (st : Network α) : Network α × ℕ :=
  ({ st with nodes := st.nodes ++ [emptyNode] }, st.nodes.length)

/-- Mirror of `Network::add_arc`: register the new arc id with its start
node and append the arc (with zero current flow) to the arena. -/
def Network.add_arc (st : Network α) (start_node_id end_node_id : ℕ) (cost : α)
    (min_flow max_flow : ℕ) : Network α :=
  let arcId := st.arcs.length
  let st1 := st.setNode start_node_id ((st.getNode start_node_id).add_connection arcId)
  { st1 with arcs := st1.arcs ++ [⟨start_node_id, end_node_id, cost, min_flow, max_flow, 0⟩] }

/-- Mirror of `Network::add_task`: append a task node, update the counters,
and create the task-sink arc — drawn task→sink when `min_workers > 0` and
sink→task when `min_workers = 0`. -/
def Network.add_task (st : Network α) (min_workers max_workers : ℕ) : Network α × ℕ :=
  let p := st.add_node
  let task_id := p.2
  let st2 := { p.1 with min_flow_amount := p.1.min_flow_amount + min_workers,
                        max_flow_amount := p.1.max_flow_amount + max_workers,
                        num_tasks := p.1.num_tasks + 1 }
  let st3 := if 0 < min_workers then st2.add_arc task_id 1 0 min_workers max_workers
             else st2.add_arc 1 task_id 0 min_workers max_workers
  (st3, task_id)

/-- Mirror of `Network::add_worker`: append a worker node, create the
source→worker arc with bounds (1,1) and cost 0, then one worker→task arc
per affinity entry with bounds (1,1) and the affinity as cost. -/
def Network.add_worker (st : Network α) (task_affinity : List (ℕ × α)) : Network α × ℕ :=
  let p := st.add_node
  let worker_id := p.2
  let st2 := p.1.add_arc 0 worker_id 0 1 1
  let st3 := task_affinity.foldl (fun acc aff => acc.add_arc worker_id aff.1 aff.2 1 1) st2
  (st3, worker_id)

/-- Mirror of `Network::find_connecting_arc_id`: the first arc id in the
start node's connection list whose arc currently ends at the given node. -/
def Network.find_connecting_arc_id (st : Network α) (start_node_id end_node_id : ℕ) : Option ℕ :=
  (st.getNode start_node_id).connected_arcs.find?
    (fun id => (st.getArc id).end_node == end_node_id)

/-- Mirror of `Network::push_flow_down_path`: for each consecutive pair of
path nodes, find the connecting arc, push one unit of flow down it, and if
the arc inverted move its id from the first node's list to the second's.
`none` models the panics (`unwrap` on a missing arc, `expect` inside
`remove_connection`). -/
def Network.push_flow_down_path (st : Network α) : List ℕ → Option (Network α)
  | u :: v :: rest =>
    match st.find_connecting_arc_id u v with
    | none => none
    | some arcId =>
      match (st.getArc arcId).push_flow st.min_flow_satisfied with
      | (a2, inverted) =>
        let st2 : Network α := { st with arcs := st.arcs.set arcId a2 }
        if inverted then
          match (st2.getNode u).remove_connection arcId with
          | none => none
          | some ndU =>
            let st3 := st2.setNode u ndU
            (st3.setNode v ((st3.getNode v).add_connection arcId)).push_flow_down_path (v :: rest)
        else st2.push_flow_down_path (v :: rest)
  | _ => some st

/-- Mirror of `Network::get_cost_of_arcs_from_nodes`: total cost of the arcs
currently originating at the given nodes. -/
def Network.get_cost_of_arcs_from_nodes (st : Network α) (nodeIds : List ℕ) : α :=
  (nodeIds.map (fun n =>
    (((st.getNode n).connected_arcs.map (fun id => (st.getArc id).cost))).sum)).sum

/-- One step of `Network::reset_arcs_for_second_phase`: update one
sink-incident arc for the second phase and, if it inverted, move its id from
the (new) end node's list to the (new) start node's list.  The Rust code
reads the arc's endpoints after the update, as done here. -/
def Network.resetStep (st : Network α) (arcId : ℕ) : Option (Network α) :=
  match (st.getArc arcId).update_for_second_phase with
  | (a2, inverted) =>
    let st2 : Network α := { st with arcs := st.arcs.set arcId a2 }
    if inverted then
      match (st2.getNode a2.end_node).remove_connection arcId with
      | none => none
      | some ndE =>
        let st3 := st2.setNode a2.end_node ndE
        some (st3.setNode a2.start_node ((st3.getNode a2.start_node).add_connection arcId))
    else some st2

/-- Mirror of `Network::reset_arcs_for_second_phase`: iterate over a clone
of the sink's connection list, applying `resetStep` to each arc id.  Note
the Rust method does not touch the `min_flow_satisfied` flag. -/
def Network.reset_arcs_for_second_phase (st : Network α) : Option (Network α) :=
  (st.getNode 1).connected_arcs.foldlM Network.resetStep st

/-! Shortest path (`Network::find_shortest_path`): a worklist variant of
Bellman-Ford.  Distances are `Option α` with `none` playing the role of
`f32::INFINITY` — `∞ + w = ∞` and `∞ < d` is false for every `d`, exactly
the comparisons the Rust code performs on its (finite or infinite)
distance values. -/

/-- Comparison `a < b` on distances, where `none` is `+∞`. -/
def distLt (a b : Option α) : Bool :=
  match a, b with
  | none, _ => false
  | some _, none => true
  | some x, some y => decide (x < y)

/-- Addition of a finite cost to a distance (`∞ + w = ∞`). -/
def distAdd (a : Option α) (c : α) : Option α := a.map (· + c)

/-- The loop state of the search: the `distances` and `predecessors` vectors
and the worklist `nodes_updated`. -/
structure SPState (α : Type) where
  distances : List (Option α)
  predecessors : List (Option ℕ)
  nodes_updated : List ℕ
deriving DecidableEq, Repr

/-- Relax one arc out of node `u`: if the path through `u` improves the end
node's distance, record the new distance and predecessor, and queue the end
node unless it is the sink (node 1). -/
def Network.relaxArc (st : Network α) (u : ℕ) (s : SPState α) (arcId : ℕ) : SPState α :=
  let a := st.getArc arcId
  let v := a.end_node
  let cur_dist := s.distances.getD v none
  let dist_to_here := s.distances.getD u none
  if distLt (distAdd dist_to_here a.cost) cur_dist then
    { distances := s.distances.set v (distAdd dist_to_here a.cost),
      predecessors := s.predecessors.set v (some u),
      nodes_updated := if v ≠ 1 then s.nodes_updated ++ [v] else s.nodes_updated }
  else s

/-- Relax every arc currently originating at node `u`, in list order. -/
def Network.relaxFrom (st : Network α) (s : SPState α) (u : ℕ) : SPState α :=
  (st.getNode u).connected_arcs.foldl (st.relaxArc u) s

/-- Insert into a sorted list (ascending). -/
def insertSorted (x : ℕ) : List ℕ → List ℕ
  | [] => [x]
  | y :: ys => if x ≤ y then x :: y :: ys else y :: insertSorted x ys

/-- Insertion sort, ascending — the model of `Vec::sort` on the worklist
(the two agree on sorted output; only the sorted result is observable). -/
def sortNat : List ℕ → List ℕ
  | [] => []
  | x :: xs => insertSorted x (sortNat xs)

/-- Remove adjacent duplicates — mirror of `Vec::dedup`. -/
def dedupAdj : List ℕ → List ℕ
  | [] => []
  | [x] => [x]
  | x :: y :: ys => if x = y then dedupAdj (y :: ys) else x :: dedupAdj (y :: ys)

/-- One pass of the search loop: snapshot and clear the worklist, relax from
every snapshot node, then sort and dedup the new worklist. -/
def Network.spPass (st : Network α) (s : SPState α) : SPState α :=
  let snapshot := s.nodes_updated
  let s1 := { s with nodes_updated := ([] : List ℕ) }
  let s2 := snapshot.foldl st.relaxFrom s1
  { s2 with nodes_updated := dedupAdj (sortNat s2.nodes_updated) }

/-- The search loop: run passes while the worklist is non-empty and the
iteration counter is below the node count.  `fuel` is `num_nodes` minus the
iterations made so far, so the Rust guard `iters < num_nodes` is `fuel > 0`.
Returns the final state and the remaining fuel (0 exactly when the counter
reached the node count). -/
def Network.spLoop (st : Network α) : ℕ → SPState α → SPState α × ℕ
  | 0, s => (s, 0)
  | fuel + 1, s =>
    if s.nodes_updated.isEmpty then (s, fuel + 1)
    else st.spLoop fuel (st.spPass s)

/-- Walk the predecessor chain from `cur`; the result lists `cur` first, the
chain's end (a node with no predecessor) last.  `none` models the infinite
loop the Rust `while let` would enter on a predecessor cycle — any chain
that does terminate visits pairwise-distinct nodes and so finishes within
`nodes.length + 1` steps, the fuel the caller supplies. -/
def buildPathAux (preds : List (Option ℕ)) : ℕ → ℕ → Option (List ℕ)
  | 0, _ => none
  | fuel + 1, cur =>
    match preds.getD cur none with
    | none => some [cur]
    | some p => (buildPathAux preds fuel p).map (cur :: ·)

/-- Result of `Network::find_shortest_path`: a source-to-sink path, the
`Unable to assign all workers!` feasibility error, one of the two
programmer-error panics, or divergence of the reconstruction loop. -/
inductive SPRes where
  | ok (p : List ℕ)
  | infeasible
  | bugNegCycle
  | bugNotSource
  | looped
deriving DecidableEq, Repr

/-- Mirror of `Network::find_shortest_path`. -/
def Network.find_shortest_path (st : Network α) : SPRes :=
  let num_nodes := st.nodes.length
  let s0 : SPState α :=
    { distances := (List.replicate num_nodes (none : Option α)).set 0 (some 0),
      predecessors := List.replicate num_nodes none,
      nodes_updated := [0] }
  let pr := st.spLoop num_nodes s0
  if pr.2 = 0 then .bugNegCycle
  else
    match (pr.1.predecessors.getD 1 none) with
    | none => .infeasible
    | some _ =>
      match buildPathAux pr.1.predecessors (num_nodes + 1) 1 with
      | none => .looped
      | some revPath =>
        if revPath.getLast? = some 0 then .ok revPath.reverse else .bugNotSource

/-- Result of `Network::find_min_cost_max_flow`.  `ok` carries the final
network state and the number of augmenting iterations performed; `err`
carries the `FeasibilityError` message and the network state at the point
the error was returned; `bug` is a panic; `looped` is fuel exhaustion of a
loop the Rust code does not bound. -/
inductive SolveRes (α : Type) where
  | ok (st : Network α) (iters : ℕ)
  | err (msg : String) (st : Network α)
  | bug (msg : String)
  | looped
deriving DecidableEq, Repr

/-- One iteration of the augmentation loop: find a shortest path, push flow
down it, bump the flow counter, and invoke the phase reset when the counter
reaches the sum of minima.  Returns either a terminal result or the next
state and counter. -/
def Network.solve_iteration (st : Network α) (current_flow : ℕ) :
    SolveRes α ⊕ (Network α × ℕ) :=
  match st.find_shortest_path with
  | .infeasible => .inl (.err "Unable to assign all workers!" st)
  | .bugNegCycle => .inl (.bug "Negative cycle detected")
  | .bugNotSource => .inl (.bug "Path does not start at source!")
  | .looped => .inl .looped
  | .ok path =>
    match st.push_flow_down_path path with
    | none => .inl (.bug "No arc found")
    | some st2 =>
      if current_flow + 1 = st2.min_flow_amount then
        match st2.reset_arcs_for_second_phase with
        | none => .inl (.bug "Could not find connection to remove!")
        | some st3 => .inr (st3, current_flow + 1)
      else .inr (st2, current_flow + 1)

/-- The augmentation loop: while the source still has outgoing arcs, run
`solve_iteration`.  `fuel` bounds the number of iterations; the caller
passes the number of source-incident arcs, the bound the spec claims. -/
def solveLoop : ℕ → Network α → ℕ → ℕ → SolveRes α
  | 0, st, _, iters =>
    if (st.getNode 0).connected_arcs.length = 0 then .ok st iters else .looped
  | fuel + 1, st, current_flow, iters =>
    if (st.getNode 0).connected_arcs.length = 0 then .ok st iters
    else
      match st.solve_iteration current_flow with
      | .inl r => r
      | .inr pr => solveLoop fuel pr.1 pr.2 (iters + 1)

/-- Mirror of `Network::find_min_cost_max_flow`: check worker count against
the sums of minima and maxima, run the phase reset immediately when the sum
of minima is zero, then run the augmentation loop until the source has no
outgoing arcs. -/
def Network.find_min_cost_max_flow (st : Network α) : SolveRes α :=
  let num_workers := st.nodes.length - st.num_tasks - 2
  if num_workers < st.min_flow_amount then
    .err "Not enough workers to assign!" st
  else if st.max_flow_amount < num_workers then
    .err "Not enough capacity for workers!" st
  else
    match (if st.min_flow_amount = 0 then st.reset_arcs_for_second_phase else some st) with
    | none => .bug "Could not find connection to remove!"
    | some st1 => solveLoop ((st1.getNode 0).connected_arcs.length) st1 0 0

/-! Network construction, as driven by the external parser: a network is
built from `Network.new` by a sequence of `add_task` / `add_worker` calls. -/

/-- One parser call: either `add_task min max` or `add_worker affinities`
(each affinity entry pairs an already-created task's node id with a
score). -/
inductive BuildCmd (α : Type) where
  | task (mn mx : ℕ)
  | worker (affs : List (ℕ × α))
deriving DecidableEq, Repr

/-- Apply one build command (dropping the returned id, as the lookup tables
live outside the core). -/
def buildStep (st : Network α) (c : BuildCmd α) : Network α :=
  match c with
  | .task mn mx => (st.add_task mn mx).1
  | .worker affs => (st.add_worker affs).1

/-- The network built by a sequence of parser calls. -/
def build (cmds : List (BuildCmd α)) : Network α := cmds.foldl buildStep Network.new

/-! Derived quantities and observation helpers used by the claims. -/

/-- Sum of the task minima over a command list. -/
def sumMinima : List (BuildCmd α) → ℕ
  | [] => 0
  | .task mn _ :: rest => mn + sumMinima rest
  | .worker _ :: rest => sumMinima rest

/-- Sum of the task maxima over a command list. -/
def sumMaxima : List (BuildCmd α) → ℕ
  | [] => 0
  | .task _ mx :: rest => mx + sumMaxima rest
  | .worker _ :: rest => sumMaxima rest

/-- Number of `add_worker` calls in a command list. -/
def workerCount : List (BuildCmd α) → ℕ
  | [] => 0
  | .task _ _ :: rest => workerCount rest
  | .worker _ :: rest => 1 + workerCount rest

/-- Number of `add_task` calls in a command list. -/
def taskCount : List (BuildCmd α) → ℕ
  | [] => 0
  | .task _ _ :: rest => 1 + taskCount rest
  | .worker _ :: rest => taskCount rest

/-- The workers currently assigned to task node `t` (§4.7 of the spec): end
nodes of the arcs currently originating at `t` whose end is not the sink.
This counts them. -/
def Network.workers_assigned (st : Network α) (t : ℕ) : ℕ :=
  ((st.getNode t).connected_arcs.filter (fun id => (st.getArc id).end_node != 1)).length

/-- The final network of a successful solve. -/
def SolveRes.okState : SolveRes α → Option (Network α)
  | .ok st _ => some st
  | _ => none

/-- The iteration count of a successful solve. -/
def SolveRes.okIters : SolveRes α → Option ℕ
  | .ok _ n => some n
  | _ => none

/-- The message and left-behind network of a failed solve. -/
def SolveRes.errInfo : SolveRes α → Option (String × Network α)
  | .err m st => some (m, st)
  | _ => none

/-! A build-time ledger: the classification of every node and arc the
builder creates, computed from the command list alone.  The solver never
changes which pair of nodes an arc connects, only its direction; the ledger
records, per arc id, the connected pair and the build-time cost, giving the
vocabulary for the solve-time invariants below. -/

/-- Classification of one arc: a task↔sink arc with its bounds, a
source↔worker arc, or a worker↔task arc with its affinity. -/
inductive ArcInfo (α : Type) where
  | sinkA (t : ℕ) (mn mx : ℕ)
  | srcA (w : ℕ)
  | affA (w t : ℕ) (aff : α)
deriving DecidableEq, Repr

/-- The ledger: node count, task node ids, worker node ids, and one
`ArcInfo` per arc id. -/
structure Ledger (α : Type) where
  numNodes : ℕ
  taskIds : List ℕ
  workerIds : List ℕ
  infos : List (ArcInfo α)
deriving DecidableEq, Repr

/-- Ledger update for one build command, mirroring the ids `add_task` and
`add_worker` hand out. -/
def ledgerStep (L : Ledger α) (c : BuildCmd α) : Ledger α :=
  match c with
  | .task mn mx =>
    { L with numNodes := L.numNodes + 1, taskIds := L.taskIds ++ [L.numNodes],
             infos := L.infos ++ [.sinkA L.numNodes mn mx] }
  | .worker affs =>
    { L with numNodes := L.numNodes + 1, workerIds := L.workerIds ++ [L.numNodes],
             infos := L.infos ++ [.srcA L.numNodes]
                      ++ affs.map (fun a => .affA L.numNodes a.1 a.2) }

def ledger0 : Ledger α := ⟨2, [], [], []⟩

def ledgerOf (cmds : List (BuildCmd α)) : Ledger α := cmds.foldl ledgerStep ledger0

/-- Parser contract on a command list: every affinity entry of a worker
refers to the node id of a previously added task. -/
def validFrom (L : Ledger α) : List (BuildCmd α) → Bool
  | [] => true
  | .task mn mx :: rest => validFrom (ledgerStep L (.task mn mx)) rest
  | .worker affs :: rest =>
    affs.all (fun a => L.taskIds.contains a.1) && validFrom (ledgerStep L (.worker affs)) rest

abbrev ValidCmds (cmds : List (BuildCmd α)) : Prop := validFrom ledger0 cmds = true

/-- Compatibility of an arc's current fields with its build-time
classification: the connected pair of nodes is preserved up to direction,
the cost is the build cost negated on inversion, the bounds are the build
bounds, and unit-capacity arcs are at zero recorded flow whenever at rest. -/
def ArcMatches (i : ArcInfo α) (a : Arc α) : Prop :=
  match i with
  | .sinkA t mn mx => a.min_flow = mn ∧ a.max_flow = mx ∧ a.cost = 0 ∧
      ((a.start_node = t ∧ a.end_node = 1) ∨ (a.start_node = 1 ∧ a.end_node = t))
  | .srcA w => a.min_flow = 1 ∧ a.max_flow = 1 ∧ a.current_flow = 0 ∧ a.cost = 0 ∧
      ((a.start_node = 0 ∧ a.end_node = w) ∨ (a.start_node = w ∧ a.end_node = 0))
  | .affA w t aff => a.min_flow = 1 ∧ a.max_flow = 1 ∧ a.current_flow = 0 ∧
      ((a.start_node = w ∧ a.end_node = t ∧ a.cost = aff) ∨
       (a.start_node = t ∧ a.end_node = w ∧ a.cost = -aff))

/-- Static well-formedness of a ledger: ids are in range and off the
source/sink, tasks and workers are disjoint, and every arc connects the
node kinds its class says it does. -/
def LedgerOK (L : Ledger α) : Prop :=
  2 ≤ L.numNodes ∧
  (∀ x ∈ L.taskIds, 2 ≤ x ∧ x < L.numNodes) ∧
  (∀ x ∈ L.workerIds, 2 ≤ x ∧ x < L.numNodes) ∧
  (∀ x ∈ L.taskIds, x ∉ L.workerIds) ∧
  (∀ i ∈ L.infos, match i with
    | .sinkA t _ _ => t ∈ L.taskIds
    | .srcA w => w ∈ L.workerIds
    | .affA w t _ => w ∈ L.workerIds ∧ t ∈ L.taskIds)

/-- The solve-time invariant: arena sizes match the ledger, every arc
matches its class, and the node connection lists exactly index the arcs by
current start node, without duplicates. -/
def Inv (L : Ledger α) (st : Network α) : Prop :=
  st.nodes.length = L.numNodes ∧
  st.arcs.length = L.infos.length ∧
  (∀ id, id < st.arcs.length → ArcMatches (L.infos.getD id (.srcA 0)) (st.getArc id)) ∧
  (∀ n, ∀ id ∈ (st.getNode n).connected_arcs, id < st.arcs.length ∧ (st.getArc id).start_node = n) ∧
  (∀ id, id < st.arcs.length → id ∈ (st.getNode (st.getArc id).start_node).connected_arcs) ∧
  (∀ n, (st.getNode n).connected_arcs.Nodup)

/-- The build-time affinity recorded for an arc id (0 for non-affinity
arcs, whose cost never contributes to a score). -/
def arcAffD (L : Ledger α) (id : ℕ) : α :=
  match L.infos.getD id (.srcA 0) with
  | .affA _ _ aff => aff
  | _ => 0

/-- The total assignment score read from a solved network: for each task,
the sum of the build-time affinities of the arcs currently originating at
the task whose end is not the sink (§4.7: those ends are the assigned
workers). -/
def total_score (L : Ledger α) (st : Network α) : α :=
  (L.taskIds.map (fun t =>
    (((st.getNode t).connected_arcs.filter (fun id => (st.getArc id).end_node != 1)).map
      (arcAffD L)).sum)).sum

/-- The sum of current costs of the arcs originating at the given nodes
whose end is not the sink. -/
def Network.residual_cost (st : Network α) (nodeIds : List ℕ) : α :=
  (nodeIds.map (fun t =>
    (((st.getNode t).connected_arcs.filter (fun id => (st.getArc id).end_node != 1)).map
      (fun id => (st.getArc id).cost)).sum)).sum

/-! Concrete build inputs used by the claim theorems, witnesses and
counterexamples. -/

/-- Two zero-minimum tasks capped at one worker each; two workers that both
score task node 2 low (cost 1) and task node 3 high (cost 5), so the
cheapest augmenting path runs through task 2 both times. -/
def c1cmds : List (BuildCmd ℤ) :=
  [.task 0 1, .task 0 1, .worker [(2, 1), (3, 5)], .worker [(2, 1), (3, 5)]]

/-- Same shape as `c1cmds` with a different affinity spread. -/
def c2cmds : List (BuildCmd ℤ) :=
  [.task 0 1, .task 0 1, .worker [(2, 1), (3, 7)], .worker [(2, 1), (3, 7)]]

/-- One task with a minimum, one compatible worker: a solve that runs the
phase transition. -/
def c3cmds : List (BuildCmd ℤ) := [.task 1 1, .worker [(2, 1)]]

/-- A task whose declared minimum exceeds its maximum (the Network itself
does not validate this) plus one worker: worker count is below the sum of
minima and above the sum of maxima at the same time. -/
def c5cmds : List (BuildCmd ℤ) := [.task 3 0, .worker []]

/-- Two tasks with minimum 1; both workers only accept the first task, so
the second augmentation finds no path after the first one mutated arcs. -/
def c6cmds : List (BuildCmd ℤ) :=
  [.task 1 1, .task 1 1, .worker [(2, 1)], .worker [(2, 1)]]

/-- A task network with no workers, for the count-error witness. -/
def c6bcmds : List (BuildCmd ℤ) := [.task 2 2]

/-- A feasible two-worker instance for the iteration-count witness. -/
def c8cmds : List (BuildCmd ℤ) := [.task 1 2, .worker [(2, 2)], .worker [(2, 3)]]

/-- A feasible one-worker instance for the score witness. -/
def c4cmds : List (BuildCmd ℤ) := [.task 1 1, .worker [(2, 3)]]

/-- Zero-minimum one-task network used to exercise the phase reset. -/
def c3aNet : Network ℤ := build [.task 0 1]

/-- One-task one-worker build used to exercise the shortest-path search. -/
def c7cmds : List (BuildCmd ℤ) := [.task 1 1, .worker [(2, 5)]]

/-- The parser contract for a single command against a ledger. -/
def CmdOK (L : Ledger α) : BuildCmd α → Prop
  | .task _ _ => True
  | .worker affs => ∀ a ∈ affs, a.1 ∈ L.taskIds

/-! Definitions for the analysis of `find_shortest_path` (claim C7). -/

/-- The initial search state of `find_shortest_path`. -/
def sp0 (st : Network α) : SPState α :=
  { distances := (List.replicate st.nodes.length (none : Option α)).set 0 (some 0),
    predecessors := List.replicate st.nodes.length none,
    nodes_updated := [0] }

/-- Distance of node `v` in a search state (`none` is `+∞`). -/
def SPState.dist (s : SPState α) (v : ℕ) : Option α := s.distances.getD v none

/-- Recorded predecessor of node `v`. -/
def SPState.pred (s : SPState α) (v : ℕ) : Option ℕ := s.predecessors.getD v none

/-- Non-strict order on distances (`none` is `+∞`). -/
def distLe (a b : Option α) : Prop :=
  match a, b with
  | _, none => True
  | none, some _ => False
  | some x, some y => x ≤ y

/-- Node `u`'s outgoing arcs admit no improvement in state `s`. -/
def Relaxed (st : Network α) (s : SPState α) (u : ℕ) : Prop :=
  ∀ id ∈ (st.getNode u).connected_arcs,
    distLt (distAdd (s.dist u) (st.getArc id).cost)
      (s.dist ((st.getArc id).end_node)) = false

/-- Every finite-distance node off the worklist and off the exemption list
`R` has been fully relaxed. -/
def Pending (st : Network α) (s : SPState α) (R : List ℕ) : Prop :=
  ∀ u, u ≠ 1 → s.dist u ≠ none → u ∉ s.nodes_updated → u ∉ R → Relaxed st s u

/-- Structural invariants of the search state. -/
def SPBase (st : Network α) (s : SPState α) : Prop :=
  s.distances.length = st.nodes.length ∧
  s.predecessors.length = st.nodes.length ∧
  (∃ d0, s.dist 0 = some d0 ∧ d0 ≤ 0) ∧
  (∀ v, v ≠ 0 → s.dist v ≠ none → s.pred v ≠ none) ∧
  (∀ v u, s.pred v = some u → u ≠ 1 ∧ s.dist u ≠ none ∧ s.dist v ≠ none) ∧
  (∀ x ∈ s.nodes_updated, x ≠ 1 ∧ s.dist x ≠ none)

/-- Ghost bookkeeping for predecessor assignments: the distance value read
at assignment time and a timestamp ordering of writes. -/
def SPGhost (st : Network α) (s : SPState α) : Prop :=
  ∃ (r : ℕ → α) (f : ℕ → ℕ) (B : ℕ),
    (∀ v, f v < B) ∧
    ∀ v u, s.pred v = some u →
      ∃ id, id ∈ (st.getNode u).connected_arcs ∧
        (st.getArc id).end_node = v ∧
        s.dist v = some (r v + (st.getArc id).cost) ∧
        ((f u < f v ∧ s.dist u = some (r v)) ∨
         (f v < f u ∧ ∃ du, s.dist u = some du ∧ du < r v) ∨
         (u = v ∧ (st.getArc id).cost < 0))

/-- `IsWalk st l a b`: the arc ids `l` form a relaxation walk from `a` to
`b`: each arc is taken from the connection list of the node reached so
far, and every node a step starts from is off the sink. -/
def IsWalk (st : Network α) : List ℕ → ℕ → ℕ → Prop
  | [], a, b => a = b
  | id :: l, a, b =>
    a ≠ 1 ∧ id ∈ (st.getNode a).connected_arcs ∧
      IsWalk st l ((st.getArc id).end_node) b

/-- Total cost of a walk. -/
def walkCost (st : Network α) (l : List ℕ) : α :=
  (l.map (fun id => (st.getArc id).cost)).sum

/-- The nodes visited by a walk, start first. -/
def walkVerts (st : Network α) : List ℕ → ℕ → List ℕ
  | [], a => [a]
  | id :: l, a => a :: walkVerts st l ((st.getArc id).end_node)

/-- Walk ghosts at a pass boundary: every finite distance is the cost of a
walk from the source whose vertices all have finite distances, and the
walk of a worklist member after pass `k` has at least `k` arcs. -/
def SPWalks (st : Network α) (s : SPState α) (k : ℕ) : Prop :=
  ∀ v dv, s.dist v = some dv →
    ∃ l, IsWalk st l 0 v ∧ walkCost st l = dv ∧
      (∀ x ∈ walkVerts st l 0, s.dist x ≠ none) ∧
      (v ∈ s.nodes_updated → k ≤ l.length)

/-- Mid-pass walk ghosts: `snap` is the snapshot the pass relaxes from
(whose members carry walks of at least `k` arcs), and freshly enqueued
nodes carry walks of at least `k + 1` arcs. -/
def SPWalksMid (st : Network α) (s : SPState α) (k : ℕ) (snap : List ℕ) : Prop :=
  ∀ v dv, s.dist v = some dv →
    ∃ l, IsWalk st l 0 v ∧ walkCost st l = dv ∧
      (∀ x ∈ walkVerts st l 0, s.dist x ≠ none) ∧
      (v ∈ snap → k ≤ l.length) ∧
      (v ∈ s.nodes_updated → k + 1 ≤ l.length)

/-- Upper bound after `k` passes: every walk of at most `k` arcs bounds
the distance of its end node. -/
def SPUpper (st : Network α) (s : SPState α) (k : ℕ) : Prop :=
  ∀ (l : List ℕ) (v : ℕ), IsWalk st l 0 v → l.length ≤ k →
    ∃ dv, s.dist v = some dv ∧ dv ≤ walkCost st l

/-- Iterated search passes from the initial state. -/
def spIter (st : Network α) : ℕ → SPState α
  | 0 => sp0 st
  | k + 1 => st.spPass (spIter st k)

/-- Pointwise distance decrease (`s` at most `s'`). -/
def DistLeS (s s' : SPState α) : Prop := ∀ v, distLe (s.dist v) (s'.dist v)

/-- All worklist members strictly improved on a reference state. -/
def StrictOn (s sRef : SPState α) : Prop :=
  ∀ v ∈ s.nodes_updated, distLt (s.dist v) (sRef.dist v) = true

/-- Each listed node's arcs are bounded by its reference distance. -/
def BoundBy (st : Network α) (s sRef : SPState α) (done : List ℕ) : Prop :=
  ∀ u ∈ done, ∀ id ∈ (st.getNode u).connected_arcs,
    distLe (s.dist ((st.getArc id).end_node))
      (distAdd (sRef.dist u) (st.getArc id).cost)

/-- In-range arc ends for every arc registered in a node's list — true of
every network this program builds (an out-of-range end would make the Rust
code panic on indexing before any of the behaviour described here). -/
def EndsInRange (st : Network α) : Prop :=
  ∀ n, ∀ id ∈ (st.getNode n).connected_arcs,
    (st.getArc id).end_node < st.nodes.length

/-! Helper lemmas about lists and the node operations. -/

theorem getD_set_ne {β : Type} (l : List β) {i j : ℕ} (a d : β) (h : i ≠ j) :
    (l.set i a).getD j d = l.getD j d := by
  simp [List.getD_eq_getElem?_getD, List.getElem?_set_ne h]

theorem getD_set_self {β : Type} (l : List β) {i : ℕ} (a d : β) (h : i < l.length) :
    (l.set i a).getD i d = a := by
  simp [List.getD_eq_getElem?_getD, List.getElem?_set_eq_of_lt a h]

theorem getD_append_lt {β : Type} (l l' : List β) {i : ℕ} (d : β) (h : i < l.length) :
    (l ++ l').getD i d = l.getD i d := by
  simp [List.getD_eq_getElem?_getD, List.getElem?_append, h]

theorem getD_append_len {β : Type} (l : List β) (a d : β) :
    (l ++ [a]).getD l.length d = a := by
  simp [List.getD_eq_getElem?_getD, List.getElem?_concat_length]

/-- `swap_remove` at a valid index is a permutation of plain index
removal. -/
theorem swapRemove_perm {β : Type} (l : List β) (i : ℕ) (h : i < l.length) :
    List.Perm (swapRemove l i) (l.eraseIdx i) := by
  have hne : l ≠ [] := by rintro rfl; simp at h
  obtain ⟨b, hb⟩ : ∃ b, l.getLast? = some b := ⟨l.getLast hne, List.getLast?_eq_getLast l hne⟩
  have hsw : swapRemove l i = (l.set i b).dropLast := by
    unfold swapRemove; rw [hb]
  rw [hsw, List.eraseIdx_eq_take_drop_succ, List.set_eq_take_append_cons_drop, if_pos h]
  rcases hD : l.drop (i + 1) with _ | ⟨c, D'⟩
  · -- removing the last element: `set` wrote `b` over itself
    simp
  · -- the dropped suffix is non-empty, so it ends in `b`
    have hDne : l.drop (i + 1) ≠ [] := by rw [hD]; simp
    have hlast : (l.drop (i + 1)).getLast? = some b := by
      conv_lhs => rw [← List.getLast?_append_of_ne_nil (l.take (i + 1)) hDne]
      rw [List.take_append_drop]; exact hb
    obtain ⟨E, hE⟩ := List.getLast?_eq_some_iff.mp hlast
    rw [← hD, hE]
    have hgrp : l.take i ++ b :: (E ++ [b]) = (l.take i ++ b :: E) ++ [b] := by simp
    rw [hgrp, List.dropLast_concat]
    have hp := List.Perm.append_left (l.take i) (List.perm_append_singleton b E).symm
    simpa using hp

/-- `findIdx?` failure means no element satisfies the predicate. -/
theorem findIdx?_none_not_mem (x : ℕ) :
    ∀ (l : List ℕ) (s : ℕ), l.findIdx? (· = x) s = none → x ∉ l := by
  intro l
  induction l with
  | nil => intro s _; simp
  | cons a as ih =>
    intro s h
    rw [List.findIdx?_cons] at h
    by_cases ha : a = x
    · rw [if_pos (by simp [ha])] at h; exact absurd h (by simp)
    · rw [if_neg (by simp [ha])] at h
      simp only [List.mem_cons]
      rintro (rfl | hm)
      · exact ha rfl
      · exact ih (s + 1) h hm

/-- `findIdx?` success decomposes the list around the first match. -/
theorem findIdx?_decomp (x : ℕ) :
    ∀ (l : List ℕ) (s i : ℕ), l.findIdx? (· = x) s = some i →
      ∃ k, k < l.length ∧ l.take k ++ x :: l.drop (k + 1) = l ∧ x ∉ l.take k ∧ i = s + k := by
  intro l
  induction l with
  | nil => intro s i h; simp [List.findIdx?] at h
  | cons a as ih =>
    intro s i h
    rw [List.findIdx?_cons] at h
    by_cases ha : a = x
    · rw [if_pos (by simp [ha])] at h
      refine ⟨0, by simp, by simp [ha], by simp, ?_⟩
      simp only [Option.some.injEq] at h
      omega
    · rw [if_neg (by simp [ha])] at h
      obtain ⟨k, hk, hdec, hnm, hi⟩ := ih (s + 1) i h
      refine ⟨k + 1, by simp only [List.length_cons]; omega, ?_, ?_, by omega⟩
      · simpa using hdec
      · simp only [List.take_succ_cons, List.mem_cons]
        rintro (rfl | hm)
        · exact ha rfl
        · exact hnm hm

/-- Swap-removing the first occurrence of `x` from `L1 ++ x :: L2` (with
`x ∉ L1`) is, up to permutation, `erase x`. -/
theorem swapRemove_middle_perm (L1 L2 : List ℕ) (x : ℕ) (hx : x ∉ L1) :
    List.Perm (swapRemove (L1 ++ x :: L2) L1.length) ((L1 ++ x :: L2).erase x) := by
  have hlt : L1.length < (L1 ++ x :: L2).length := by simp
  have h1 := swapRemove_perm (L1 ++ x :: L2) L1.length hlt
  have h2 : (L1 ++ x :: L2).eraseIdx L1.length = L1 ++ L2 := by
    rw [List.eraseIdx_eq_take_drop_succ, List.take_left]
    congr 1
    rw [List.drop_append_eq_append_drop]
    simp [List.drop_eq_nil_of_le]
  have h3 : (L1 ++ x :: L2).erase x = L1 ++ L2 := by
    rw [List.erase_append_right _ hx, List.erase_cons_head]
  rw [h2] at h1
  rw [h3]
  exact h1

/-- Specification of `Node.remove_connection` on success: the id was
present, and the resulting list is the original with its first occurrence
removed, up to permutation. -/
theorem remove_connection_spec (nd : Node) (x : ℕ) (nd' : Node)
    (h : nd.remove_connection x = some nd') :
    x ∈ nd.connected_arcs ∧
      List.Perm nd'.connected_arcs (nd.connected_arcs.erase x) := by
  unfold Node.remove_connection at h
  rcases hf : nd.connected_arcs.findIdx? (· = x) with _ | i
  · rw [hf] at h; exact absurd h (by simp)
  · rw [hf] at h
    simp only [Option.some.injEq] at h
    obtain ⟨k, hk, hdec, hnm, hi⟩ := findIdx?_decomp x nd.connected_arcs 0 i hf
    have hik : i = k := by omega
    subst hik
    have hmem : x ∈ nd.connected_arcs := by
      rw [← hdec]; simp
    refine ⟨hmem, ?_⟩
    have hlen : (nd.connected_arcs.take i).length = i := by
      simp [List.length_take]; omega
    have hp := swapRemove_middle_perm (nd.connected_arcs.take i)
      (nd.connected_arcs.drop (i + 1)) x hnm
    rw [hlen, hdec] at hp
    rw [← h]
    exact hp

/-- `remove_connection` succeeds exactly on present ids. -/
theorem remove_connection_of_mem (nd : Node) (x : ℕ) (h : x ∈ nd.connected_arcs) :
    ∃ nd', nd.remove_connection x = some nd' := by
  unfold Node.remove_connection
  rcases hf : nd.connected_arcs.findIdx? (· = x) with _ | i
  · exact absurd h (findIdx?_none_not_mem x nd.connected_arcs 0 hf)
  · exact ⟨_, rfl⟩

theorem add_connection_of_mem (nd : Node) (x : ℕ) (h : x ∈ nd.connected_arcs) :
    nd.add_connection x = nd := by
  unfold Node.add_connection
  simp [h]

theorem add_connection_of_not_mem (nd : Node) (x : ℕ) (h : x ∉ nd.connected_arcs) :
    (nd.add_connection x).connected_arcs = nd.connected_arcs ++ [x] := by
  unfold Node.add_connection
  simp [h]

/-- Record surgery on a network's nodes never touches the phase flag, the
counters or the arcs arena. -/
theorem setNode_scalars (st : Network α) (i : ℕ) (nd : Node) :
    (st.setNode i nd).min_flow_satisfied = st.min_flow_satisfied ∧
    (st.setNode i nd).min_flow_amount = st.min_flow_amount ∧
    (st.setNode i nd).max_flow_amount = st.max_flow_amount ∧
    (st.setNode i nd).num_tasks = st.num_tasks ∧
    (st.setNode i nd).arcs = st.arcs ∧
    (st.setNode i nd).nodes.length = st.nodes.length := by
  simp [Network.setNode]

/-- One `resetStep` leaves the phase flag unchanged. -/
theorem resetStep_flag (st : Network α) (id : ℕ) (st2 : Network α)
    (h : st.resetStep id = some st2) : st2.min_flow_satisfied = st.min_flow_satisfied := by
  unfold Network.resetStep at h
  rcases hup : (st.getArc id).update_for_second_phase with ⟨a2, inverted⟩
  rw [hup] at h
  rcases inverted with _ | _
  · simp only [Bool.false_eq_true, if_false, Option.some.injEq] at h
    rw [← h]
  · simp only [if_true] at h
    rcases hrm : ({ st with arcs := st.arcs.set id a2 } : Network α).getNode a2.end_node
        |>.remove_connection id with _ | ndE
    · rw [hrm] at h; exact absurd h (by simp)
    · rw [hrm] at h
      simp only [Option.some.injEq] at h
      rw [← h]
      simp [Network.setNode]

/-- Folding `resetStep` over any id list leaves the phase flag unchanged. -/
theorem foldlM_resetStep_flag :
    ∀ (ids : List ℕ) (st st' : Network α),
      List.foldlM Network.resetStep st ids = some st' →
      st'.min_flow_satisfied = st.min_flow_satisfied := by
  intro ids
  induction ids with
  | nil =>
    intro st st' h
    simp only [List.foldlM_nil, Option.pure_def, Option.some.injEq] at h
    rw [← h]
  | cons a as ih =>
    intro st st' h
    rw [List.foldlM_cons] at h
    rcases hres : st.resetStep a with _ | st1
    · rw [hres] at h; exact absurd h (by simp)
    · rw [hres] at h
      rw [ih st1 st' h, resetStep_flag st a st1 hres]

/-- C3: contrary to the claim, `reset_arcs_for_second_phase` never writes
the `min_flow_satisfied` flag — every successful invocation leaves the flag
exactly as it was (and the flag starts `false` and is never set anywhere
else in the module). -/
theorem C3_reset_does_not_set_flag (st st' : Network α)
    (h : st.reset_arcs_for_second_phase = some st') :
    st'.min_flow_satisfied = st.min_flow_satisfied := by
  unfold Network.reset_arcs_for_second_phase at h
  exact foldlM_resetStep_flag _ st st' h

/-- Witness for C3: a concrete invocation of the phase reset (which here
inverts the sink→task arc) leaves the flag `false`. -/
theorem C3_reset_flag_witness :
    c3aNet.reset_arcs_for_second_phase = some (c3aNet.reset_arcs_for_second_phase.getD Network.new) ∧
    (c3aNet.reset_arcs_for_second_phase.getD Network.new).min_flow_satisfied = c3aNet.min_flow_satisfied :=
  ⟨by rfl, C3_reset_does_not_set_flag _ _ (by rfl)⟩

/-- C1: on the concrete run `c1cmds` the solver succeeds yet assigns two
workers to task node 2 whose `max_workers` is 1 (the bound recorded on arc
0, its task↔sink arc) — the claimed upper bound fails on the code. -/
theorem C1_task_maximum_violated :
    (SolveRes.okState (build c1cmds).find_min_cost_max_flow).map
      (fun st => (st.workers_assigned 2, (st.getArc 0).max_flow)) = some (2, 1) := by
  decide

/-- C2: on the concrete run `c2cmds` the solver pushes a second unit of
flow down arc 0 (task node 2's task→sink arc, capacity 1) without
inverting it, reaching `current_flow = 2 > max_flow = 1` — the claimed
flow invariant fails on the code. -/
theorem C2_flow_exceeds_capacity :
    (SolveRes.okState (build c2cmds).find_min_cost_max_flow).map
      (fun st => ((st.getArc 0).current_flow, (st.getArc 0).max_flow)) = some (2, 1) := by
  decide

/-- C9: `push_flow`, `invert` and `update_for_second_phase` all preserve an
arc's `min_flow` and `max_flow`; the bounds are fixed at construction. -/
theorem C9_flow_bounds_fixed (a : Arc α) (phase : Bool) :
    ((a.push_flow phase).1.min_flow = a.min_flow ∧ (a.push_flow phase).1.max_flow = a.max_flow) ∧
    (a.invert.min_flow = a.min_flow ∧ a.invert.max_flow = a.max_flow) ∧
    ((a.update_for_second_phase).1.min_flow = a.min_flow ∧
      (a.update_for_second_phase).1.max_flow = a.max_flow) := by
  refine ⟨⟨?_, ?_⟩, ⟨rfl, rfl⟩, ⟨?_, ?_⟩⟩ <;>
    simp only [Arc.push_flow, Arc.update_for_second_phase, Arc.invert] <;>
    (split <;> try split) <;> rfl

/-- C10: inverting an arc twice restores its endpoints and cost and leaves
`current_flow = 0`; and the corresponding double move of the arc id between
the two endpoint lists restores both connection lists up to permutation,
provided the id occurred once in the start list and not at all in the end
list. -/
theorem C10_double_inversion (a : Arc α) (u v : Node) (x : ℕ)
    (hcount : u.connected_arcs.count x = 1) (hv : x ∉ v.connected_arcs) :
    a.invert.invert = { a with current_flow := 0 } ∧
    ∃ u1 v2 : Node,
      u.remove_connection x = some u1 ∧
      (v.add_connection x).remove_connection x = some v2 ∧
      List.Perm ((u1.add_connection x).connected_arcs) u.connected_arcs ∧
      List.Perm v2.connected_arcs v.connected_arcs := by
  constructor
  · simp [Arc.invert]
  · have hmemu : x ∈ u.connected_arcs := by
      by_contra hx
      have := List.count_eq_zero.mpr hx
      omega
    obtain ⟨u1, hu1⟩ := remove_connection_of_mem u x hmemu
    obtain ⟨-, hperm1⟩ := remove_connection_spec u x u1 hu1
    have hx1 : x ∉ u1.connected_arcs := by
      intro hx
      have hc1 := hperm1.count_eq x
      have hc2 := List.count_erase_self x u.connected_arcs
      have hpos : 0 < u1.connected_arcs.count x := List.count_pos_iff.mpr hx
      omega
    have hadd1 := add_connection_of_not_mem u1 x hx1
    have haddv := add_connection_of_not_mem v x hv
    have hmemv : x ∈ (v.add_connection x).connected_arcs := by rw [haddv]; simp
    obtain ⟨v2, hv2⟩ := remove_connection_of_mem _ x hmemv
    obtain ⟨-, hperm2⟩ := remove_connection_spec _ x v2 hv2
    refine ⟨u1, v2, hu1, hv2, ?_, ?_⟩
    · rw [hadd1]
      have p1 : List.Perm (u1.connected_arcs ++ [x]) (x :: u1.connected_arcs) :=
        List.perm_append_singleton x _
      have p2 : List.Perm (x :: u1.connected_arcs) (x :: u.connected_arcs.erase x) :=
        List.Perm.cons x hperm1
      have p3 : List.Perm (x :: u.connected_arcs.erase x) u.connected_arcs :=
        (List.perm_cons_erase hmemu).symm
      exact (p1.trans p2).trans p3
    · have herase : (v.add_connection x).connected_arcs.erase x = v.connected_arcs := by
        rw [haddv, List.erase_append_right _ hv]
        simp
      rw [herase] at hperm2
      exact hperm2

/-- Arc creation does not touch the flag or the counters and appends one
arc. -/
theorem add_arc_scalars (st : Network α) (s e : ℕ) (c : α) (mn mx : ℕ) :
    (st.add_arc s e c mn mx).min_flow_satisfied = st.min_flow_satisfied ∧
    (st.add_arc s e c mn mx).min_flow_amount = st.min_flow_amount ∧
    (st.add_arc s e c mn mx).max_flow_amount = st.max_flow_amount ∧
    (st.add_arc s e c mn mx).num_tasks = st.num_tasks ∧
    (st.add_arc s e c mn mx).nodes.length = st.nodes.length ∧
    (st.add_arc s e c mn mx).arcs.length = st.arcs.length + 1 := by
  simp [Network.add_arc, Network.setNode]

/-- The affinity-arc fold of `add_worker` does not touch the flag, the
counters or the node count. -/
theorem affFold_scalars :
    ∀ (affs : List (ℕ × α)) (st : Network α) (w : ℕ),
      ((affs.foldl (fun acc aff => acc.add_arc w aff.1 aff.2 1 1) st).min_flow_satisfied
          = st.min_flow_satisfied) ∧
      ((affs.foldl (fun acc aff => acc.add_arc w aff.1 aff.2 1 1) st).min_flow_amount
          = st.min_flow_amount) ∧
      ((affs.foldl (fun acc aff => acc.add_arc w aff.1 aff.2 1 1) st).max_flow_amount
          = st.max_flow_amount) ∧
      ((affs.foldl (fun acc aff => acc.add_arc w aff.1 aff.2 1 1) st).num_tasks
          = st.num_tasks) ∧
      ((affs.foldl (fun acc aff => acc.add_arc w aff.1 aff.2 1 1) st).nodes.length
          = st.nodes.length) := by
  intro affs
  induction affs with
  | nil => intro st w; simp
  | cons a as ih =>
    intro st w
    simp only [List.foldl_cons]
    obtain ⟨h1, h2, h3, h4, h5, -⟩ := add_arc_scalars st w a.1 a.2 1 1
    obtain ⟨g1, g2, g3, g4, g5⟩ := ih (st.add_arc w a.1 a.2 1 1) w
    exact ⟨g1.trans h1, g2.trans h2, g3.trans h3, g4.trans h4, g5.trans h5⟩

/-- Effect of one build command on the flag, the counters and the node
count. -/
theorem buildStep_scalars (st : Network α) (c : BuildCmd α) :
    ((buildStep st c).min_flow_satisfied = st.min_flow_satisfied) ∧
    ((buildStep st c).min_flow_amount
        = st.min_flow_amount + (match c with | .task mn _ => mn | .worker _ => 0)) ∧
    ((buildStep st c).max_flow_amount
        = st.max_flow_amount + (match c with | .task _ mx => mx | .worker _ => 0)) ∧
    ((buildStep st c).num_tasks
        = st.num_tasks + (match c with | .task _ _ => 1 | .worker _ => 0)) ∧
    ((buildStep st c).nodes.length = st.nodes.length + 1) := by
  rcases c with ⟨mn, mx⟩ | affs
  · unfold buildStep Network.add_task Network.add_node
    by_cases hmn : 0 < mn
    · simp only [if_pos hmn]
      obtain ⟨h1, h2, h3, h4, h5, -⟩ := add_arc_scalars
        ({ min_flow_satisfied := st.min_flow_satisfied,
           min_flow_amount := st.min_flow_amount + mn,
           max_flow_amount := st.max_flow_amount + mx,
           num_tasks := st.num_tasks + 1,
           nodes := st.nodes ++ [emptyNode], arcs := st.arcs } : Network α)
        st.nodes.length 1 0 mn mx
      refine ⟨h1, ?_, ?_, ?_, ?_⟩ <;> simp only [h2, h3, h4, h5] <;> simp
    · simp only [if_neg hmn]
      obtain ⟨h1, h2, h3, h4, h5, -⟩ := add_arc_scalars
        ({ min_flow_satisfied := st.min_flow_satisfied,
           min_flow_amount := st.min_flow_amount + mn,
           max_flow_amount := st.max_flow_amount + mx,
           num_tasks := st.num_tasks + 1,
           nodes := st.nodes ++ [emptyNode], arcs := st.arcs } : Network α)
        1 st.nodes.length 0 mn mx
      refine ⟨h1, ?_, ?_, ?_, ?_⟩ <;> simp only [h2, h3, h4, h5] <;> simp
  · unfold buildStep Network.add_worker Network.add_node
    obtain ⟨g1, g2, g3, g4, g5⟩ := affFold_scalars affs
      (({ st with nodes := st.nodes ++ [emptyNode] } : Network α).add_arc
        0 st.nodes.length 0 1 1) st.nodes.length
    obtain ⟨h1, h2, h3, h4, h5, -⟩ := add_arc_scalars
      ({ st with nodes := st.nodes ++ [emptyNode] } : Network α) 0 st.nodes.length 0 1 1
    refine ⟨g1.trans h1, ?_, ?_, ?_, ?_⟩ <;> simp only [g2, g3, g4, g5, h2, h3, h4, h5] <;> simp

/-- The counters, flag and node count of a partially built network. -/
theorem buildAux_scalars :
    ∀ (cmds : List (BuildCmd α)) (st : Network α),
      ((cmds.foldl buildStep st).min_flow_amount = st.min_flow_amount + sumMinima cmds) ∧
      ((cmds.foldl buildStep st).max_flow_amount = st.max_flow_amount + sumMaxima cmds) ∧
      ((cmds.foldl buildStep st).num_tasks = st.num_tasks + taskCount cmds) ∧
      ((cmds.foldl buildStep st).nodes.length
          = st.nodes.length + taskCount cmds + workerCount cmds) ∧
      ((cmds.foldl buildStep st).min_flow_satisfied = st.min_flow_satisfied) := by
  intro cmds
  induction cmds with
  | nil => intro st; simp [sumMinima, sumMaxima, taskCount, workerCount]
  | cons c rest ih =>
    intro st
    simp only [List.foldl_cons]
    obtain ⟨g1, g2, g3, g4, g5⟩ := ih (buildStep st c)
    obtain ⟨h1, h2, h3, h4, h5⟩ := buildStep_scalars st c
    rcases c with ⟨mn, mx⟩ | affs
    · refine ⟨?_, ?_, ?_, ?_, g5.trans h1⟩ <;>
        simp only [g1, g2, g3, g4, h2, h3, h4, h5, sumMinima, sumMaxima, taskCount, workerCount] <;>
        omega
    · refine ⟨?_, ?_, ?_, ?_, g5.trans h1⟩ <;>
        simp only [g1, g2, g3, g4, h2, h3, h4, h5, sumMinima, sumMaxima, taskCount, workerCount] <;>
        omega

/-- The counters, flag and node count of a freshly built network. -/
theorem build_scalars (cmds : List (BuildCmd α)) :
    (build cmds).min_flow_amount = sumMinima cmds ∧
    (build cmds).max_flow_amount = sumMaxima cmds ∧
    (build cmds).num_tasks = taskCount cmds ∧
    (build cmds).nodes.length = 2 + taskCount cmds + workerCount cmds ∧
    (build cmds).min_flow_satisfied = false := by
  obtain ⟨h1, h2, h3, h4, h5⟩ := buildAux_scalars cmds Network.new
  unfold build
  refine ⟨?_, ?_, ?_, ?_, ?_⟩ <;> simp only [h1, h2, h3, h4, h5] <;> simp [Network.new] <;> omega

/-- A `solve_iteration` that surfaces a feasibility error surfaces the
`Infeasible` message with the state it was given. -/
theorem solve_iteration_err_msg (st : Network α) (cf : ℕ) (msg : String) (st' : Network α)
    (h : st.solve_iteration cf = .inl (.err msg st')) :
    msg = "Unable to assign all workers!" ∧ st' = st := by
  unfold Network.solve_iteration at h
  rcases hsp : st.find_shortest_path with p | _ | _ | _ | _ <;> simp only [hsp] at h
  · -- a path was found: every outcome from here is `bug` or `inr`
    rcases hpush : st.push_flow_down_path p with _ | st2 <;> simp only [hpush] at h
    · exact absurd h (by simp)
    · split at h
      · rcases hreset : st2.reset_arcs_for_second_phase with _ | st3 <;> simp only [hreset] at h
        · exact absurd h (by simp)
        · exact absurd h (by simp)
      · exact absurd h (by simp)
  · simp only [Sum.inl.injEq, SolveRes.err.injEq] at h
    exact ⟨h.1.symm, h.2.symm⟩
  · exact absurd h (by simp)
  · exact absurd h (by simp)
  · exact absurd h (by simp)

/-- Any `err` surfaced by the augmentation loop carries the `Infeasible`
message — the two count-based messages only arise from the pre-loop
checks. -/
theorem solveLoop_err :
    ∀ (fuel : ℕ) (st : Network α) (cf iters : ℕ) (msg : String) (st' : Network α),
      solveLoop fuel st cf iters = .err msg st' →
      msg = "Unable to assign all workers!" := by
  intro fuel
  induction fuel with
  | zero =>
    intro st cf iters msg st' h
    unfold solveLoop at h
    split at h <;> exact absurd h (by simp)
  | succ fuel ih =>
    intro st cf iters msg st' h
    unfold solveLoop at h
    split at h
    · exact absurd h (by simp)
    · rcases hit : st.solve_iteration cf with r | pr <;> rw [hit] at h
      · subst h
        exact (solve_iteration_err_msg st cf msg st' hit).1
      · exact ih pr.1 pr.2 (iters + 1) msg st' h

/-- C6 (amended): the two pre-loop count checks return their errors with
the network exactly as it was handed in; nothing has been mutated when they
fire. -/
theorem C6_count_errors_leave_network_unchanged (st : Network α) (msg : String)
    (st' : Network α)
    (hmsg : msg = "Not enough workers to assign!" ∨ msg = "Not enough capacity for workers!")
    (h : st.find_min_cost_max_flow = .err msg st') : st' = st := by
  simp only [Network.find_min_cost_max_flow] at h
  split at h
  · simp only [SolveRes.err.injEq] at h
    exact h.2.symm
  · split at h
    · simp only [SolveRes.err.injEq] at h
      exact h.2.symm
    · rcases hr : (if st.min_flow_amount = 0 then st.reset_arcs_for_second_phase else some st)
          with _ | st1 <;> rw [hr] at h
      · exact absurd h (by simp)
      · have hu := solveLoop_err _ st1 0 0 msg st' h
        rcases hmsg with hm | hm <;> (subst hm; exact absurd hu (by decide))

/-- Witness for the amended C6: a network with a task minimum of 2 and no
workers fails the worker-count check and is returned untouched. -/
theorem C6_count_errors_witness :
    ((build c6bcmds).find_min_cost_max_flow
        = SolveRes.err "Not enough workers to assign!" (build c6bcmds)) ∧
    (build c6bcmds) = (build c6bcmds) :=
  ⟨by decide,
   C6_count_errors_leave_network_unchanged (build c6bcmds) _ _ (Or.inl rfl) (by decide)⟩

/-- C6 counterexample: on `c6cmds` the solver reports the `Infeasible`
error after its first augmentation already mutated arcs and connection
lists, so the network it leaves behind differs from the one it was given —
the claim that every feasibility error leaves the network unmodified fails
for `Infeasible`. -/
theorem C6_infeasible_modifies_network :
    ((build c6cmds).find_min_cost_max_flow.errInfo).map Prod.fst
        = some "Unable to assign all workers!" ∧
    ((build c6cmds).find_min_cost_max_flow.errInfo).map Prod.snd ≠ some (build c6cmds) := by
  constructor
  · decide
  · decide

/-- C5 (amended): `find_min_cost_max_flow` fails with `InsufficientWorkers`
exactly when the worker count is below the sum of task minima, and with
`InsufficientCapacity` exactly when the worker count is not below the sum
of minima and strictly above the sum of maxima (the minima check fires
first); both errors return the freshly built network unchanged. -/
theorem C5_feasibility_checks (cmds : List (BuildCmd α)) :
    ((build cmds).find_min_cost_max_flow
        = SolveRes.err "Not enough workers to assign!" (build cmds) ↔
      workerCount cmds < sumMinima cmds) ∧
    ((build cmds).find_min_cost_max_flow
        = SolveRes.err "Not enough capacity for workers!" (build cmds) ↔
      (sumMinima cmds ≤ workerCount cmds ∧ sumMaxima cmds < workerCount cmds)) := by
  obtain ⟨h1, h2, h3, h4, -⟩ := build_scalars cmds
  have hnw : (build cmds).nodes.length - (build cmds).num_tasks - 2 = workerCount cmds := by
    rw [h3, h4]; omega
  unfold Network.find_min_cost_max_flow
  rw [hnw, h1, h2]
  by_cases hA : workerCount cmds < sumMinima cmds
  · rw [if_pos hA]
    constructor
    · simp [hA]
    · constructor
      · intro h
        simp only [SolveRes.err.injEq] at h
        exact absurd h.1 (by decide)
      · intro h; omega
  · rw [if_neg hA]
    by_cases hB : sumMaxima cmds < workerCount cmds
    · rw [if_pos hB]
      constructor
      · constructor
        · intro h
          simp only [SolveRes.err.injEq] at h
          exact absurd h.1 (by decide)
        · intro h; omega
      · simp
        omega
    · rw [if_neg hB]
      rcases hr : (if sumMinima cmds = 0
          then (build cmds).reset_arcs_for_second_phase else some (build cmds))
          with _ | st1
      · refine ⟨⟨?_, ?_⟩, ⟨?_, ?_⟩⟩
        · intro h; exact absurd h (by simp)
        · intro h; omega
        · intro h; exact absurd h (by simp)
        · intro h; omega
      · constructor <;> constructor
        · intro h
          have := solveLoop_err _ st1 0 0 _ _ h
          exact absurd this (by decide)
        · intro h; omega
        · intro h
          have := solveLoop_err _ st1 0 0 _ _ h
          exact absurd this (by decide)
        · intro h; omega

/-- C5 counterexample: on `c5cmds` the worker count (1) strictly exceeds
the sum of task maxima (0), yet the solver fails with the
`InsufficientWorkers` message, not `InsufficientCapacity` — the claimed
"exactly when" characterisation of `InsufficientCapacity` fails when a task
declares `min > max`. -/
theorem C5_capacity_error_not_raised :
    ((build c5cmds).find_min_cost_max_flow.errInfo).map Prod.fst
        = some "Not enough workers to assign!" ∧
    sumMaxima c5cmds < workerCount c5cmds := by
  constructor
  · decide
  · decide

/-! Accessor equations for record surgery. -/

theorem getNode_setNode_self (st : Network α) (i : ℕ) (nd : Node) (h : i < st.nodes.length) :
    (st.setNode i nd).getNode i = nd := by
  show (st.nodes.set i nd).getD i emptyNode = nd
  exact getD_set_self _ _ _ h

theorem getNode_setNode_ne (st : Network α) {i j : ℕ} (nd : Node) (h : i ≠ j) :
    (st.setNode i nd).getNode j = st.getNode j := by
  show (st.nodes.set i nd).getD j emptyNode = st.nodes.getD j emptyNode
  exact getD_set_ne _ _ _ h

theorem getArc_setNode (st : Network α) (i : ℕ) (nd : Node) (id : ℕ) :
    (st.setNode i nd).getArc id = st.getArc id := rfl

theorem arcs_setNode (st : Network α) (i : ℕ) (nd : Node) :
    (st.setNode i nd).arcs = st.arcs := rfl

theorem getNode_setArcs (st : Network α) (l : List (Arc α)) (n : ℕ) :
    ({ st with arcs := l } : Network α).getNode n = st.getNode n := rfl

theorem getArc_set_self (st : Network α) {id : ℕ} (a2 : Arc α) (h : id < st.arcs.length) :
    ({ st with arcs := st.arcs.set id a2 } : Network α).getArc id = a2 := by
  show (st.arcs.set id a2).getD id arcDefault = a2
  exact getD_set_self _ _ _ h

theorem getArc_set_ne (st : Network α) {id j : ℕ} (a2 : Arc α) (h : id ≠ j) :
    ({ st with arcs := st.arcs.set id a2 } : Network α).getArc j = st.getArc j := by
  show (st.arcs.set id a2).getD j arcDefault = st.arcs.getD j arcDefault
  exact getD_set_ne _ _ _ h

/-- Replacing one arc in the arena with one that matches the same class and
keeps its start node preserves the invariant (no list surgery needed). -/
theorem Inv_setArc_same (L : Ledger α) (st : Network α) (arcId : ℕ) (a2 : Arc α)
    (hInv : Inv L st)
    (hmatch : ArcMatches (L.infos.getD arcId (.srcA 0)) a2)
    (hstart : a2.start_node = (st.getArc arcId).start_node) :
    Inv L ({ st with arcs := st.arcs.set arcId a2 } : Network α) := by
  obtain ⟨hlen, halen, hm, hW1, hW2, hnd⟩ := hInv
  by_cases hid : arcId < st.arcs.length
  · refine ⟨hlen, ?_, ?_, ?_, ?_, ?_⟩
    · simpa using halen
    · intro id hlt
      simp only [List.length_set] at hlt
      by_cases hij : arcId = id
      · subst hij; rw [getArc_set_self st a2 hid]; exact hmatch
      · rw [getArc_set_ne st a2 hij]; exact hm id hlt
    · intro n id hmem
      rw [getNode_setArcs] at hmem
      obtain ⟨h1, h2⟩ := hW1 n id hmem
      refine ⟨by simpa using h1, ?_⟩
      by_cases hij : arcId = id
      · subst hij; rw [getArc_set_self st a2 hid, hstart]; exact h2
      · rw [getArc_set_ne st a2 hij]; exact h2
    · intro id hlt
      simp only [List.length_set] at hlt
      rw [getNode_setArcs]
      by_cases hij : arcId = id
      · subst hij; rw [getArc_set_self st a2 hid, hstart]; exact hW2 arcId hlt
      · rw [getArc_set_ne st a2 hij]; exact hW2 id hlt
    · intro n
      rw [getNode_setArcs]
      exact hnd n
  · -- out-of-range `set` is a no-op on the list
    have hset : st.arcs.set arcId a2 = st.arcs :=
      List.set_eq_of_length_le (by omega)
    rw [hset]
    exact ⟨hlen, halen, hm, hW1, hW2, hnd⟩

/-- Replacing one arc by its class-matching reversal and moving its id from
the old start node's list to the new start node's list preserves the
invariant. -/
theorem Inv_move (L : Ledger α) (st : Network α) (arcId : ℕ) (a2 : Arc α) (ndE : Node)
    (hInv : Inv L st)
    (hid : arcId < st.arcs.length)
    (hmatch : ArcMatches (L.infos.getD arcId (.srcA 0)) a2)
    (hse : a2.start_node = (st.getArc arcId).end_node)
    (hes : a2.end_node = (st.getArc arcId).start_node)
    (hneq : (st.getArc arcId).start_node ≠ (st.getArc arcId).end_node)
    (hbs : a2.start_node < st.nodes.length)
    (hbe : a2.end_node < st.nodes.length)
    (hrm : (({ st with arcs := st.arcs.set arcId a2 } : Network α).getNode a2.end_node).remove_connection arcId
        = some ndE) :
    Inv L
      (((({ st with arcs := st.arcs.set arcId a2 } : Network α).setNode a2.end_node ndE).setNode
          a2.start_node
          (((({ st with arcs := st.arcs.set arcId a2 } : Network α).setNode a2.end_node ndE).getNode
              a2.start_node).add_connection arcId))) := by
  obtain ⟨hlen, halen, hm, hW1, hW2, hnd⟩ := hInv
  set st2 : Network α := { st with arcs := st.arcs.set arcId a2 } with hst2
  have hne : a2.end_node ≠ a2.start_node := by
    rw [hse, hes]; exact hneq
  have hconnE : st2.getNode a2.end_node = st.getNode a2.end_node := rfl
  rw [hconnE] at hrm
  obtain ⟨hmemE, hpermE⟩ := remove_connection_spec _ arcId _ hrm
  have hndE0 := hnd a2.end_node
  have hmemNdE : ∀ x, x ∈ ndE.connected_arcs ↔
      (x ≠ arcId ∧ x ∈ (st.getNode a2.end_node).connected_arcs) := by
    intro x
    rw [hpermE.mem_iff]
    exact hndE0.mem_erase_iff
  have hndENd : ndE.connected_arcs.Nodup := hpermE.nodup_iff.mpr (hndE0.erase arcId)
  have hnotv : arcId ∉ (st.getNode a2.start_node).connected_arcs := by
    intro hmem
    have h2 := (hW1 _ arcId hmem).2
    rw [hse] at h2
    exact hneq h2
  set st3 : Network α := st2.setNode a2.end_node ndE with hst3
  have harcs3 : st3.arcs = st.arcs.set arcId a2 := rfl
  have hlen3 : st3.nodes.length = st.nodes.length := by
    simp [hst3, hst2, Network.setNode]
  have hg3v : st3.getNode a2.start_node = st.getNode a2.start_node := by
    rw [hst3, getNode_setNode_ne _ _ hne]
    rfl
  set vNode : Node := (st3.getNode a2.start_node).add_connection arcId with hvNode
  have hvlist : vNode.connected_arcs = (st.getNode a2.start_node).connected_arcs ++ [arcId] := by
    rw [hvNode, hg3v, add_connection_of_not_mem _ _ hnotv]
  set st4 : Network α := st3.setNode a2.start_node vNode with hst4
  have hc4S : st4.getNode a2.start_node = vNode := by
    rw [hst4]
    exact getNode_setNode_self _ _ _ (by rw [hlen3]; exact hbs)
  have hc4E : st4.getNode a2.end_node = ndE := by
    rw [hst4, getNode_setNode_ne _ _ (fun e => hne e.symm), hst3]
    exact getNode_setNode_self _ _ _ (by simp [hst2]; exact hbe)
  have hc4O : ∀ n, n ≠ a2.start_node → n ≠ a2.end_node → st4.getNode n = st.getNode n := by
    intro n hn1 hn2
    rw [hst4, getNode_setNode_ne _ _ (fun e => hn1 e.symm), hst3,
      getNode_setNode_ne _ _ (fun e => hn2 e.symm)]
    rfl
  have harcs4 : st4.arcs = st.arcs.set arcId a2 := rfl
  have hA4self : st4.getArc arcId = a2 := by
    show st4.arcs.getD arcId arcDefault = a2
    rw [harcs4]
    exact getD_set_self _ _ _ hid
  have hA4other : ∀ id, id ≠ arcId → st4.getArc id = st.getArc id := by
    intro id hne'
    show st4.arcs.getD id arcDefault = st.arcs.getD id arcDefault
    rw [harcs4]
    exact getD_set_ne _ _ _ (fun e => hne' e.symm)
  have hstartE : (st.getArc arcId).start_node = a2.end_node := hes.symm
  refine ⟨?_, ?_, ?_, ?_, ?_, ?_⟩
  · rw [hst4, hst3]
    simp only [Network.setNode, List.length_set]
    simpa [hst2] using hlen
  · rw [harcs4]
    simpa using halen
  · intro id hlt
    rw [harcs4, List.length_set] at hlt
    by_cases hij : id = arcId
    · subst hij; rw [hA4self]; exact hmatch
    · rw [hA4other id hij]; exact hm id hlt
  · intro n id hmem
    by_cases hn1 : n = a2.start_node
    · subst hn1
      rw [hc4S, hvlist] at hmem
      rcases List.mem_append.mp hmem with hmem | hmem
      · obtain ⟨h1, h2⟩ := hW1 _ id hmem
        have hij : id ≠ arcId := fun e => hnotv (e ▸ hmem)
        rw [hA4other id hij]
        exact ⟨by rw [harcs4, List.length_set]; exact h1, h2⟩
      · have hij : id = arcId := by simpa using hmem
        subst hij
        rw [hA4self]
        exact ⟨by rw [harcs4, List.length_set]; exact hid, rfl⟩
    · by_cases hn2 : n = a2.end_node
      · subst hn2
        rw [hc4E] at hmem
        obtain ⟨hij, hmem'⟩ := (hmemNdE id).mp hmem
        obtain ⟨h1, h2⟩ := hW1 _ id hmem'
        rw [hA4other id hij]
        exact ⟨by rw [harcs4, List.length_set]; exact h1, h2⟩
      · rw [hc4O n hn1 hn2] at hmem
        obtain ⟨h1, h2⟩ := hW1 n id hmem
        have hij : id ≠ arcId := by
          intro e
          subst e
          rw [h2] at hstartE
          exact hn2 hstartE
        rw [hA4other id hij]
        exact ⟨by rw [harcs4, List.length_set]; exact h1, h2⟩
  · intro id hlt
    rw [harcs4, List.length_set] at hlt
    by_cases hij : id = arcId
    · subst hij
      rw [hA4self, hc4S, hvlist]
      simp
    · rw [hA4other id hij]
      have hmem := hW2 id hlt
      by_cases hm1 : (st.getArc id).start_node = a2.start_node
      · rw [hm1, hc4S, hvlist]
        rw [hm1] at hmem
        exact List.mem_append_left _ hmem
      · by_cases hm2 : (st.getArc id).start_node = a2.end_node
        · rw [hm2, hc4E]
          rw [hm2] at hmem
          exact (hmemNdE id).mpr ⟨hij, hmem⟩
        · rw [hc4O _ hm1 hm2]
          exact hmem
  · intro n
    by_cases hn1 : n = a2.start_node
    · subst hn1
      rw [hc4S, hvlist]
      simp only [List.nodup_append, List.nodup_cons, List.not_mem_nil, not_false_iff,
        List.nodup_nil, and_true, List.mem_singleton]
      refine ⟨hnd _, by simp, ?_⟩
      intro x hx
      simp only [List.mem_singleton]
      intro e
      subst e
      exact hnotv hx
    · by_cases hn2 : n = a2.end_node
      · subst hn2
        rw [hc4E]
        exact hndENd
      · rw [hc4O n hn1 hn2]
        exact hnd n

/-! The build phase establishes the invariant. -/

theorem getNode_out_of_range (st : Network α) (n : ℕ) (h : st.nodes.length ≤ n) :
    st.getNode n = emptyNode := by
  show st.nodes.getD n emptyNode = emptyNode
  exact List.getD_eq_default _ _ h

/-- The invariant only looks at the nodes and arcs arenas. -/
theorem Inv_of_eq_parts (L : Ledger α) (st st' : Network α) (hInv : Inv L st)
    (hn : st'.nodes = st.nodes) (ha : st'.arcs = st.arcs) : Inv L st' := by
  obtain ⟨h1, h2, h3, h4, h5, h6⟩ := hInv
  have hgn : ∀ n, st'.getNode n = st.getNode n := by
    intro n; show st'.nodes.getD n emptyNode = st.nodes.getD n emptyNode; rw [hn]
  have hga : ∀ id, st'.getArc id = st.getArc id := by
    intro id; show st'.arcs.getD id arcDefault = st.arcs.getD id arcDefault; rw [ha]
  refine ⟨by rw [hn]; exact h1, by rw [ha]; exact h2, ?_, ?_, ?_, ?_⟩
  · intro id hlt; rw [ha] at hlt; rw [hga]; exact h3 id hlt
  · intro n id hmem
    rw [hgn] at hmem
    obtain ⟨g1, g2⟩ := h4 n id hmem
    exact ⟨by rw [ha]; exact g1, by rw [hga]; exact g2⟩
  · intro id hlt
    rw [ha] at hlt
    rw [hga, hgn]
    exact h5 id hlt
  · intro n; rw [hgn]; exact h6 n

/-- Appending a fresh (empty) node preserves the invariant against a ledger
with one more node. -/
theorem Inv_nodes_append (L L' : Ledger α) (st : Network α) (hInv : Inv L st)
    (hnum : L'.numNodes = L.numNodes + 1) (hinf : L'.infos = L.infos) :
    Inv L' ({ st with nodes := st.nodes ++ [emptyNode] } : Network α) := by
  obtain ⟨h1, h2, h3, h4, h5, h6⟩ := hInv
  have hgn : ∀ n, ({ st with nodes := st.nodes ++ [emptyNode] } : Network α).getNode n
      = st.getNode n := by
    intro n
    show (st.nodes ++ [emptyNode]).getD n emptyNode = st.nodes.getD n emptyNode
    by_cases h : n < st.nodes.length
    · exact getD_append_lt _ _ _ h
    · rcases Nat.eq_or_lt_of_le (Nat.le_of_not_lt h) with he | hlt
      · rw [← he, getD_append_len, List.getD_eq_default _ _ (Nat.le_refl _)]
      · rw [List.getD_eq_default _ _ (by simp; omega), List.getD_eq_default _ _ (by omega)]
  have hga : ∀ id, ({ st with nodes := st.nodes ++ [emptyNode] } : Network α).getArc id
      = st.getArc id := fun _ => rfl
  refine ⟨?_, ?_, ?_, ?_, ?_, ?_⟩
  · simp only [List.length_append, List.length_singleton, hnum]
    omega
  · show st.arcs.length = L'.infos.length
    rw [hinf]; exact h2
  · intro id hlt
    rw [hga, hinf]
    exact h3 id hlt
  · intro n id hmem
    rw [hgn] at hmem
    obtain ⟨g1, g2⟩ := h4 n id hmem
    exact ⟨g1, by rw [hga]; exact g2⟩
  · intro id hlt
    rw [hga, hgn]
    exact h5 id hlt
  · intro n; rw [hgn]; exact h6 n

theorem add_arc_arcs (st : Network α) (s e : ℕ) (c : α) (mn mx : ℕ) :
    (st.add_arc s e c mn mx).arcs = st.arcs ++ [⟨s, e, c, mn, mx, 0⟩] := by
  simp [Network.add_arc, Network.setNode]

theorem add_arc_getNode_self (st : Network α) (s e : ℕ) (c : α) (mn mx : ℕ)
    (hs : s < st.nodes.length) :
    (st.add_arc s e c mn mx).getNode s = (st.getNode s).add_connection st.arcs.length := by
  have h0 : (st.add_arc s e c mn mx).getNode s
      = (st.setNode s ((st.getNode s).add_connection st.arcs.length)).getNode s := rfl
  rw [h0, getNode_setNode_self _ _ _ hs]

theorem add_arc_getNode_ne (st : Network α) (s e : ℕ) (c : α) (mn mx : ℕ) {n : ℕ} (h : s ≠ n) :
    (st.add_arc s e c mn mx).getNode n = st.getNode n := by
  have h0 : (st.add_arc s e c mn mx).getNode n
      = (st.setNode s ((st.getNode s).add_connection st.arcs.length)).getNode n := rfl
  rw [h0, getNode_setNode_ne _ _ h]

/-- Appending a matching arc at a registered (in-range) start node preserves
the invariant against a ledger with the arc's class appended. -/
theorem Inv_add_arc (L : Ledger α) (st : Network α) (s e : ℕ) (c : α) (mn mx : ℕ)
    (i : ArcInfo α)
    (hInv : Inv L st) (hs : s < st.nodes.length)
    (hmatch : ArcMatches i (⟨s, e, c, mn, mx, 0⟩ : Arc α)) :
    Inv { L with infos := L.infos ++ [i] } (st.add_arc s e c mn mx) := by
  obtain ⟨hlen, halen, hm, hW1, hW2, hnd⟩ := hInv
  have hfresh : st.arcs.length ∉ (st.getNode s).connected_arcs := by
    intro hmem
    have := (hW1 s _ hmem).1
    omega
  have hconn : ((st.add_arc s e c mn mx).getNode s).connected_arcs
      = (st.getNode s).connected_arcs ++ [st.arcs.length] := by
    rw [add_arc_getNode_self _ _ _ _ _ _ hs, add_connection_of_not_mem _ _ hfresh]
  have hA : (st.add_arc s e c mn mx).arcs = st.arcs ++ [⟨s, e, c, mn, mx, 0⟩] :=
    add_arc_arcs st s e c mn mx
  have hAlen : (st.add_arc s e c mn mx).arcs.length = st.arcs.length + 1 := by
    rw [hA]; simp
  have hgaOld : ∀ id, id < st.arcs.length → (st.add_arc s e c mn mx).getArc id = st.getArc id := by
    intro id hlt
    show (st.add_arc s e c mn mx).arcs.getD id arcDefault = st.arcs.getD id arcDefault
    rw [hA]
    exact getD_append_lt _ _ _ hlt
  have hgaNew : (st.add_arc s e c mn mx).getArc st.arcs.length = ⟨s, e, c, mn, mx, 0⟩ := by
    show (st.add_arc s e c mn mx).arcs.getD st.arcs.length arcDefault = _
    rw [hA]
    exact getD_append_len _ _ _
  have hnlen : (st.add_arc s e c mn mx).nodes.length = st.nodes.length := by
    show (st.setNode s _).nodes.length = st.nodes.length
    simp [Network.setNode]
  refine ⟨?_, ?_, ?_, ?_, ?_, ?_⟩
  · rw [hnlen]; exact hlen
  · show (st.add_arc s e c mn mx).arcs.length = (L.infos ++ [i]).length
    rw [hAlen]; simp [halen]
  · intro id hlt
    rw [hAlen] at hlt
    rcases Nat.lt_succ_iff_lt_or_eq.mp hlt with hlt' | heq
    · rw [hgaOld id hlt']
      have hgetI : ({ L with infos := L.infos ++ [i] } : Ledger α).infos.getD id (.srcA 0)
          = L.infos.getD id (.srcA 0) := by
        show (L.infos ++ [i]).getD id _ = _
        exact getD_append_lt _ _ _ (by omega)
      rw [hgetI]
      exact hm id hlt'
    · subst heq
      rw [hgaNew]
      have hgetI : ({ L with infos := L.infos ++ [i] } : Ledger α).infos.getD st.arcs.length (.srcA 0)
          = i := by
        show (L.infos ++ [i]).getD st.arcs.length _ = i
        rw [halen]
        exact getD_append_len _ _ _
      rw [hgetI]
      exact hmatch
  · intro n id hmem
    by_cases hn : n = s
    · subst hn
      rw [hconn] at hmem
      rcases List.mem_append.mp hmem with hmem | hmem
      · obtain ⟨g1, g2⟩ := hW1 n id hmem
        rw [hgaOld id g1]
        exact ⟨by rw [hAlen]; omega, g2⟩
      · have hide : id = st.arcs.length := by simpa using hmem
        subst hide
        rw [hgaNew]
        exact ⟨by rw [hAlen]; omega, rfl⟩
    · rw [add_arc_getNode_ne _ _ _ _ _ _ (fun he => hn he.symm)] at hmem
      obtain ⟨g1, g2⟩ := hW1 n id hmem
      rw [hgaOld id g1]
      exact ⟨by rw [hAlen]; omega, g2⟩
  · intro id hlt
    rw [hAlen] at hlt
    rcases Nat.lt_succ_iff_lt_or_eq.mp hlt with hlt' | heq
    · rw [hgaOld id hlt']
      have hmem := hW2 id hlt'
      by_cases hstart : (st.getArc id).start_node = s
      · rw [hstart, hconn]
        rw [hstart] at hmem
        exact List.mem_append_left _ hmem
      · rw [add_arc_getNode_ne _ _ _ _ _ _ (fun he => hstart he.symm)]
        exact hmem
    · subst heq
      rw [hgaNew]
      show st.arcs.length ∈ ((st.add_arc s e c mn mx).getNode s).connected_arcs
      rw [hconn]
      simp
  · intro n
    by_cases hn : n = s
    · subst hn
      rw [hconn]
      simp only [List.nodup_append, List.nodup_cons, List.not_mem_nil, not_false_iff,
        List.nodup_nil, and_true, List.mem_singleton]
      refine ⟨hnd _, by simp, ?_⟩
      intro x hx
      simp only [List.mem_singleton]
      intro hxe
      subst hxe
      exact hfresh hx
    · rw [add_arc_getNode_ne _ _ _ _ _ _ (fun he => hn he.symm)]
      exact hnd n

/-- Adding the affinity arcs of one worker preserves the invariant, with
the matching affinity classes appended to the ledger. -/
theorem Inv_affFold :
    ∀ (affs : List (ℕ × α)) (L : Ledger α) (st : Network α) (w : ℕ),
      Inv L st → w < st.nodes.length →
      Inv { L with infos := L.infos ++ affs.map (fun a => ArcInfo.affA w a.1 a.2) }
        (affs.foldl (fun acc aff => acc.add_arc w aff.1 aff.2 1 1) st) := by
  intro affs
  induction affs with
  | nil =>
    intro L st w hInv _
    simpa using hInv
  | cons a as ih =>
    intro L st w hInv hw
    simp only [List.foldl_cons, List.map_cons]
    have h1 := Inv_add_arc L st w a.1 a.2 1 1 (.affA w a.1 a.2) hInv hw
      ⟨rfl, rfl, rfl, Or.inl ⟨rfl, rfl, rfl⟩⟩
    have hw2 : w < (st.add_arc w a.1 a.2 1 1).nodes.length := by
      rw [(add_arc_scalars st w a.1 a.2 1 1).2.2.2.2.1]
      exact hw
    have h2 := ih { L with infos := L.infos ++ [ArcInfo.affA w a.1 a.2] }
      (st.add_arc w a.1 a.2 1 1) w h1 hw2
    simpa [List.append_assoc] using h2

/-- One ledger step keeps the ledger well-formed, given the parser
contract for worker commands. -/
theorem LedgerOK_ledgerStep (L : Ledger α) (c : BuildCmd α) (hok : LedgerOK L)
    (hc : CmdOK L c) :
    LedgerOK (ledgerStep L c) := by
  obtain ⟨h1, h2, h3, h4, h5⟩ := hok
  rcases c with ⟨mn, mx⟩ | affs
  · refine ⟨?_, ?_, ?_, ?_, ?_⟩
    · show 2 ≤ L.numNodes + 1; omega
    · intro x hx
      show 2 ≤ x ∧ x < L.numNodes + 1
      rcases List.mem_append.mp hx with hx | hx
      · have := h2 x hx; omega
      · have : x = L.numNodes := by simpa using hx
        omega
    · intro x hx
      show 2 ≤ x ∧ x < L.numNodes + 1
      have := h3 x hx; omega
    · intro x hx
      rcases List.mem_append.mp hx with hx | hx
      · exact h4 x hx
      · have hxe : x = L.numNodes := by simpa using hx
        subst hxe
        intro hmem
        have := h3 _ hmem
        omega
    · intro i hi
      rcases List.mem_append.mp hi with hi | hi
      · have := h5 i hi
        rcases i with ⟨t, mn', mx'⟩ | w | ⟨w, t, aff⟩
        · exact List.mem_append_left _ this
        · exact this
        · exact ⟨this.1, List.mem_append_left _ this.2⟩
      · have : i = .sinkA L.numNodes mn mx := by simpa using hi
        subst this
        exact List.mem_append_right _ (by simp)
  · refine ⟨?_, ?_, ?_, ?_, ?_⟩
    · show 2 ≤ L.numNodes + 1; omega
    · intro x hx
      show 2 ≤ x ∧ x < L.numNodes + 1
      have := h2 x hx; omega
    · intro x hx
      show 2 ≤ x ∧ x < L.numNodes + 1
      rcases List.mem_append.mp hx with hx | hx
      · have := h3 x hx; omega
      · have : x = L.numNodes := by simpa using hx
        omega
    · intro x hx
      intro hmem
      rcases List.mem_append.mp hmem with hm | hm
      · exact h4 x hx hm
      · have hxe : x = L.numNodes := by simpa using hm
        subst hxe
        have := h2 _ hx
        omega
    · intro i hi
      rcases List.mem_append.mp hi with hi | hi
      · rcases List.mem_append.mp hi with hi | hi
        · have := h5 i hi
          rcases i with ⟨t, mn', mx'⟩ | w | ⟨w, t, aff⟩
          · exact this
          · exact List.mem_append_left _ this
          · exact ⟨List.mem_append_left _ this.1, this.2⟩
        · have : i = .srcA L.numNodes := by simpa using hi
          subst this
          exact List.mem_append_right _ (by simp)
      · obtain ⟨a, ha, hae⟩ := List.mem_map.mp hi
        rw [← hae]
        refine ⟨List.mem_append_right _ (by simp), ?_⟩
        show a.1 ∈ L.taskIds
        exact hc a ha

/-- One build command preserves the invariant against the stepped ledger. -/
theorem Inv_buildStep (L : Ledger α) (st : Network α) (c : BuildCmd α)
    (hInv : Inv L st) (hok : LedgerOK L)
    (hc : CmdOK L c) :
    Inv (ledgerStep L c) (buildStep st c) := by
  have hlen := hInv.1
  have h2le : 2 ≤ L.numNodes := hok.1
  rcases c with ⟨mn, mx⟩ | affs
  · show Inv (ledgerStep L (.task mn mx)) (buildStep st (.task mn mx))
    unfold ledgerStep buildStep Network.add_task Network.add_node
    rw [← hlen]
    have hInv1 : Inv
        ({ L with numNodes := st.nodes.length + 1, taskIds := L.taskIds ++ [st.nodes.length] } : Ledger α)
        ({ st with nodes := st.nodes ++ [emptyNode] } : Network α) :=
      Inv_nodes_append L _ st hInv (by rw [hlen]) rfl
    have hInv2 : Inv
        ({ L with numNodes := st.nodes.length + 1, taskIds := L.taskIds ++ [st.nodes.length] } : Ledger α)
        ({ min_flow_satisfied := st.min_flow_satisfied,
           min_flow_amount := st.min_flow_amount + mn,
           max_flow_amount := st.max_flow_amount + mx,
           num_tasks := st.num_tasks + 1,
           nodes := st.nodes ++ [emptyNode], arcs := st.arcs } : Network α) :=
      Inv_of_eq_parts _ _ _ hInv1 rfl rfl
    by_cases hmn : 0 < mn
    · simp only [if_pos hmn]
      exact Inv_add_arc _ _ st.nodes.length 1 0 mn mx (.sinkA st.nodes.length mn mx) hInv2
        (by simp) ⟨rfl, rfl, rfl, Or.inl ⟨rfl, rfl⟩⟩
    · simp only [if_neg hmn]
      exact Inv_add_arc _ _ 1 st.nodes.length 0 mn mx (.sinkA st.nodes.length mn mx) hInv2
        (by simp; omega) ⟨rfl, rfl, rfl, Or.inr ⟨rfl, rfl⟩⟩
  · show Inv (ledgerStep L (.worker affs)) (buildStep st (.worker affs))
    unfold ledgerStep buildStep Network.add_worker Network.add_node
    rw [← hlen]
    have hInv1 : Inv
        ({ L with numNodes := st.nodes.length + 1, workerIds := L.workerIds ++ [st.nodes.length] } : Ledger α)
        ({ st with nodes := st.nodes ++ [emptyNode] } : Network α) :=
      Inv_nodes_append L _ st hInv (by rw [hlen]) rfl
    have hInv2 := Inv_add_arc _ _ 0 st.nodes.length 0 1 1 (.srcA st.nodes.length) hInv1
      (by simp) ⟨rfl, rfl, rfl, rfl, Or.inl ⟨rfl, rfl⟩⟩
    have hw : st.nodes.length
        < (({ st with nodes := st.nodes ++ [emptyNode] } : Network α).add_arc
            0 st.nodes.length 0 1 1).nodes.length := by
      rw [(add_arc_scalars _ 0 st.nodes.length 0 1 1).2.2.2.2.1]
      simp
    have h3 := Inv_affFold affs _ _ st.nodes.length hInv2 hw
    simpa [List.append_assoc] using h3

/-- The empty network satisfies the invariant of the empty ledger. -/
theorem Inv_new : Inv (ledger0 : Ledger α) (Network.new : Network α) := by
  have hnew : ∀ n, (Network.new : Network α).getNode n = emptyNode := by
    intro n
    show ([emptyNode, emptyNode] : List Node).getD n emptyNode = emptyNode
    rcases n with _ | _ | k <;> rfl
  refine ⟨rfl, rfl, ?_, ?_, ?_, ?_⟩
  · intro id hlt
    exact absurd hlt (by simp [Network.new])
  · intro n id hmem
    rw [hnew n] at hmem
    exact absurd hmem (by simp [emptyNode])
  · intro id hlt
    exact absurd hlt (by simp [Network.new])
  · intro n
    rw [hnew n]
    simp [emptyNode]

theorem LedgerOK_ledger0 : LedgerOK (ledger0 : Ledger α) := by
  refine ⟨le_refl 2, ?_, ?_, ?_, ?_⟩ <;> intro x hx <;> simp [ledger0] at hx

/-- Replaying a valid command list from any invariant-satisfying state
preserves the invariant and ledger well-formedness. -/
theorem buildAux_Inv :
    ∀ (cmds : List (BuildCmd α)) (L : Ledger α) (st : Network α),
      validFrom L cmds = true → Inv L st → LedgerOK L →
      Inv (cmds.foldl ledgerStep L) (cmds.foldl buildStep st) ∧
      LedgerOK (cmds.foldl ledgerStep L) := by
  intro cmds
  induction cmds with
  | nil => intro L st _ hInv hok; exact ⟨hInv, hok⟩
  | cons c rest ih =>
    intro L st hv hInv hok
    have hcv : CmdOK L c := by
      rcases c with ⟨mn, mx⟩ | affs
      · trivial
      · unfold validFrom at hv
        simp only [Bool.and_eq_true, List.all_eq_true] at hv
        intro a ha
        have := hv.1 a ha
        simpa using this
    have hv' : validFrom (ledgerStep L c) rest = true := by
      rcases c with ⟨mn, mx⟩ | affs
      · simpa [validFrom] using hv
      · unfold validFrom at hv
        simp only [Bool.and_eq_true] at hv
        exact hv.2
    simp only [List.foldl_cons]
    exact ih (ledgerStep L c) (buildStep st c) hv' (Inv_buildStep L st c hInv hok hcv)
      (LedgerOK_ledgerStep L c hok hcv)

/-- The network built by a valid command list satisfies the invariant of
its ledger, and the ledger is well-formed. -/
theorem Inv_build (cmds : List (BuildCmd α)) (hv : ValidCmds cmds) :
    Inv (ledgerOf cmds) (build cmds) ∧ LedgerOK (ledgerOf cmds) :=
  buildAux_Inv cmds ledger0 Network.new hv Inv_new LedgerOK_ledger0

/-! Solver-step preservation of the invariant. -/

theorem getD_mem {β : Type} (l : List β) {i : ℕ} (d : β) (h : i < l.length) :
    l.getD i d ∈ l := by
  rw [List.getD_eq_getElem?_getD, List.getElem?_eq_getElem h]
  exact List.getElem_mem h

/-- `push_flow` either merely increments the flow (no inversion) or
increments and inverts. -/
theorem push_flow_cases (a : Arc α) (flag : Bool) :
    a.push_flow flag = ({ a with current_flow := a.current_flow + 1 }, false) ∨
    a.push_flow flag = (({ a with current_flow := a.current_flow + 1 }).invert, true) := by
  unfold Arc.push_flow
  rcases flag
  · simp only [Bool.false_eq_true, if_false]
    split
    · exact Or.inr rfl
    · exact Or.inl rfl
  · simp only [if_true]
    split
    · exact Or.inr rfl
    · exact Or.inl rfl

/-- A resting unit-capacity arc (bounds `1,1`, zero flow) always inverts
when pushed, in either phase. -/
theorem push_flow_unit (a : Arc α) (flag : Bool)
    (h1 : a.min_flow = 1) (h2 : a.max_flow = 1) (h0 : a.current_flow = 0) :
    a.push_flow flag = (({ a with current_flow := a.current_flow + 1 }).invert, true) := by
  unfold Arc.push_flow
  rcases flag
  · simp only [Bool.false_eq_true, if_false]
    rw [if_pos (by simp [h1, h0])]
  · simp only [if_true]
    rw [if_pos (by simp [h2, h0])]

/-- `update_for_second_phase` is the identity on saturated arcs and an
inversion-with-minimum otherwise. -/
theorem update_second_phase_cases (a : Arc α) :
    (a.min_flow = a.max_flow ∧ a.update_for_second_phase = (a, false)) ∨
    (a.min_flow ≠ a.max_flow ∧
      a.update_for_second_phase = ({ a.invert with current_flow := a.min_flow }, true)) := by
  unfold Arc.update_for_second_phase
  by_cases h : a.min_flow = a.max_flow
  · exact Or.inl ⟨h, by rw [if_pos h]⟩
  · exact Or.inr ⟨h, by rw [if_neg h]⟩

/-- Inverting an arc after a flow increment preserves its build-time
classification. -/
theorem ArcMatches_invertPush (i : ArcInfo α) (a : Arc α) (hm : ArcMatches i a) :
    ArcMatches i (({ a with current_flow := a.current_flow + 1 }).invert) := by
  rcases i with ⟨t, mn, mx⟩ | w | ⟨w, t, aff⟩
  · obtain ⟨h1, h2, h3, h4⟩ := hm
    refine ⟨h1, h2, by simp [Arc.invert, h3], ?_⟩
    rcases h4 with ⟨hs, he⟩ | ⟨hs, he⟩
    · exact Or.inr ⟨by simp [Arc.invert, he], by simp [Arc.invert, hs]⟩
    · exact Or.inl ⟨by simp [Arc.invert, he], by simp [Arc.invert, hs]⟩
  · obtain ⟨h1, h2, h3, h4, h5⟩ := hm
    refine ⟨h1, h2, rfl, by simp [Arc.invert, h4], ?_⟩
    rcases h5 with ⟨hs, he⟩ | ⟨hs, he⟩
    · exact Or.inr ⟨by simp [Arc.invert, he], by simp [Arc.invert, hs]⟩
    · exact Or.inl ⟨by simp [Arc.invert, he], by simp [Arc.invert, hs]⟩
  · obtain ⟨h1, h2, h3, h4⟩ := hm
    refine ⟨h1, h2, rfl, ?_⟩
    rcases h4 with ⟨hs, he, hc⟩ | ⟨hs, he, hc⟩
    · exact Or.inr ⟨by simp [Arc.invert, he], by simp [Arc.invert, hs], by simp [Arc.invert, hc]⟩
    · exact Or.inl ⟨by simp [Arc.invert, he], by simp [Arc.invert, hs], by simp [Arc.invert, hc]⟩

/-- The phase-transition update of an unsaturated arc preserves its
classification (only task-sink arcs can be unsaturated, and their class
ignores the recorded flow). -/
theorem ArcMatches_reset_invert (i : ArcInfo α) (a : Arc α) (hm : ArcMatches i a)
    (hne : a.min_flow ≠ a.max_flow) :
    ArcMatches i ({ a.invert with current_flow := a.min_flow }) := by
  rcases i with ⟨t, mn, mx⟩ | w | ⟨w, t, aff⟩
  · obtain ⟨h1, h2, h3, h4⟩ := hm
    refine ⟨h1, h2, by simp [Arc.invert, h3], ?_⟩
    rcases h4 with ⟨hs, he⟩ | ⟨hs, he⟩
    · exact Or.inr ⟨by simp [Arc.invert, he], by simp [Arc.invert, hs]⟩
    · exact Or.inl ⟨by simp [Arc.invert, he], by simp [Arc.invert, hs]⟩
  · obtain ⟨h1, h2, _, _, _⟩ := hm
    exact absurd (h1.trans h2.symm) hne
  · obtain ⟨h1, h2, _, _⟩ := hm
    exact absurd (h1.trans h2.symm) hne

/-- In an invariant-satisfying state every in-range arc joins two distinct
in-range nodes. -/
theorem arc_move_facts (L : Ledger α) (st : Network α) (arcId : ℕ)
    (hok : LedgerOK L) (hInv : Inv L st) (hid : arcId < st.arcs.length) :
    (st.getArc arcId).start_node ≠ (st.getArc arcId).end_node ∧
    (st.getArc arcId).start_node < st.nodes.length ∧
    (st.getArc arcId).end_node < st.nodes.length := by
  obtain ⟨hlen, halen, hm, _, _, _⟩ := hInv
  obtain ⟨h2le, hT, hW, hTW, hI⟩ := hok
  have hmem : L.infos.getD arcId (.srcA 0) ∈ L.infos := getD_mem _ _ (by omega)
  have hcls := hI _ hmem
  have hma := hm arcId hid
  rw [hlen]
  rcases hinfo : L.infos.getD arcId (ArcInfo.srcA 0) with ⟨t, mn, mx⟩ | w | ⟨w, t, aff⟩ <;>
    rw [hinfo] at hcls hma
  · obtain ⟨ht2, htlt⟩ := hT t hcls
    obtain ⟨_, _, _, h4⟩ := hma
    rcases h4 with ⟨hs, he⟩ | ⟨hs, he⟩ <;> rw [hs, he] <;>
      exact ⟨by omega, by omega, by omega⟩
  · obtain ⟨hw2, hwlt⟩ := hW w hcls
    obtain ⟨_, _, _, _, h5⟩ := hma
    rcases h5 with ⟨hs, he⟩ | ⟨hs, he⟩ <;> rw [hs, he] <;>
      exact ⟨by omega, by omega, by omega⟩
  · obtain ⟨hw2, hwlt⟩ := hW w hcls.1
    obtain ⟨ht2, htlt⟩ := hT t hcls.2
    have hne := hTW t hcls.2
    obtain ⟨_, _, _, h4⟩ := hma
    rcases h4 with ⟨hs, he, _⟩ | ⟨hs, he, _⟩ <;> rw [hs, he]
    · exact ⟨fun e => hne (e ▸ hcls.1), by omega, by omega⟩
    · exact ⟨fun e => hne (e.symm ▸ hcls.1), by omega, by omega⟩

/-- An in-range arc whose current start is the source is a source-worker
arc at rest: bounds `1,1` and zero flow. -/
theorem arc_from_source_unit (L : Ledger α) (st : Network α) (arcId : ℕ)
    (hok : LedgerOK L) (hInv : Inv L st) (hid : arcId < st.arcs.length)
    (hstart : (st.getArc arcId).start_node = 0) :
    (st.getArc arcId).min_flow = 1 ∧ (st.getArc arcId).max_flow = 1 ∧
    (st.getArc arcId).current_flow = 0 := by
  obtain ⟨hlen, halen, hm, _, _, _⟩ := hInv
  obtain ⟨h2le, hT, hW, hTW, hI⟩ := hok
  have hmem : L.infos.getD arcId (.srcA 0) ∈ L.infos := getD_mem _ _ (by omega)
  have hcls := hI _ hmem
  have hma := hm arcId hid
  rcases hinfo : L.infos.getD arcId (ArcInfo.srcA 0) with ⟨t, mn, mx⟩ | w | ⟨w, t, aff⟩ <;>
    rw [hinfo] at hcls hma
  · obtain ⟨ht2, _⟩ := hT t hcls
    obtain ⟨_, _, _, h4⟩ := hma
    rcases h4 with ⟨hs, _⟩ | ⟨hs, _⟩ <;> rw [hstart] at hs <;> omega
  · exact ⟨hma.1, hma.2.1, hma.2.2.1⟩
  · obtain ⟨hw2, _⟩ := hW w hcls.1
    obtain ⟨ht2, _⟩ := hT t hcls.2
    obtain ⟨_, _, _, h4⟩ := hma
    rcases h4 with ⟨hs, _, _⟩ | ⟨hs, _, _⟩ <;> rw [hstart] at hs <;> omega

/-- One pair step of `push_flow_down_path`: the invariant is preserved, the
arena sizes are unchanged, only the two endpoint nodes' lists change, and a
step out of the source removes exactly one source-incident arc. -/
theorem push_step (L : Ledger α) (st : Network α) (u v : ℕ) (rest : List ℕ)
    (st' : Network α) (hok : LedgerOK L) (hInv : Inv L st)
    (h : st.push_flow_down_path (u :: v :: rest) = some st') :
    ∃ st4 : Network α, Inv L st4 ∧ st4.push_flow_down_path (v :: rest) = some st' ∧
      st4.arcs.length = st.arcs.length ∧ st4.nodes.length = st.nodes.length ∧
      (∀ n, n ≠ u → n ≠ v → st4.getNode n = st.getNode n) ∧
      (u = 0 → v ≠ 0 →
        (st4.getNode 0).connected_arcs.length + 1 = (st.getNode 0).connected_arcs.length) := by
  unfold Network.push_flow_down_path at h
  rcases hfind : st.find_connecting_arc_id u v with _ | arcId
  · rw [hfind] at h
    simp at h
  · simp only [hfind] at h
    unfold Network.find_connecting_arc_id at hfind
    have hmemU : arcId ∈ (st.getNode u).connected_arcs := List.mem_of_find?_eq_some hfind
    have hend : (st.getArc arcId).end_node = v := by
      have := List.find?_some hfind
      simpa using this
    have hidlt : arcId < st.arcs.length := (hInv.2.2.2.1 u arcId hmemU).1
    have hstart : (st.getArc arcId).start_node = u := (hInv.2.2.2.1 u arcId hmemU).2
    have hma := hInv.2.2.1 arcId hidlt
    have hmem2 : L.infos.getD arcId (.srcA 0) ∈ L.infos :=
      getD_mem _ _ (by rw [← hInv.2.1]; exact hidlt)
    have hcls := hok.2.2.2.2 _ hmem2
    rcases push_flow_cases (st.getArc arcId) st.min_flow_satisfied with hpu | hpu
    · -- no inversion: the arc must be a task-sink arc
      simp only [hpu, Bool.false_eq_true, if_false] at h
      rcases hinfo : L.infos.getD arcId (ArcInfo.srcA 0) with ⟨t, mn, mx⟩ | w | ⟨w, t, aff⟩ <;>
        rw [hinfo] at hma hcls
      · have hmatch2 : ArcMatches (L.infos.getD arcId (ArcInfo.srcA 0))
            ({ st.getArc arcId with current_flow := (st.getArc arcId).current_flow + 1 }) := by
          rw [hinfo]
          exact ⟨hma.1, hma.2.1, hma.2.2.1, hma.2.2.2⟩
        have hInv2 := Inv_setArc_same L st arcId _ hInv hmatch2 rfl
        refine ⟨_, hInv2, h, by simp, rfl, fun n _ _ => rfl, ?_⟩
        intro hu0 _
        exfalso
        rw [hu0] at hstart
        obtain ⟨ht2, _⟩ := hok.2.1 t hcls
        rcases hma.2.2.2 with ⟨hs, _⟩ | ⟨hs, _⟩ <;> rw [hstart] at hs <;> omega
      · have hcontra := push_flow_unit (st.getArc arcId) st.min_flow_satisfied
          hma.1 hma.2.1 hma.2.2.1
        rw [hpu] at hcontra
        exact absurd (congrArg Prod.snd hcontra) (by simp)
      · have hcontra := push_flow_unit (st.getArc arcId) st.min_flow_satisfied
          hma.1 hma.2.1 hma.2.2.1
        rw [hpu] at hcontra
        exact absurd (congrArg Prod.snd hcontra) (by simp)
    · -- inversion: move the arc id between the endpoint lists
      simp only [hpu, if_true] at h
      set a2 := ({ st.getArc arcId with
        current_flow := (st.getArc arcId).current_flow + 1 }).invert with ha2
      have hmatchI : ArcMatches (L.infos.getD arcId (ArcInfo.srcA 0)) a2 :=
        ArcMatches_invertPush _ _ hma
      obtain ⟨hneq, hbs0, hbe0⟩ := arc_move_facts L st arcId hok hInv hidlt
      have hu : a2.end_node = u := hstart
      have hv2 : a2.start_node = v := hend
      rcases hrm : (({ st with arcs := st.arcs.set arcId a2 } : Network α).getNode u).remove_connection
          arcId with _ | ndU
      · rw [hrm] at h
        simp at h
      · simp only [hrm] at h
        have hrm' : (({ st with arcs := st.arcs.set arcId a2 } : Network α).getNode
            a2.end_node).remove_connection arcId = some ndU := by
          rw [hu]; exact hrm
        have hmove := Inv_move L st arcId a2 ndU hInv hidlt hmatchI rfl rfl hneq hbe0 hbs0 hrm'
        rw [hu, hv2] at hmove
        refine ⟨_, hmove, h, by simp [Network.setNode], by simp [Network.setNode], ?_, ?_⟩
        · intro n hnu hnv
          rw [getNode_setNode_ne _ _ (fun e => hnv e.symm),
            getNode_setNode_ne _ _ (fun e => hnu e.symm)]
          rfl
        · intro hu0 hv0
          subst hu0
          obtain ⟨hmm, hperm⟩ := remove_connection_spec _ arcId _ hrm
          rw [getNode_setNode_ne _ _ hv0, getNode_setNode_self _ _ _ (by
            show 0 < st.nodes.length
            have h1 := hInv.1
            have h2 := hok.1
            omega)]
          have hsame : (({ st with arcs := st.arcs.set arcId a2 } : Network α).getNode 0)
              = st.getNode 0 := rfl
          rw [hsame] at hperm
          have hlenE := hperm.length_eq
          rw [List.length_erase_of_mem hmemU] at hlenE
          have hpos : 0 < (st.getNode 0).connected_arcs.length :=
            List.length_pos.mpr (List.ne_nil_of_mem hmemU)
          omega

/-- `push_flow_down_path` preserves the invariant, the arena sizes, and
every node off the path. -/
theorem push_aux (L : Ledger α) (hok : LedgerOK L) :
    ∀ (p : List ℕ) (st st' : Network α),
      Inv L st → st.push_flow_down_path p = some st' →
      Inv L st' ∧ st'.arcs.length = st.arcs.length ∧ st'.nodes.length = st.nodes.length ∧
      (∀ n, n ∉ p → st'.getNode n = st.getNode n) := by
  intro p
  induction p with
  | nil =>
    intro st st' hInv h
    have he : st = st' := by simpa [Network.push_flow_down_path] using h
    subst he
    exact ⟨hInv, rfl, rfl, fun _ _ => rfl⟩
  | cons u rest ih =>
    rcases rest with _ | ⟨v, rest'⟩
    · intro st st' hInv h
      have he : st = st' := by simpa [Network.push_flow_down_path] using h
      subst he
      exact ⟨hInv, rfl, rfl, fun _ _ => rfl⟩
    · intro st st' hInv h
      obtain ⟨st4, hInv4, h4, hA, hN, hG, _⟩ := push_step L st u v rest' st' hok hInv h
      obtain ⟨hInv', hA', hN', hG'⟩ := ih st4 st' hInv4 h4
      refine ⟨hInv', by rw [hA', hA], by rw [hN', hN], ?_⟩
      intro n hn
      rw [hG' n (fun hmem => hn (List.mem_cons_of_mem u hmem)),
        hG n (fun e => hn (by rw [e]; exact List.mem_cons_self _ _))
          (fun e => hn (by rw [e]; exact List.mem_cons_of_mem u (List.mem_cons_self _ _)))]

/-- One `resetStep` preserves the invariant and never touches the source
node's list or the arena sizes. -/
theorem Inv_resetStep (L : Ledger α) (st st2 : Network α) (arcId : ℕ)
    (hok : LedgerOK L) (hInv : Inv L st) (hid : arcId < st.arcs.length)
    (h : st.resetStep arcId = some st2) :
    Inv L st2 ∧ st2.getNode 0 = st.getNode 0 ∧ st2.arcs.length = st.arcs.length ∧
      st2.nodes.length = st.nodes.length := by
  unfold Network.resetStep at h
  rcases update_second_phase_cases (st.getArc arcId) with ⟨heq, hup⟩ | ⟨hne, hup⟩
  · simp only [hup, Bool.false_eq_true, if_false, Option.some.injEq] at h
    subst h
    have hInv2 := Inv_setArc_same L st arcId _ hInv (hInv.2.2.1 arcId hid) rfl
    exact ⟨hInv2, rfl, by simp, rfl⟩
  · simp only [hup, if_true] at h
    set a2 : Arc α := { (st.getArc arcId).invert with
      current_flow := (st.getArc arcId).min_flow } with ha2
    have hma := hInv.2.2.1 arcId hid
    have hmatchI : ArcMatches (L.infos.getD arcId (ArcInfo.srcA 0)) a2 :=
      ArcMatches_reset_invert _ _ hma hne
    obtain ⟨hneq, hbs0, hbe0⟩ := arc_move_facts L st arcId hok hInv hid
    -- the unsaturated arc is a task-sink arc, so neither endpoint is the source
    have hmem2 : L.infos.getD arcId (.srcA 0) ∈ L.infos :=
      getD_mem _ _ (by rw [← hInv.2.1]; exact hid)
    have hcls := hok.2.2.2.2 _ hmem2
    have hend0 : (st.getArc arcId).start_node ≠ 0 ∧ (st.getArc arcId).end_node ≠ 0 := by
      rcases hinfo : L.infos.getD arcId (ArcInfo.srcA 0) with ⟨t, mn, mx⟩ | w | ⟨w, t, aff⟩ <;>
        rw [hinfo] at hma hcls
      · obtain ⟨ht2, _⟩ := hok.2.1 t hcls
        rcases hma.2.2.2 with ⟨hs, he⟩ | ⟨hs, he⟩ <;> rw [hs, he] <;> omega
      · exact absurd (hma.1.trans hma.2.1.symm) hne
      · exact absurd (hma.1.trans hma.2.1.symm) hne
    rcases hrm : (({ st with arcs := st.arcs.set arcId a2 } : Network α).getNode
        a2.end_node).remove_connection arcId with _ | ndE
    · rw [hrm] at h
      simp at h
    · simp only [hrm, Option.some.injEq] at h
      subst h
      have hmove := Inv_move L st arcId a2 ndE hInv hid hmatchI rfl rfl hneq hbe0 hbs0 hrm
      refine ⟨hmove, ?_, by simp [Network.setNode], by simp [Network.setNode]⟩
      rw [getNode_setNode_ne _ _ ?hs, getNode_setNode_ne _ _ ?he]
      · rfl
      case hs => exact hend0.2
      case he => exact hend0.1

/-- Folding `resetStep` over in-range arc ids preserves the invariant, the
source node and the arena sizes. -/
theorem Inv_reset_fold (L : Ledger α) (hok : LedgerOK L) :
    ∀ (l : List ℕ) (st st' : Network α),
      Inv L st → (∀ id ∈ l, id < st.arcs.length) →
      List.foldlM Network.resetStep st l = some st' →
      Inv L st' ∧ st'.getNode 0 = st.getNode 0 ∧ st'.arcs.length = st.arcs.length ∧
        st'.nodes.length = st.nodes.length := by
  intro l
  induction l with
  | nil =>
    intro st st' hInv _ h
    simp only [List.foldlM_nil, Option.pure_def, Option.some.injEq] at h
    subst h
    exact ⟨hInv, rfl, rfl, rfl⟩
  | cons a as ih =>
    intro st st' hInv hids h
    rw [List.foldlM_cons] at h
    rcases hres : st.resetStep a with _ | st1
    · rw [hres] at h
      exact absurd h (by simp)
    · rw [hres] at h
      obtain ⟨hInv1, hg1, ha1, hn1⟩ :=
        Inv_resetStep L st st1 a hok hInv (hids a (by simp)) hres
      obtain ⟨hInv', hg', ha', hn'⟩ := ih st1 st' hInv1
        (fun id hm => by rw [ha1]; exact hids id (List.mem_cons_of_mem a hm)) h
      exact ⟨hInv', by rw [hg', hg1], by rw [ha', ha1], by rw [hn', hn1]⟩

/-- The phase reset preserves the invariant, the source node and the arena
sizes. -/
theorem Inv_reset (L : Ledger α) (st st' : Network α) (hok : LedgerOK L) (hInv : Inv L st)
    (h : st.reset_arcs_for_second_phase = some st') :
    Inv L st' ∧ st'.getNode 0 = st.getNode 0 ∧ st'.arcs.length = st.arcs.length ∧
      st'.nodes.length = st.nodes.length := by
  unfold Network.reset_arcs_for_second_phase at h
  exact Inv_reset_fold L hok _ st st' hInv (fun id hm => (hInv.2.2.2.1 1 id hm).1) h

/-- `buildPathAux` always returns a list headed by its start node. -/
theorem buildPathAux_head (preds : List (Option ℕ)) :
    ∀ (fuel cur : ℕ) (l : List ℕ), buildPathAux preds fuel cur = some l →
      ∃ l', l = cur :: l' := by
  intro fuel
  induction fuel with
  | zero => intro cur l h; simp [buildPathAux] at h
  | succ fuel ih =>
    intro cur l h
    unfold buildPathAux at h
    rcases hp : preds.getD cur none with _ | p <;>
      simp only [hp, Option.some.injEq] at h
    · exact ⟨[], h.symm⟩
    · rcases Option.map_eq_some'.mp h with ⟨l₂, _, hl⟩
      exact ⟨l₂, hl.symm⟩

/-- The last node of a reconstructed path has no predecessor, and every
earlier node on it has one. -/
theorem buildPathAux_pred (preds : List (Option ℕ)) :
    ∀ (fuel cur : ℕ) (l : List ℕ), buildPathAux preds fuel cur = some l →
      (∃ last, l.getLast? = some last ∧ preds.getD last none = none) ∧
      (∀ x ∈ l.dropLast, preds.getD x none ≠ none) := by
  intro fuel
  induction fuel with
  | zero => intro cur l h; simp [buildPathAux] at h
  | succ fuel ih =>
    intro cur l h
    unfold buildPathAux at h
    rcases hp : preds.getD cur none with _ | p <;> simp only [hp, Option.some.injEq] at h
    · subst h
      exact ⟨⟨cur, by simp, hp⟩, by simp⟩
    · rcases Option.map_eq_some'.mp h with ⟨l₂, hb, hl⟩
      subst hl
      obtain ⟨⟨last, hlast, hpl⟩, hdrop⟩ := ih p l₂ hb
      obtain ⟨l₃, hl3⟩ := buildPathAux_head preds fuel p l₂ hb
      subst hl3
      refine ⟨⟨last, ?_, hpl⟩, ?_⟩
      · rw [List.getLast?_cons_cons]
        exact hlast
      · intro x hx
        have hx' : x = cur ∨ x ∈ (p :: l₃).dropLast := by
          simpa using hx
        rcases hx' with rfl | hx'
        · rw [hp]; simp
        · exact hdrop x hx'

/-- A successful shortest-path search returns a path that starts at the
source and never revisits it. -/
theorem find_shortest_path_shape (st : Network α) (p : List ℕ)
    (h : st.find_shortest_path = .ok p) :
    ∃ v rest, p = 0 :: v :: rest ∧ 0 ∉ (v :: rest) := by
  simp only [Network.find_shortest_path] at h
  split at h
  · exact absurd h (by simp)
  split at h
  · exact absurd h (by simp)
  split at h
  · exact absurd h (by simp)
  rename_i pr hfuel w hw revPath hbp
  split at h
  · rename_i hlast
    have hp : revPath.reverse = p := by
      injection h
    obtain ⟨⟨last, hlast', hplast⟩, hdrop⟩ := buildPathAux_pred _ _ 1 revPath hbp
    have hl0 : last = 0 := by
      rw [hlast] at hlast'
      injection hlast' with he
      exact he.symm
    subst hl0
    obtain ⟨l', hl'⟩ := buildPathAux_head _ _ 1 revPath hbp
    have hne : l' ≠ [] := by
      rintro rfl
      rw [hl'] at hlast
      simp at hlast
    have hnn : revPath ≠ [] := by rw [hl']; simp
    have hgl : revPath.getLast hnn = 0 :=
      Option.some.inj ((List.getLast?_eq_getLast _ hnn).symm.trans hlast)
    set D := revPath.dropLast with hD
    have hsplit : revPath = D ++ [0] := by
      conv_lhs => rw [← List.dropLast_append_getLast hnn]
      rw [hgl]
    have h0drop : 0 ∉ D := fun hm => hdrop 0 hm hplast
    rw [hsplit, List.reverse_append] at hp
    simp only [List.reverse_cons, List.reverse_nil, List.nil_append,
      List.singleton_append] at hp
    have hDne : D ≠ [] := by
      rw [hD, hl']
      rcases l' with _ | ⟨a, l''⟩
      · exact absurd rfl hne
      · simp
    have hDrne : D.reverse ≠ [] := by
      simpa using hDne
    obtain ⟨v, rest, hvr⟩ := List.exists_cons_of_ne_nil hDrne
    refine ⟨v, rest, by rw [← hp, hvr], ?_⟩
    rw [← hvr]
    intro hmem
    exact h0drop (by simpa using hmem)
  · exact absurd h (by simp)

/-- A terminal `solve_iteration` result is never a success value. -/
theorem solve_iteration_inl_not_ok (st : Network α) (cf : ℕ) (r : SolveRes α)
    (h : st.solve_iteration cf = .inl r) :
    ∀ (s2 : Network α) (n : ℕ), r ≠ .ok s2 n := by
  unfold Network.solve_iteration at h
  rcases hsp : st.find_shortest_path with path | _ | _ | _ <;> simp only [hsp] at h
  · rcases hpp : st.push_flow_down_path path with _ | stP <;> simp only [hpp] at h
    · obtain rfl : r = .bug "No arc found" := (Sum.inl.inj h).symm
      intro s2 n hcon
      exact SolveRes.noConfusion hcon
    · by_cases hc : cf + 1 = stP.min_flow_amount
      · rw [if_pos hc] at h
        rcases hr : stP.reset_arcs_for_second_phase with _ | st3 <;> simp only [hr] at h
        · obtain rfl : r = .bug "Could not find connection to remove!" := (Sum.inl.inj h).symm
          intro s2 n hcon
          exact SolveRes.noConfusion hcon
        · exact absurd h (by simp)
      · rw [if_neg hc] at h
        exact absurd h (by simp)
  · obtain rfl : r = .err "Unable to assign all workers!" st := (Sum.inl.inj h).symm
    intro s2 n hcon
    exact SolveRes.noConfusion hcon
  · obtain rfl : r = .bug "Negative cycle detected" := (Sum.inl.inj h).symm
    intro s2 n hcon
    exact SolveRes.noConfusion hcon
  · obtain rfl : r = .bug "Path does not start at source!" := (Sum.inl.inj h).symm
    intro s2 n hcon
    exact SolveRes.noConfusion hcon
  · obtain rfl : r = .looped := (Sum.inl.inj h).symm
    intro s2 n hcon
    exact SolveRes.noConfusion hcon

/-- A continuing `solve_iteration` preserves the invariant and removes
exactly one source-incident arc. -/
theorem solve_iteration_inr_spec (L : Ledger α) (hok : LedgerOK L) (st : Network α)
    (cf : ℕ) (st2 : Network α) (cf2 : ℕ) (hInv : Inv L st)
    (h : st.solve_iteration cf = .inr (st2, cf2)) :
    Inv L st2 ∧
      (st2.getNode 0).connected_arcs.length + 1 = (st.getNode 0).connected_arcs.length := by
  unfold Network.solve_iteration at h
  rcases hsp : st.find_shortest_path with path | _ | _ | _ | _ <;>
    simp only [hsp] at h
  case _ =>
    obtain ⟨v, rest, hpshape, h0n⟩ := find_shortest_path_shape st path hsp
    rcases hpp : st.push_flow_down_path path with _ | stP <;> simp only [hpp] at h
    · exact absurd h (by simp)
    · subst hpshape
      obtain ⟨st4, hInv4, h4, _, _, _, hdec⟩ := push_step L st 0 v rest stP hok hInv hpp
      obtain ⟨hInvP, _, _, hGP⟩ := push_aux L hok (v :: rest) st4 stP hInv4 h4
      have hv0 : v ≠ 0 := fun e => h0n (by rw [e]; exact List.mem_cons_self _ _)
      have hdec' := hdec rfl hv0
      have hg0 : stP.getNode 0 = st4.getNode 0 := hGP 0 h0n
      by_cases hc : cf + 1 = stP.min_flow_amount
      · rw [if_pos hc] at h
        rcases hr : stP.reset_arcs_for_second_phase with _ | st3 <;> simp only [hr] at h
        · exact absurd h (by simp)
        · simp only [Sum.inr.injEq, Prod.mk.injEq] at h
          obtain ⟨rfl, rfl⟩ := h
          obtain ⟨hInv3, hg3, _, _⟩ := Inv_reset L stP st3 hok hInvP hr
          refine ⟨hInv3, ?_⟩
          rw [hg3, hg0]
          exact hdec'
      · rw [if_neg hc] at h
        simp only [Sum.inr.injEq, Prod.mk.injEq] at h
        obtain ⟨rfl, rfl⟩ := h
        refine ⟨hInvP, ?_⟩
        rw [hg0]
        exact hdec'
  all_goals exact absurd h (by simp)

/-- A successful augmentation loop preserves the invariant and performs
exactly one iteration per source-incident arc. -/
theorem solveLoop_ok (L : Ledger α) (hok : LedgerOK L) :
    ∀ (fuel : ℕ) (st : Network α) (cf iters : ℕ) (st' : Network α) (n : ℕ),
      Inv L st → solveLoop fuel st cf iters = .ok st' n →
      Inv L st' ∧ n = iters + (st.getNode 0).connected_arcs.length := by
  intro fuel
  induction fuel with
  | zero =>
    intro st cf iters st' n hInv h
    by_cases hlen : (st.getNode 0).connected_arcs.length = 0
    · rw [solveLoop, if_pos hlen] at h
      obtain ⟨rfl, rfl⟩ : st = st' ∧ iters = n := by
        constructor <;> injection h
      exact ⟨hInv, by omega⟩
    · rw [solveLoop, if_neg hlen] at h
      exact absurd h (by simp)
  | succ fuel ih =>
    intro st cf iters st' n hInv h
    by_cases hlen : (st.getNode 0).connected_arcs.length = 0
    · rw [solveLoop, if_pos hlen] at h
      obtain ⟨rfl, rfl⟩ : st = st' ∧ iters = n := by
        constructor <;> injection h
      exact ⟨hInv, by omega⟩
    · rw [solveLoop, if_neg hlen] at h
      rcases hit : st.solve_iteration cf with r | pr <;> simp only [hit] at h
      · subst h
        exact absurd rfl (solve_iteration_inl_not_ok st cf _ hit st' n)
      · rcases pr with ⟨stN, cfN⟩
        obtain ⟨hInvN, hdec⟩ := solve_iteration_inr_spec L hok st cf stN cfN hInv hit
        obtain ⟨hInv', hn⟩ := ih stN cfN (iters + 1) st' n hInvN h
        exact ⟨hInv', by omega⟩

/-- A successful solve preserves the invariant against the build ledger and
iterates once per source-incident arc of the starting network. -/
theorem find_min_cost_ok (L : Ledger α) (hok : LedgerOK L) (st st' : Network α) (n : ℕ)
    (hInv : Inv L st) (h : st.find_min_cost_max_flow = .ok st' n) :
    Inv L st' ∧ n = (st.getNode 0).connected_arcs.length := by
  simp only [Network.find_min_cost_max_flow] at h
  split at h
  · exact absurd h (by simp)
  split at h
  · exact absurd h (by simp)
  by_cases hmin : st.min_flow_amount = 0
  · rw [if_pos hmin] at h
    rcases hr : st.reset_arcs_for_second_phase with _ | st1 <;> simp only [hr] at h
    · exact absurd h (by simp)
    · obtain ⟨hInv1, hg1, _, _⟩ := Inv_reset L st st1 hok hInv hr
      obtain ⟨hInv', hn⟩ := solveLoop_ok L hok _ st1 0 0 st' n hInv1 h
      rw [hg1] at hn
      exact ⟨hInv', by omega⟩
  · rw [if_neg hmin] at h
    simp only at h
    obtain ⟨hInv', hn⟩ := solveLoop_ok L hok _ st 0 0 st' n hInv h
    exact ⟨hInv', by omega⟩

/-! Counting the source-incident arcs created by the build phase. -/

theorem affFold_getNode :
    ∀ (affs : List (ℕ × α)) (st : Network α) (w n : ℕ), w ≠ n →
      ((affs.foldl (fun acc aff => acc.add_arc w aff.1 aff.2 1 1) st).getNode n)
        = st.getNode n := by
  intro affs
  induction affs with
  | nil => intro st w n _; rfl
  | cons a as ih =>
    intro st w n hw
    simp only [List.foldl_cons]
    rw [ih _ w n hw, add_arc_getNode_ne _ _ _ _ _ _ hw]

/-- Effect of one build command on the number of source-incident arcs:
`add_task` leaves it alone, `add_worker` adds one. -/
theorem conn0_buildStep (L : Ledger α) (st : Network α) (c : BuildCmd α)
    (hInv : Inv L st) (hok : LedgerOK L) :
    ((buildStep st c).getNode 0).connected_arcs.length =
      (st.getNode 0).connected_arcs.length +
        (match c with | .task _ _ => 0 | .worker _ => 1) := by
  have h0lt : 0 < st.nodes.length := by
    have h1 := hInv.1
    have h2 := hok.1
    omega
  have happ : ∀ (sx : Network α), sx.nodes = st.nodes ++ [emptyNode] →
      sx.getNode 0 = st.getNode 0 := by
    intro sx hsx
    show sx.nodes.getD 0 emptyNode = st.nodes.getD 0 emptyNode
    rw [hsx]
    exact getD_append_lt _ _ _ h0lt
  rcases c with ⟨mn, mx⟩ | affs
  · show (((st.add_task mn mx).1).getNode 0).connected_arcs.length = _
    simp only [Network.add_task, Network.add_node]
    by_cases hmn : 0 < mn
    · rw [if_pos hmn, add_arc_getNode_ne _ _ _ _ _ _ (by omega),
        happ _ rfl]
      omega
    · rw [if_neg hmn, add_arc_getNode_ne _ _ _ _ _ _ (by omega),
        happ _ rfl]
      omega
  · show (((st.add_worker affs).1).getNode 0).connected_arcs.length = _
    simp only [Network.add_worker, Network.add_node]
    rw [affFold_getNode _ _ _ _ (by omega)]
    rw [add_arc_getNode_self _ _ _ _ _ _ (by simp)]
    rw [happ _ rfl]
    have hfresh : st.arcs.length ∉ (st.getNode 0).connected_arcs := by
      intro hmem
      have := (hInv.2.2.2.1 0 _ hmem).1
      omega
    rw [add_connection_of_not_mem _ _ hfresh]
    simp

/-- Replaying a valid command list adds one source-incident arc per
worker. -/
theorem buildAux_conn0 :
    ∀ (cmds : List (BuildCmd α)) (L : Ledger α) (st : Network α),
      validFrom L cmds = true → Inv L st → LedgerOK L →
      (((cmds.foldl buildStep st).getNode 0).connected_arcs.length) =
        (st.getNode 0).connected_arcs.length + workerCount cmds := by
  intro cmds
  induction cmds with
  | nil => intro L st _ _ _; simp [workerCount]
  | cons c rest ih =>
    intro L st hv hInv hok
    have hcv : CmdOK L c := by
      rcases c with ⟨mn, mx⟩ | affs
      · trivial
      · unfold validFrom at hv
        simp only [Bool.and_eq_true, List.all_eq_true] at hv
        intro a ha
        have := hv.1 a ha
        simpa using this
    have hv' : validFrom (ledgerStep L c) rest = true := by
      rcases c with ⟨mn, mx⟩ | affs
      · simpa [validFrom] using hv
      · unfold validFrom at hv
        simp only [Bool.and_eq_true] at hv
        exact hv.2
    simp only [List.foldl_cons]
    rw [ih (ledgerStep L c) (buildStep st c) hv' (Inv_buildStep L st c hInv hok hcv)
      (LedgerOK_ledgerStep L c hok hcv)]
    rw [conn0_buildStep L st c hInv hok]
    rcases c with ⟨mn, mx⟩ | affs <;> simp [workerCount] <;> omega

/-- The freshly built network has one source-incident arc per worker. -/
theorem build_conn0 (cmds : List (BuildCmd α)) (hv : ValidCmds cmds) :
    (((build cmds).getNode 0).connected_arcs.length) = workerCount cmds := by
  have h := buildAux_conn0 cmds ledger0 Network.new hv Inv_new LedgerOK_ledger0
  have h0 : ((Network.new : Network α).getNode 0).connected_arcs.length = 0 := rfl
  rw [build, h, h0]
  omega

/-! The score identity (claim C4). -/

theorem sum_map_neg_list {β : Type} (l : List β) (f : β → α) :
    (l.map (fun x => -(f x))).sum = -((l.map f).sum) := by
  induction l with
  | nil => simp
  | cons x xs ih => simp [ih, neg_add, add_comm]

theorem sum_filter_of_zero {β : Type} (pr : β → Bool) (f : β → α) :
    ∀ (l : List β), (∀ x ∈ l, pr x = false → f x = 0) →
      ((l.filter pr).map f).sum = (l.map f).sum := by
  intro l
  induction l with
  | nil => intro _; simp
  | cons x xs ih =>
    intro hz
    by_cases hx : pr x
    · rw [List.filter_cons_of_pos hx]
      simp only [List.map_cons, List.sum_cons]
      rw [ih (fun y hy hf => hz y (List.mem_cons_of_mem x hy) hf)]
    · rw [List.filter_cons_of_neg hx]
      simp only [List.map_cons, List.sum_cons]
      rw [hz x (List.mem_cons_self _ _) (by simpa using hx),
        ih (fun y hy hf => hz y (List.mem_cons_of_mem x hy) hf), zero_add]

/-- Classification of the arcs currently leaving a task node: the one into
the sink costs nothing, and the others carry the negated build-time
affinity. -/
theorem task_arc_classify (L : Ledger α) (st : Network α) (hok : LedgerOK L) (hInv : Inv L st)
    (t : ℕ) (ht : t ∈ L.taskIds) (id : ℕ) (hid : id ∈ (st.getNode t).connected_arcs) :
    (((st.getArc id).end_node = 1) → (st.getArc id).cost = 0) ∧
    (((st.getArc id).end_node ≠ 1) → (st.getArc id).cost = -(arcAffD L id)) := by
  have hlt := (hInv.2.2.2.1 t id hid).1
  have hstart := (hInv.2.2.2.1 t id hid).2
  have hma := hInv.2.2.1 id hlt
  have hmem2 : L.infos.getD id (.srcA 0) ∈ L.infos :=
    getD_mem _ _ (by rw [← hInv.2.1]; exact hlt)
  have hcls := hok.2.2.2.2 _ hmem2
  obtain ⟨ht2, htlt⟩ := hok.2.1 t ht
  have htw := hok.2.2.2.1 t ht
  unfold arcAffD
  rcases hinfo : L.infos.getD id (ArcInfo.srcA 0) with ⟨t', mn, mx⟩ | w | ⟨w, t', aff⟩ <;>
    rw [hinfo] at hma hcls
  · refine ⟨fun _ => hma.2.2.1, fun hne => ?_⟩
    exfalso
    rcases hma.2.2.2 with ⟨hs, he⟩ | ⟨hs, he⟩
    · exact hne he
    · rw [hstart] at hs
      omega
  · exfalso
    obtain ⟨hw2, hwlt⟩ := hok.2.2.1 w hcls
    rcases hma.2.2.2.2 with ⟨hs, he⟩ | ⟨hs, he⟩
    · rw [hstart] at hs
      omega
    · rw [hstart] at hs
      exact htw (by rw [hs]; exact hcls)
  · obtain ⟨hw2, hwlt⟩ := hok.2.2.1 w hcls.1
    rcases hma.2.2.2 with ⟨hs, he, hc⟩ | ⟨hs, he, hc⟩
    · exfalso
      rw [hstart] at hs
      exact htw (by rw [hs]; exact hcls.1)
    · refine ⟨fun h1 => ?_, fun _ => hc⟩
      exfalso
      rw [he] at h1
      omega

/-- Per-task form of the score identity. -/
theorem task_score_eq (L : Ledger α) (st : Network α) (hok : LedgerOK L) (hInv : Inv L st)
    (t : ℕ) (ht : t ∈ L.taskIds) :
    ((((st.getNode t).connected_arcs.filter (fun id => (st.getArc id).end_node != 1)).map
        (arcAffD L)).sum
      = -((((st.getNode t).connected_arcs.filter
          (fun id => (st.getArc id).end_node != 1)).map
        (fun id => (st.getArc id).cost)).sum)) ∧
    (((((st.getNode t).connected_arcs.filter
          (fun id => (st.getArc id).end_node != 1)).map
        (fun id => (st.getArc id).cost)).sum)
      = (((st.getNode t).connected_arcs.map (fun id => (st.getArc id).cost)).sum)) := by
  constructor
  · have hcong : ∀ id ∈ (st.getNode t).connected_arcs.filter
        (fun id => (st.getArc id).end_node != 1),
        arcAffD L id = -((st.getArc id).cost) := by
      intro id hidf
      have hid := List.mem_of_mem_filter hidf
      have hne : (st.getArc id).end_node ≠ 1 := by
        have := List.of_mem_filter hidf
        simpa using this
      have hc := (task_arc_classify L st hok hInv t ht id hid).2 hne
      rw [hc]
      simp
    rw [List.map_congr_left hcong]
    exact sum_map_neg_list _ _
  · exact sum_filter_of_zero _ _ _
      (fun id hid hf =>
        (task_arc_classify L st hok hInv t ht id hid).1 (by simpa using hf))

/-- In any invariant-satisfying state the recorded score is the negated
residual cost of the task nodes, which in turn is the raw cost sum of all
arcs leaving the task nodes. -/
theorem score_eq_neg_cost (L : Ledger α) (st : Network α) (hok : LedgerOK L)
    (hInv : Inv L st) :
    total_score L st = -(st.residual_cost L.taskIds) ∧
    st.residual_cost L.taskIds = st.get_cost_of_arcs_from_nodes L.taskIds := by
  constructor
  · unfold total_score Network.residual_cost
    rw [List.map_congr_left (fun t ht =>
      (task_score_eq L st hok hInv t ht).1)]
    exact sum_map_neg_list _ _
  · unfold Network.residual_cost Network.get_cost_of_arcs_from_nodes
    rw [List.map_congr_left (fun t ht =>
      (task_score_eq L st hok hInv t ht).2)]

/-- C4: after `find_min_cost_max_flow` returns Ok on a validly built
network, the total assignment score equals the negation of the cost sum of
the arcs currently originating at task nodes away from the sink, and
equally the negation of `get_cost_of_arcs_from_nodes` on the task node ids
(the task-sink arcs contribute cost 0). -/
theorem C4_score (cmds : List (BuildCmd α)) (hv : ValidCmds cmds)
    (st' : Network α) (n : ℕ)
    (h : (build cmds).find_min_cost_max_flow = .ok st' n) :
    total_score (ledgerOf cmds) st' = -(st'.residual_cost (ledgerOf cmds).taskIds) ∧
    total_score (ledgerOf cmds) st'
      = -(st'.get_cost_of_arcs_from_nodes (ledgerOf cmds).taskIds) := by
  obtain ⟨hInvB, hok⟩ := Inv_build cmds hv
  obtain ⟨hInv', _⟩ := find_min_cost_ok _ hok _ _ _ hInvB h
  obtain ⟨h1, h2⟩ := score_eq_neg_cost _ _ hok hInv'
  exact ⟨h1, by rw [h1, h2]⟩

/-- C8: on a successful solve of a validly built network the augmentation
loop runs exactly once per worker, and every continuing iteration of the
loop removes exactly one source-incident arc (in any state satisfying the
build invariant). -/
theorem C8_iterations (cmds : List (BuildCmd α)) (hv : ValidCmds cmds)
    (st' : Network α) (n : ℕ)
    (h : (build cmds).find_min_cost_max_flow = .ok st' n) :
    n = workerCount cmds ∧
    ∀ (st2 : Network α) (cf : ℕ) (stN : Network α) (cfN : ℕ),
      Inv (ledgerOf cmds) st2 → st2.solve_iteration cf = .inr (stN, cfN) →
      (stN.getNode 0).connected_arcs.length + 1
        = (st2.getNode 0).connected_arcs.length := by
  obtain ⟨hInvB, hok⟩ := Inv_build cmds hv
  obtain ⟨_, hn⟩ := find_min_cost_ok _ hok _ _ _ hInvB h
  refine ⟨by rw [hn, build_conn0 cmds hv], ?_⟩
  intro st2 cf stN cfN hI2 hit
  exact (solve_iteration_inr_spec _ hok st2 cf stN cfN hI2 hit).2

/-- Witness for C4 at a concrete instance (one task, one worker with
affinity 3): the solved score is 3 and the cost sum over the task nodes is
-3. -/
theorem C4_witness :
    ((build c4cmds).find_min_cost_max_flow).okState.map
        (fun stF => total_score (ledgerOf c4cmds) stF) = some 3 ∧
    ((build c4cmds).find_min_cost_max_flow).okState.map
        (fun stF => stF.get_cost_of_arcs_from_nodes (ledgerOf c4cmds).taskIds)
      = some (-3) := by
  have hcost : ((build c4cmds).find_min_cost_max_flow).okState.map
      (fun stF => stF.get_cost_of_arcs_from_nodes (ledgerOf c4cmds).taskIds)
      = some (-3) := by decide
  rcases hE : (build c4cmds).find_min_cost_max_flow with ⟨stF, n⟩ | ⟨m, s⟩ | m | _
  · rw [hE] at hcost
    simp only [SolveRes.okState, Option.map_some', Option.some.injEq] at hcost
    have hmain := C4_score c4cmds (by decide) stF n hE
    simp only [SolveRes.okState, Option.map_some', Option.some.injEq]
    refine ⟨?_, hcost⟩
    rw [hmain.2, hcost]
    norm_num
  · rw [hE] at hcost
    exact absurd hcost (by simp [SolveRes.okState])
  · rw [hE] at hcost
    exact absurd hcost (by simp [SolveRes.okState])
  · rw [hE] at hcost
    exact absurd hcost (by simp [SolveRes.okState])

/-- Witness for C8 at a concrete instance with two workers: the loop runs
exactly `workerCount c8cmds = 2` iterations. -/
theorem C8_witness :
    ((build c8cmds).find_min_cost_max_flow).okIters = some (workerCount c8cmds) := by
  have hd : ((build c8cmds).find_min_cost_max_flow).okIters = some 2 := by decide
  rcases hE : (build c8cmds).find_min_cost_max_flow with ⟨stF, n⟩ | ⟨m, s⟩ | m | _
  · rw [hE] at hd
    simp only [SolveRes.okIters, Option.some.injEq] at hd
    have hmain := C8_iterations c8cmds (by decide) stF n hE
    simp only [SolveRes.okIters, Option.some.injEq]
    exact hmain.1
  · rw [hE] at hd
    exact absurd hd (by simp [SolveRes.okIters])
  · rw [hE] at hd
    exact absurd hd (by simp [SolveRes.okIters])
  · rw [hE] at hd
    exact absurd hd (by simp [SolveRes.okIters])

/-- Witness for C10 at a concrete arc and pair of lists. -/
theorem C10_witness :
    (⟨2, 3, 5, 1, 1, 4⟩ : Arc ℤ).invert.invert = { (⟨2, 3, 5, 1, 1, 4⟩ : Arc ℤ) with current_flow := 0 } ∧
    ∃ u1 v2 : Node,
      (⟨[9]⟩ : Node).remove_connection 9 = some u1 ∧
      ((⟨[]⟩ : Node).add_connection 9).remove_connection 9 = some v2 ∧
      List.Perm ((u1.add_connection 9).connected_arcs) (⟨[9]⟩ : Node).connected_arcs ∧
      List.Perm v2.connected_arcs (⟨[]⟩ : Node).connected_arcs :=
  C10_double_inversion ⟨2, 3, 5, 1, 1, 4⟩ ⟨[9]⟩ ⟨[]⟩ 9 (by decide) (by decide)

/-! Order lemmas on distances (claim C7 analysis). -/

theorem distLe_refl (a : Option α) : distLe a a := by
  rcases a with _ | x <;> simp [distLe]

theorem distLe_trans {a b c : Option α} (h1 : distLe a b) (h2 : distLe b c) :
    distLe a c := by
  rcases a with _ | x <;> rcases b with _ | y <;> rcases c with _ | z <;>
    simp [distLe] at * <;> try exact le_trans h1 h2

theorem distLt_false_iff (a b : Option α) : distLt a b = false ↔ distLe b a := by
  rcases a with _ | x <;> rcases b with _ | y <;>
    simp [distLt, distLe, not_lt]

theorem distLt_some_left {a b : Option α} (h : distLt a b = true) : ∃ x, a = some x := by
  rcases a with _ | x
  · simp [distLt] at h
  · exact ⟨x, rfl⟩

theorem distLt_le {a b : Option α} (h : distLt a b = true) : distLe a b := by
  rcases a with _ | x <;> rcases b with _ | y <;>
    simp [distLt, distLe] at *
  exact le_of_lt h

theorem distLt_irrefl (a : Option α) : distLt a a = false := by
  rcases a with _ | x <;> simp [distLt]

theorem distLe_lt_trans {a b c : Option α} (h1 : distLe a b) (h2 : distLt b c = true) :
    distLt a c = true := by
  rcases a with _ | x <;> rcases b with _ | y <;> rcases c with _ | z <;>
    simp [distLt, distLe] at *
  exact lt_of_le_of_lt h1 h2

theorem distLt_le_trans {a b c : Option α} (h1 : distLt a b = true) (h2 : distLe b c) :
    distLt a c = true := by
  rcases a with _ | x <;> rcases b with _ | y <;> rcases c with _ | z <;>
    simp [distLt, distLe] at *
  exact lt_of_lt_of_le h1 h2

theorem distLe_some_right {a : Option α} {x : α} (h : distLe a (some x)) :
    ∃ y, a = some y ∧ y ≤ x := by
  rcases a with _ | y
  · simp [distLe] at h
  · exact ⟨y, rfl, by simpa [distLe] using h⟩

theorem distLe_add {a b : Option α} (c : α) (h : distLe a b) :
    distLe (distAdd a c) (distAdd b c) := by
  rcases a with _ | x <;> rcases b with _ | y <;>
    simp [distLe, distAdd] at *
  exact h

/-- Anatomy of one arc relaxation: either a recorded no-op or a strict
improvement writing distance and predecessor and enqueueing the end node
when it is not the sink. -/
theorem relaxArc_cases (st : Network α) (u : ℕ) (s : SPState α) (arcId : ℕ) :
    (distLt (distAdd (s.dist u) (st.getArc arcId).cost)
        (s.dist ((st.getArc arcId).end_node)) = false ∧
      st.relaxArc u s arcId = s) ∨
    (distLt (distAdd (s.dist u) (st.getArc arcId).cost)
        (s.dist ((st.getArc arcId).end_node)) = true ∧
      st.relaxArc u s arcId =
        { distances := s.distances.set ((st.getArc arcId).end_node)
            (distAdd (s.dist u) (st.getArc arcId).cost),
          predecessors := s.predecessors.set ((st.getArc arcId).end_node) (some u),
          nodes_updated := if (st.getArc arcId).end_node ≠ 1
            then s.nodes_updated ++ [(st.getArc arcId).end_node]
            else s.nodes_updated }) := by
  by_cases h : distLt (distAdd (s.dist u) (st.getArc arcId).cost)
      (s.dist ((st.getArc arcId).end_node)) = true
  · right
    refine ⟨h, ?_⟩
    simp only [SPState.dist] at h
    simp only [Network.relaxArc]
    rw [if_pos h]
    rfl
  · left
    rw [Bool.not_eq_true] at h
    refine ⟨h, ?_⟩
    simp only [SPState.dist] at h
    simp only [Network.relaxArc]
    rw [if_neg (by rw [h]; exact Bool.false_ne_true)]

theorem DistLeS_refl (s : SPState α) : DistLeS s s := fun _ => distLe_refl _

theorem DistLeS_trans {s1 s2 s3 : SPState α} (h1 : DistLeS s1 s2) (h2 : DistLeS s2 s3) :
    DistLeS s1 s3 :=
  fun v => distLe_trans (h1 v) (h2 v)

/-- One relaxation only lowers distances. -/
theorem relaxArc_mono (st : Network α) (u : ℕ) (s : SPState α) (arcId : ℕ) :
    DistLeS (st.relaxArc u s arcId) s := by
  rcases relaxArc_cases st u s arcId with ⟨_, he⟩ | ⟨himp, he⟩
  · rw [he]; exact fun v => distLe_refl _
  · intro w
    rw [he]
    by_cases hw : w = (st.getArc arcId).end_node
    · rw [hw]
      show distLe ((s.distances.set (st.getArc arcId).end_node
          (distAdd (s.dist u) (st.getArc arcId).cost)).getD (st.getArc arcId).end_node none)
        (s.dist (st.getArc arcId).end_node)
      by_cases hlen : (st.getArc arcId).end_node < s.distances.length
      · rw [getD_set_self _ _ _ hlen]
        exact distLt_le himp
      · rw [List.set_eq_of_length_le (le_of_not_lt hlen)]
        exact distLe_refl _
    · show distLe ((s.distances.set (st.getArc arcId).end_node
          (distAdd (s.dist u) (st.getArc arcId).cost)).getD w none) (s.dist w)
      rw [getD_set_ne _ _ _ (fun e => hw e.symm)]
      exact distLe_refl _

theorem foldl_relaxArc_mono (st : Network α) (u : ℕ) :
    ∀ (ids : List ℕ) (s : SPState α), DistLeS (ids.foldl (st.relaxArc u) s) s := by
  intro ids
  induction ids with
  | nil => intro s; exact DistLeS_refl s
  | cons a as ih =>
    intro s
    exact DistLeS_trans (ih (st.relaxArc u s a)) (relaxArc_mono st u s a)

theorem relaxFrom_mono (st : Network α) (s : SPState α) (u : ℕ) :
    DistLeS (st.relaxFrom s u) s :=
  foldl_relaxArc_mono st u _ s

theorem foldl_relaxFrom_mono (st : Network α) :
    ∀ (us : List ℕ) (s : SPState α), DistLeS (us.foldl st.relaxFrom s) s := by
  intro us
  induction us with
  | nil => intro s; exact DistLeS_refl s
  | cons a as ih =>
    intro s
    exact DistLeS_trans (ih (st.relaxFrom s a)) (relaxFrom_mono st s a)

/-- A whole pass only lowers distances. -/
theorem spPass_mono (st : Network α) (s : SPState α) : DistLeS (st.spPass s) s := by
  intro v
  show distLe ((st.spPass s).dist v) (s.dist v)
  unfold Network.spPass
  exact foldl_relaxFrom_mono st s.nodes_updated { s with nodes_updated := [] } v

/-- The worklist only grows during relaxation, by non-sink end nodes. -/
theorem relaxArc_worklist (st : Network α) (u : ℕ) (s : SPState α) (arcId : ℕ) :
    ∃ t : List ℕ, (st.relaxArc u s arcId).nodes_updated = s.nodes_updated ++ t ∧
      ∀ x ∈ t, x = (st.getArc arcId).end_node ∧ x ≠ 1 ∧
        distLt (distAdd (s.dist u) (st.getArc arcId).cost)
          (s.dist ((st.getArc arcId).end_node)) = true := by
  rcases relaxArc_cases st u s arcId with ⟨_, he⟩ | ⟨himp, he⟩
  · exact ⟨[], by rw [he]; simp, by simp⟩
  · rw [he]
    by_cases h1 : (st.getArc arcId).end_node ≠ 1
    · refine ⟨[(st.getArc arcId).end_node], ?_, ?_⟩
      · show (if (st.getArc arcId).end_node ≠ 1 then
            s.nodes_updated ++ [(st.getArc arcId).end_node] else s.nodes_updated) = _
        rw [if_pos h1]
      · intro x hx
        simp only [List.mem_singleton] at hx
        exact ⟨hx, hx ▸ h1, himp⟩
    · refine ⟨[], ?_, by simp⟩
      show (if (st.getArc arcId).end_node ≠ 1 then
          s.nodes_updated ++ [(st.getArc arcId).end_node] else s.nodes_updated) = _
      rw [if_neg h1]
      simp

theorem distLt_some_some {x y : α} : distLt (some x) (some y) = true ↔ x < y := by
  simp [distLt]

theorem relaxArc_lengths (st : Network α) (u : ℕ) (s : SPState α) (arcId : ℕ) :
    (st.relaxArc u s arcId).distances.length = s.distances.length ∧
    (st.relaxArc u s arcId).predecessors.length = s.predecessors.length := by
  rcases relaxArc_cases st u s arcId with ⟨_, he⟩ | ⟨_, he⟩ <;> rw [he] <;> simp

theorem relaxArc_improved (st : Network α) (u : ℕ) (s : SPState α) (arcId : ℕ)
    (himp : distLt (distAdd (s.dist u) (st.getArc arcId).cost)
      (s.dist ((st.getArc arcId).end_node)) = true)
    (hvd : (st.getArc arcId).end_node < s.distances.length)
    (hvp : (st.getArc arcId).end_node < s.predecessors.length) :
    (st.relaxArc u s arcId).dist ((st.getArc arcId).end_node)
      = distAdd (s.dist u) (st.getArc arcId).cost ∧
    (st.relaxArc u s arcId).pred ((st.getArc arcId).end_node) = some u ∧
    (st.relaxArc u s arcId).nodes_updated
      = (if (st.getArc arcId).end_node ≠ 1
         then s.nodes_updated ++ [(st.getArc arcId).end_node]
         else s.nodes_updated) := by
  rcases relaxArc_cases st u s arcId with ⟨hf, _⟩ | ⟨_, he⟩
  · rw [himp] at hf
    exact absurd hf (by simp)
  · rw [he]
    refine ⟨?_, ?_, rfl⟩
    · show (s.distances.set _ _).getD _ none = _
      exact getD_set_self _ _ _ hvd
    · show (s.predecessors.set _ _).getD _ none = _
      exact getD_set_self _ _ _ hvp

theorem relaxArc_unchanged (st : Network α) (u : ℕ) (s : SPState α) (arcId : ℕ)
    (w : ℕ) (hw : w ≠ (st.getArc arcId).end_node) :
    (st.relaxArc u s arcId).dist w = s.dist w ∧
    (st.relaxArc u s arcId).pred w = s.pred w := by
  rcases relaxArc_cases st u s arcId with ⟨_, he⟩ | ⟨_, he⟩
  · rw [he]; exact ⟨rfl, rfl⟩
  · rw [he]
    constructor
    · show (s.distances.set _ _).getD w none = _
      exact getD_set_ne _ _ _ (fun e => hw e.symm)
    · show (s.predecessors.set _ _).getD w none = _
      exact getD_set_ne _ _ _ (fun e => hw e.symm)

theorem dist_some_of_mono {s s' : SPState α} (h : DistLeS s' s) {v : ℕ}
    (hv : s.dist v ≠ none) : s'.dist v ≠ none := by
  rcases hs : s.dist v with _ | x
  · exact absurd hs hv
  · have hle := h v
    rw [hs] at hle
    obtain ⟨y, hy, _⟩ := distLe_some_right hle
    rw [hy]
    simp

/-- `SPBase` is preserved by one relaxation step out of a non-sink node,
given in-range arc ends. -/
theorem SPBase_relaxArc (st : Network α) (u : ℕ) (s : SPState α) (arcId : ℕ)
    (hE : EndsInRange st) (hid : arcId ∈ (st.getNode u).connected_arcs)
    (hu1 : u ≠ 1) (hB : SPBase st s) : SPBase st (st.relaxArc u s arcId) := by
  obtain ⟨hdl, hpl, ⟨d0, hd0, hd0le⟩, hfin, hpred, hwl⟩ := hB
  have hmono := relaxArc_mono st u s arcId
  rcases relaxArc_cases st u s arcId with ⟨_, he⟩ | ⟨himp, he⟩
  · rw [he]; exact ⟨hdl, hpl, ⟨d0, hd0, hd0le⟩, hfin, hpred, hwl⟩
  · have hvlt : (st.getArc arcId).end_node < st.nodes.length := hE u arcId hid
    have hvd : (st.getArc arcId).end_node < s.distances.length := by rw [hdl]; exact hvlt
    have hvp : (st.getArc arcId).end_node < s.predecessors.length := by rw [hpl]; exact hvlt
    have hdusome : ∃ duv, s.dist u = some duv := by
      rcases hu : s.dist u with _ | z
      · rw [hu] at himp
        simp [distAdd, distLt] at himp
      · exact ⟨z, rfl⟩
    obtain ⟨du, hdu⟩ := hdusome
    obtain ⟨hdv, hpv, hwv⟩ := relaxArc_improved st u s arcId himp hvd hvp
    have hsome : ∀ w, s.dist w ≠ none → (st.relaxArc u s arcId).dist w ≠ none :=
      fun w hw => dist_some_of_mono hmono hw
    have hdvs : (st.relaxArc u s arcId).dist ((st.getArc arcId).end_node)
        = some (du + (st.getArc arcId).cost) := by
      rw [hdv, hdu]; rfl
    refine ⟨?_, ?_, ?_, ?_, ?_, ?_⟩
    · rw [(relaxArc_lengths st u s arcId).1]; exact hdl
    · rw [(relaxArc_lengths st u s arcId).2]; exact hpl
    · by_cases h0 : (st.getArc arcId).end_node = 0
      · refine ⟨du + (st.getArc arcId).cost, by rw [h0] at hdvs; exact hdvs, ?_⟩
        have himp' := himp
        rw [h0, hd0, hdu] at himp'
        simp only [distAdd, Option.map_some'] at himp'
        have hlt : du + (st.getArc arcId).cost < d0 := distLt_some_some.mp himp'
        exact le_of_lt (lt_of_lt_of_le hlt hd0le)
      · obtain ⟨hd, _⟩ := relaxArc_unchanged st u s arcId 0 (fun e => h0 e.symm)
        exact ⟨d0, by rw [hd]; exact hd0, hd0le⟩
    · intro w hw0 hwsome
      by_cases hwv' : w = (st.getArc arcId).end_node
      · rw [hwv', hpv]
        simp
      · obtain ⟨hd, hp⟩ := relaxArc_unchanged st u s arcId w hwv'
        rw [hd] at hwsome
        rw [hp]
        exact hfin w hw0 hwsome
    · intro w u' hpu'
      by_cases hwv' : w = (st.getArc arcId).end_node
      · rw [hwv', hpv] at hpu'
        obtain rfl : u = u' := by injection hpu'
        refine ⟨hu1, ?_, ?_⟩
        · exact hsome u (by rw [hdu]; simp)
        · rw [hwv']
          rw [hdvs]
          simp
      · obtain ⟨hd, hp⟩ := relaxArc_unchanged st u s arcId w hwv'
        rw [hp] at hpu'
        obtain ⟨h1, h2, h3⟩ := hpred w u' hpu'
        exact ⟨h1, hsome u' h2, by rw [hd]; exact h3⟩
    · intro x hx
      rw [hwv] at hx
      by_cases h1 : (st.getArc arcId).end_node ≠ 1
      · rw [if_pos h1] at hx
        rcases List.mem_append.mp hx with hx | hx
        · obtain ⟨g1, g2⟩ := hwl x hx
          exact ⟨g1, hsome x g2⟩
        · have hxe : x = (st.getArc arcId).end_node := by simpa using hx
          subst hxe
          exact ⟨h1, by rw [hdvs]; simp⟩
      · rw [if_neg h1] at hx
        obtain ⟨g1, g2⟩ := hwl x hx
        exact ⟨g1, hsome x g2⟩

theorem spPass_eq (st : Network α) (s : SPState α) :
    st.spPass s =
      { s.nodes_updated.foldl st.relaxFrom { s with nodes_updated := ([] : List ℕ) } with
        nodes_updated := dedupAdj (sortNat
          (s.nodes_updated.foldl st.relaxFrom
            { s with nodes_updated := ([] : List ℕ) }).nodes_updated) } := rfl

theorem mem_insertSorted (x y : ℕ) :
    ∀ (l : List ℕ), y ∈ insertSorted x l ↔ y = x ∨ y ∈ l := by
  intro l
  induction l with
  | nil => simp [insertSorted]
  | cons a as ih =>
    simp only [insertSorted]
    by_cases h : x ≤ a
    · rw [if_pos h]
      simp [List.mem_cons]
    · rw [if_neg h]
      simp only [List.mem_cons, ih]
      tauto

theorem mem_sortNat (y : ℕ) : ∀ (l : List ℕ), y ∈ sortNat l ↔ y ∈ l := by
  intro l
  induction l with
  | nil => simp [sortNat]
  | cons a as ih =>
    simp only [sortNat]
    rw [mem_insertSorted]
    simp [List.mem_cons, ih]

theorem mem_dedupAdj (y : ℕ) : ∀ (l : List ℕ), y ∈ dedupAdj l ↔ y ∈ l := by
  intro l
  induction l with
  | nil => simp [dedupAdj]
  | cons a as ih =>
    cases as with
    | nil => simp [dedupAdj]
    | cons b bs =>
      simp only [dedupAdj]
      by_cases h : a = b
      · rw [if_pos h, ih]
        subst h
        simp [List.mem_cons]
      · rw [if_neg h]
        simp [List.mem_cons, ih]

theorem SPBase_foldArcs (st : Network α) (u : ℕ) (hu1 : u ≠ 1) (hE : EndsInRange st) :
    ∀ (ids : List ℕ) (s : SPState α), (∀ id ∈ ids, id ∈ (st.getNode u).connected_arcs) →
      SPBase st s → SPBase st (ids.foldl (st.relaxArc u) s) := by
  intro ids
  induction ids with
  | nil => intro s _ hB; exact hB
  | cons a as ih =>
    intro s hids hB
    exact ih _ (fun id hm => hids id (List.mem_cons_of_mem a hm))
      (SPBase_relaxArc st u s a hE (hids a (List.mem_cons_self _ _)) hu1 hB)

theorem SPBase_relaxFrom (st : Network α) (s : SPState α) (u : ℕ) (hu1 : u ≠ 1)
    (hE : EndsInRange st) (hB : SPBase st s) : SPBase st (st.relaxFrom s u) :=
  SPBase_foldArcs st u hu1 hE _ s (fun _ h => h) hB

theorem SPBase_foldFrom (st : Network α) (hE : EndsInRange st) :
    ∀ (us : List ℕ) (s : SPState α), (∀ x ∈ us, x ≠ 1) → SPBase st s →
      SPBase st (us.foldl st.relaxFrom s) := by
  intro us
  induction us with
  | nil => intro s _ hB; exact hB
  | cons a as ih =>
    intro s hus hB
    exact ih _ (fun x hm => hus x (List.mem_cons_of_mem a hm))
      (SPBase_relaxFrom st s a (hus a (List.mem_cons_self _ _)) hE hB)

theorem SPBase_clear (st : Network α) (s : SPState α) (hB : SPBase st s) :
    SPBase st { s with nodes_updated := ([] : List ℕ) } := by
  obtain ⟨h1, h2, h3, h4, h5, h6⟩ := hB
  exact ⟨h1, h2, h3, h4, h5, by simp⟩

theorem SPBase_relabel (st : Network α) (s : SPState α) (w : List ℕ) (hB : SPBase st s)
    (hw : ∀ x ∈ w, x ∈ s.nodes_updated) :
    SPBase st { s with nodes_updated := w } := by
  obtain ⟨h1, h2, h3, h4, h5, h6⟩ := hB
  exact ⟨h1, h2, h3, h4, h5, fun x hx => h6 x (hw x hx)⟩

theorem SPBase_spPass (st : Network α) (s : SPState α) (hE : EndsInRange st)
    (hB : SPBase st s) : SPBase st (st.spPass s) := by
  rw [spPass_eq]
  apply SPBase_relabel
  · exact SPBase_foldFrom st hE s.nodes_updated _
      (fun x hx => (hB.2.2.2.2.2 x hx).1) (SPBase_clear st s hB)
  · intro x hx
    rw [mem_dedupAdj, mem_sortNat] at hx
    exact hx

theorem SPBase_sp0 (st : Network α) (hn : 1 ≤ st.nodes.length) : SPBase st (sp0 st) := by
  have hd0 : (sp0 st : SPState α).dist 0 = some 0 := by
    show ((List.replicate st.nodes.length (none : Option α)).set 0 (some 0)).getD 0 none
      = some 0
    exact getD_set_self _ _ _ (by rw [List.length_replicate]; omega)
  have hdother : ∀ v, v ≠ 0 → (sp0 st : SPState α).dist v = none := by
    intro v hv
    show ((List.replicate st.nodes.length (none : Option α)).set 0 (some 0)).getD v none
      = none
    rw [getD_set_ne _ _ _ (fun e => hv e.symm)]
    rcases Nat.lt_or_ge v st.nodes.length with h | h
    · rw [List.getD_eq_getElem?_getD, List.getElem?_replicate, if_pos h]
      rfl
    · exact List.getD_eq_default _ _ (by simpa using h)
  have hpnone : ∀ v, (sp0 st : SPState α).pred v = none := by
    intro v
    show (List.replicate st.nodes.length (none : Option ℕ)).getD v none = none
    rcases Nat.lt_or_ge v st.nodes.length with h | h
    · rw [List.getD_eq_getElem?_getD, List.getElem?_replicate, if_pos h]
      rfl
    · exact List.getD_eq_default _ _ (by simpa using h)
  refine ⟨by simp [sp0], by simp [sp0], ⟨0, hd0, le_refl 0⟩, ?_, ?_, ?_⟩
  · intro v hv0 hvsome
    exact absurd (hdother v hv0) hvsome
  · intro v u hpu
    rw [hpnone v] at hpu
    exact absurd hpu (by simp)
  · intro x hx
    have hx0 : x = 0 := by simpa [sp0] using hx
    subst hx0
    exact ⟨by simp, by rw [hd0]; simp⟩

/-- The ghost bookkeeping is preserved by one relaxation step. -/
theorem SPGhost_relaxArc (st : Network α) (u : ℕ) (s : SPState α) (arcId : ℕ)
    (hE : EndsInRange st) (hid : arcId ∈ (st.getNode u).connected_arcs)
    (hu1 : u ≠ 1) (hB : SPBase st s) (hG : SPGhost st s) :
    SPGhost st (st.relaxArc u s arcId) := by
  obtain ⟨r, f, B, hfB, hK⟩ := hG
  rcases relaxArc_cases st u s arcId with ⟨_, he⟩ | ⟨himp, he⟩
  · rw [he]; exact ⟨r, f, B, hfB, hK⟩
  · obtain ⟨hdl, hpl, _, _, _, _⟩ := hB
    have hvlt : (st.getArc arcId).end_node < st.nodes.length := hE u arcId hid
    have hvd : (st.getArc arcId).end_node < s.distances.length := by rw [hdl]; exact hvlt
    have hvp : (st.getArc arcId).end_node < s.predecessors.length := by rw [hpl]; exact hvlt
    have hdusome : ∃ duv, s.dist u = some duv := by
      rcases hu : s.dist u with _ | z
      · rw [hu] at himp
        simp [distAdd, distLt] at himp
      · exact ⟨z, rfl⟩
    obtain ⟨du, hdu⟩ := hdusome
    obtain ⟨hdv, hpv, _⟩ := relaxArc_improved st u s arcId himp hvd hvp
    have hdvs : (st.relaxArc u s arcId).dist ((st.getArc arcId).end_node)
        = some (du + (st.getArc arcId).cost) := by
      rw [hdv, hdu]; rfl
    refine ⟨Function.update r ((st.getArc arcId).end_node) du,
      Function.update f ((st.getArc arcId).end_node) B, B + 1, ?_, ?_⟩
    · intro w
      by_cases hw : w = (st.getArc arcId).end_node
      · subst hw
        rw [Function.update_same]
        omega
      · rw [Function.update_noteq hw]
        exact lt_trans (hfB w) (by omega)
    · intro w u' hpu'
      by_cases hw : w = (st.getArc arcId).end_node
      · -- the freshly written predecessor
        subst hw
        rw [hpv] at hpu'
        obtain rfl : u = u' := by injection hpu'
        refine ⟨arcId, hid, rfl, ?_, ?_⟩
        · rw [hdvs, Function.update_same]
        · by_cases huv : u = (st.getArc arcId).end_node
          · -- self-loop: the strict improvement forces a negative cost
            refine Or.inr (Or.inr ⟨huv, ?_⟩)
            rw [← huv] at himp
            rw [hdu] at himp
            simp only [distAdd, Option.map_some'] at himp
            have h1 := distLt_some_some.mp himp
            have h2 : du + (st.getArc arcId).cost < du + 0 := by
              rw [add_zero]; exact h1
            exact lt_of_add_lt_add_left h2
          · refine Or.inl ⟨?_, ?_⟩
            · rw [Function.update_noteq huv, Function.update_same]
              exact hfB u
            · obtain ⟨hd, _⟩ := relaxArc_unchanged st u s arcId u huv
              rw [hd, Function.update_same]
              exact hdu
      · -- an untouched predecessor entry
        obtain ⟨hdw, hpw⟩ := relaxArc_unchanged st u s arcId w hw
        rw [hpw] at hpu'
        obtain ⟨id, hidm, hend, hdveq, hdisj⟩ := hK w u' hpu'
        refine ⟨id, hidm, hend,
          by rw [hdw, Function.update_noteq hw]; exact hdveq, ?_⟩
        by_cases hu'v : u' = (st.getArc arcId).end_node
        · -- the read node was just rewritten: strictly smaller now
          rw [Function.update_noteq hw, Function.update_noteq hw]
          have hlt : du + (st.getArc arcId).cost < r w := by
            rcases hdisj with ⟨_, hdueq⟩ | ⟨_, du', hdu', hlt'⟩ | ⟨heq, _⟩
            · rw [hu'v] at hdueq
              rw [hdu, hdueq] at himp
              simp only [distAdd, Option.map_some'] at himp
              exact distLt_some_some.mp himp
            · rw [hu'v] at hdu'
              rw [hdu, hdu'] at himp
              simp only [distAdd, Option.map_some'] at himp
              exact lt_trans (distLt_some_some.mp himp) hlt'
            · exact absurd (heq.symm.trans hu'v) hw
          subst hu'v
          rw [Function.update_same]
          refine Or.inr (Or.inl ⟨hfB w, du + (st.getArc arcId).cost, hdvs, hlt⟩)
        · -- the read node kept its distance
          obtain ⟨hdu', _⟩ := relaxArc_unchanged st u s arcId u' hu'v
          rw [Function.update_noteq hw, Function.update_noteq hw,
            Function.update_noteq hu'v, hdu']
          exact hdisj

theorem SPGhost_foldArcs (st : Network α) (u : ℕ) (hu1 : u ≠ 1) (hE : EndsInRange st) :
    ∀ (ids : List ℕ) (s : SPState α), (∀ id ∈ ids, id ∈ (st.getNode u).connected_arcs) →
      SPBase st s → SPGhost st s →
      SPGhost st (ids.foldl (st.relaxArc u) s) := by
  intro ids
  induction ids with
  | nil => intro s _ _ hG; exact hG
  | cons a as ih =>
    intro s hids hB hG
    exact ih _ (fun id hm => hids id (List.mem_cons_of_mem a hm))
      (SPBase_relaxArc st u s a hE (hids a (List.mem_cons_self _ _)) hu1 hB)
      (SPGhost_relaxArc st u s a hE (hids a (List.mem_cons_self _ _)) hu1 hB hG)

theorem SPGhost_foldFrom (st : Network α) (hE : EndsInRange st) :
    ∀ (us : List ℕ) (s : SPState α), (∀ x ∈ us, x ≠ 1) → SPBase st s → SPGhost st s →
      SPGhost st (us.foldl st.relaxFrom s) := by
  intro us
  induction us with
  | nil => intro s _ _ hG; exact hG
  | cons a as ih =>
    intro s hus hB hG
    exact ih _ (fun x hm => hus x (List.mem_cons_of_mem a hm))
      (SPBase_relaxFrom st s a (hus a (List.mem_cons_self _ _)) hE hB)
      (SPGhost_foldArcs st a (hus a (List.mem_cons_self _ _)) hE _ s (fun _ h => h) hB hG)

theorem SPGhost_irrelevant (st : Network α) (s : SPState α) (w : List ℕ)
    (hG : SPGhost st s) : SPGhost st { s with nodes_updated := w } := hG

theorem SPGhost_spPass (st : Network α) (s : SPState α) (hE : EndsInRange st)
    (hB : SPBase st s) (hG : SPGhost st s) : SPGhost st (st.spPass s) := by
  rw [spPass_eq]
  exact SPGhost_irrelevant _ _ _
    (SPGhost_foldFrom st hE s.nodes_updated _
      (fun x hx => (hB.2.2.2.2.2 x hx).1) (SPBase_clear st s hB) (SPGhost_irrelevant _ _ _ hG))

theorem SPGhost_sp0 (st : Network α) : SPGhost st (sp0 st) := by
  refine ⟨fun _ => 0, fun _ => 0, 1, fun _ => Nat.zero_lt_one, ?_⟩
  intro v u hpu
  exfalso
  have hpnone : (sp0 st : SPState α).pred v = none := by
    show (List.replicate st.nodes.length (none : Option ℕ)).getD v none = none
    rcases Nat.lt_or_ge v st.nodes.length with h | h
    · rw [List.getD_eq_getElem?_getD, List.getElem?_replicate, if_pos h]
      rfl
    · exact List.getD_eq_default _ _ (by simpa using h)
  rw [hpnone] at hpu
  exact absurd hpu (by simp)

theorem relaxArc_worklist_mono (st : Network α) (u : ℕ) (s : SPState α) (arcId : ℕ) :
    ∀ x ∈ s.nodes_updated, x ∈ (st.relaxArc u s arcId).nodes_updated := by
  intro x hx
  obtain ⟨t, happ, _⟩ := relaxArc_worklist st u s arcId
  rw [happ]
  exact List.mem_append_left _ hx

theorem foldArcs_worklist_mono (st : Network α) (u : ℕ) :
    ∀ (ids : List ℕ) (s : SPState α) (x : ℕ), x ∈ s.nodes_updated →
      x ∈ (ids.foldl (st.relaxArc u) s).nodes_updated := by
  intro ids
  induction ids with
  | nil => intro s x hx; exact hx
  | cons a as ih =>
    intro s x hx
    exact ih _ x (relaxArc_worklist_mono st u s a x hx)

theorem relaxFrom_worklist_mono (st : Network α) (s : SPState α) (u : ℕ) :
    ∀ x ∈ s.nodes_updated, x ∈ (st.relaxFrom s u).nodes_updated :=
  fun x hx => foldArcs_worklist_mono st u _ s x hx

theorem foldFrom_worklist_mono (st : Network α) :
    ∀ (us : List ℕ) (s : SPState α) (x : ℕ), x ∈ s.nodes_updated →
      x ∈ (us.foldl st.relaxFrom s).nodes_updated := by
  intro us
  induction us with
  | nil => intro s x hx; exact hx
  | cons a as ih =>
    intro s x hx
    exact ih _ x (relaxFrom_worklist_mono st s a x hx)

theorem relaxArc_dist_stable (st : Network α) (u : ℕ) (s : SPState α) (arcId : ℕ)
    (x : ℕ) (hx1 : x ≠ 1) (hx : x ∉ (st.relaxArc u s arcId).nodes_updated) :
    (st.relaxArc u s arcId).dist x = s.dist x := by
  rcases relaxArc_cases st u s arcId with ⟨_, he⟩ | ⟨himp, he⟩
  · rw [he]
  · by_cases hxv : x = (st.getArc arcId).end_node
    · exfalso
      apply hx
      rw [he]
      show x ∈ (if (st.getArc arcId).end_node ≠ 1 then
        s.nodes_updated ++ [(st.getArc arcId).end_node] else s.nodes_updated)
      rw [if_pos (by rw [← hxv]; exact hx1)]
      rw [hxv]
      simp
    · exact (relaxArc_unchanged st u s arcId x hxv).1

theorem foldArcs_dist_stable (st : Network α) (u : ℕ) :
    ∀ (ids : List ℕ) (s : SPState α) (x : ℕ), x ≠ 1 →
      x ∉ (ids.foldl (st.relaxArc u) s).nodes_updated →
      (ids.foldl (st.relaxArc u) s).dist x = s.dist x := by
  intro ids
  induction ids with
  | nil => intro s x _ _; rfl
  | cons a as ih =>
    intro s x hx1 hx
    simp only [List.foldl_cons] at hx ⊢
    have hxa : x ∉ (st.relaxArc u s a).nodes_updated := by
      intro hm
      exact hx (foldArcs_worklist_mono st u as _ x hm)
    rw [ih _ x hx1 hx, relaxArc_dist_stable st u s a x hx1 hxa]

theorem foldFrom_dist_stable (st : Network α) :
    ∀ (us : List ℕ) (s : SPState α) (x : ℕ), x ≠ 1 →
      x ∉ (us.foldl st.relaxFrom s).nodes_updated →
      (us.foldl st.relaxFrom s).dist x = s.dist x := by
  intro us
  induction us with
  | nil => intro s x _ _; rfl
  | cons a as ih =>
    intro s x hx1 hx
    simp only [List.foldl_cons] at hx ⊢
    have hxa : x ∉ (st.relaxFrom s a).nodes_updated := by
      intro hm
      exact hx (foldFrom_worklist_mono st as _ x hm)
    rw [ih _ x hx1 hx]
    exact foldArcs_dist_stable st a _ s x hx1 hxa

/-- Relaxedness of a node persists through a relaxation step, unless the
node is (re-)enqueued. -/
theorem Relaxed_persists (st : Network α) (u : ℕ) (s : SPState α) (arcId : ℕ)
    (x : ℕ) (hx1 : x ≠ 1) (hR : Relaxed st s x) :
    x ∈ (st.relaxArc u s arcId).nodes_updated ∨ Relaxed st (st.relaxArc u s arcId) x := by
  rcases relaxArc_cases st u s arcId with ⟨_, he⟩ | ⟨himp, he⟩
  · rw [he]; exact Or.inr hR
  · by_cases hxv : x = (st.getArc arcId).end_node
    · left
      rw [he]
      show x ∈ (if (st.getArc arcId).end_node ≠ 1 then
        s.nodes_updated ++ [(st.getArc arcId).end_node] else s.nodes_updated)
      rw [if_pos (by rw [← hxv]; exact hx1)]
      rw [hxv]
      simp
    · right
      intro id hidm
      have hdx : (st.relaxArc u s arcId).dist x = s.dist x :=
        (relaxArc_unchanged st u s arcId x hxv).1
      have hmono := relaxArc_mono st u s arcId ((st.getArc id).end_node)
      have hold := hR id hidm
      rw [distLt_false_iff] at hold ⊢
      rw [hdx]
      exact distLe_trans hmono hold

theorem Relaxed_persists_foldArcs (st : Network α) (u : ℕ) :
    ∀ (ids : List ℕ) (s : SPState α) (x : ℕ), x ≠ 1 → Relaxed st s x →
      x ∈ (ids.foldl (st.relaxArc u) s).nodes_updated ∨
        Relaxed st (ids.foldl (st.relaxArc u) s) x := by
  intro ids
  induction ids with
  | nil => intro s x _ hR; exact Or.inr hR
  | cons a as ih =>
    intro s x hx1 hR
    simp only [List.foldl_cons]
    rcases Relaxed_persists st u s a x hx1 hR with h | h
    · exact Or.inl (foldArcs_worklist_mono st u as _ x h)
    · exact ih _ x hx1 h

theorem Relaxed_persists_relaxFrom (st : Network α) (s : SPState α) (u x : ℕ)
    (hx1 : x ≠ 1) (hR : Relaxed st s x) :
    x ∈ (st.relaxFrom s u).nodes_updated ∨ Relaxed st (st.relaxFrom s u) x :=
  Relaxed_persists_foldArcs st u _ s x hx1 hR

/-- After relaxing all of `u`'s arcs, `u` is either re-enqueued or fully
relaxed. -/
theorem foldArcs_post (st : Network α) (u : ℕ) (hu1 : u ≠ 1) (hE : EndsInRange st) :
    ∀ (ids : List ℕ) (s : SPState α),
      (∀ id ∈ ids, id ∈ (st.getNode u).connected_arcs) → SPBase st s →
      u ∈ (ids.foldl (st.relaxArc u) s).nodes_updated ∨
      (∀ id ∈ ids, distLt
        (distAdd ((ids.foldl (st.relaxArc u) s).dist u) (st.getArc id).cost)
        ((ids.foldl (st.relaxArc u) s).dist ((st.getArc id).end_node)) = false) := by
  intro ids
  induction ids with
  | nil =>
    intro s _ _
    right
    intro id hid
    simp at hid
  | cons a as ih =>
    intro s hids hB
    simp only [List.foldl_cons]
    by_cases hu : u ∈ (as.foldl (st.relaxArc u) (st.relaxArc u s a)).nodes_updated
    · exact Or.inl hu
    · have hBa := SPBase_relaxArc st u s a hE (hids a (List.mem_cons_self _ _)) hu1 hB
      rcases ih (st.relaxArc u s a) (fun id hm => hids id (List.mem_cons_of_mem a hm)) hBa
        with h | h
      · exact Or.inl h
      · right
        intro id hid
        rcases List.mem_cons.mp hid with rfl | hid'
        · -- the head arc: its relaxation is recorded and only improves
          have hstable : (as.foldl (st.relaxArc u) (st.relaxArc u s id)).dist u
              = (st.relaxArc u s id).dist u :=
            foldArcs_dist_stable st u as _ u hu1 hu
          have hmono : distLe
              ((as.foldl (st.relaxArc u) (st.relaxArc u s id)).dist ((st.getArc id).end_node))
              ((st.relaxArc u s id).dist ((st.getArc id).end_node)) :=
            foldl_relaxArc_mono st u as _ _
          rcases relaxArc_cases st u s id with ⟨hf, he⟩ | ⟨himp, he⟩
          · rw [distLt_false_iff]
            rw [hstable, he]
            rw [he] at hmono
            rw [distLt_false_iff] at hf
            exact distLe_trans hmono hf
          · -- improved: the end got exactly `dist u + cost`
            have hvlt : (st.getArc id).end_node < st.nodes.length :=
              hE u id (hids id (List.mem_cons_self _ _))
            have hvd : (st.getArc id).end_node < s.distances.length := by
              rw [hB.1]; exact hvlt
            have hvp : (st.getArc id).end_node < s.predecessors.length := by
              rw [hB.2.1]; exact hvlt
            obtain ⟨hdv, _, _⟩ := relaxArc_improved st u s id himp hvd hvp
            have hneu : u ≠ (st.getArc id).end_node := by
              intro he'
              apply hu
              apply foldArcs_worklist_mono
              rcases relaxArc_cases st u s id with ⟨hf2, _⟩ | ⟨_, he2⟩
              · rw [himp] at hf2
                exact absurd hf2 (by simp)
              · rw [he2]
                show u ∈ (if (st.getArc id).end_node ≠ 1 then
                  s.nodes_updated ++ [(st.getArc id).end_node] else s.nodes_updated)
                rw [if_pos (by rw [← he']; exact hu1)]
                rw [← he']
                simp
            have hdu : (st.relaxArc u s id).dist u = s.dist u :=
              (relaxArc_unchanged st u s id u hneu).1
            rw [distLt_false_iff, hstable, hdu]
            rw [hdv] at hmono
            exact hmono
        · exact h id hid'

theorem relaxFrom_post (st : Network α) (s : SPState α) (u : ℕ) (hu1 : u ≠ 1)
    (hE : EndsInRange st) (hB : SPBase st s) :
    u ∈ (st.relaxFrom s u).nodes_updated ∨ Relaxed st (st.relaxFrom s u) u :=
  foldArcs_post st u hu1 hE _ s (fun _ h => h) hB

/-- Folding `relaxFrom` over a snapshot turns the snapshot's exemption into
full pendency. -/
theorem Pending_foldFrom (st : Network α) (hE : EndsInRange st) :
    ∀ (us : List ℕ) (s : SPState α), (∀ x ∈ us, x ≠ 1) → SPBase st s →
      Pending st s us → Pending st (us.foldl st.relaxFrom s) [] := by
  intro us
  induction us with
  | nil =>
    intro s _ _ hP
    exact fun u h1 h2 h3 _ => hP u h1 h2 h3 (by simp)
  | cons a as ih =>
    intro s hus hB hP
    simp only [List.foldl_cons]
    apply ih (st.relaxFrom s a) (fun x hm => hus x (List.mem_cons_of_mem a hm))
      (SPBase_relaxFrom st s a (hus a (List.mem_cons_self _ _)) hE hB)
    intro x hx1 hxfin hxwl hxas
    by_cases hxa : x = a
    · subst hxa
      rcases relaxFrom_post st s x hx1 hE hB with h | h
      · exact absurd h hxwl
      · exact h
    · have hxold : x ∉ s.nodes_updated := fun hm =>
        hxwl (relaxFrom_worklist_mono st s a x hm)
      have hds : (st.relaxFrom s a).dist x = s.dist x :=
        foldArcs_dist_stable st a _ s x hx1 hxwl
      have hxfin' : s.dist x ≠ none := by rw [← hds]; exact hxfin
      have hR := hP x hx1 hxfin' hxold (by
        intro hm
        rcases List.mem_cons.mp hm with hm | hm
        · exact hxa hm
        · exact hxas hm)
      rcases Relaxed_persists_relaxFrom st s a x hx1 hR with h | h
      · exact absurd h hxwl
      · exact h

/-- One pass preserves pendency (of the empty exemption list). -/
theorem Pending_spPass (st : Network α) (s : SPState α) (hE : EndsInRange st)
    (hB : SPBase st s) (hP : Pending st s []) : Pending st (st.spPass s) [] := by
  rw [spPass_eq]
  intro u h1 h2 h3 _
  have h3' : u ∉ (s.nodes_updated.foldl st.relaxFrom
      { s with nodes_updated := ([] : List ℕ) }).nodes_updated := by
    intro hm
    exact h3 ((mem_dedupAdj u _).mpr ((mem_sortNat u _).mpr hm))
  have hP1 : Pending st { s with nodes_updated := ([] : List ℕ) } s.nodes_updated :=
    fun v hv1 hv2 _ hv4 => hP v hv1 hv2 hv4 (by simp)
  exact Pending_foldFrom st hE s.nodes_updated _
    (fun x hx => (hB.2.2.2.2.2 x hx).1) (SPBase_clear st s hB) hP1 u h1 h2 h3' (by simp)

/-- Initially everything off the worklist is trivially relaxed (only the
source has a finite distance, and it is on the worklist). -/
theorem Pending_sp0 (st : Network α) (hn : 1 ≤ st.nodes.length) :
    Pending st (sp0 st) [] := by
  intro u h1 h2 h3 _
  exfalso
  by_cases h0 : u = 0
  · exact h3 (by rw [h0]; show (0 : ℕ) ∈ [0]; simp)
  · apply h2
    show ((List.replicate st.nodes.length (none : Option α)).set 0 (some 0)).getD u none
      = none
    rw [getD_set_ne _ _ _ (fun e => h0 e.symm)]
    rcases Nat.lt_or_ge u st.nodes.length with h | h
    · rw [List.getD_eq_getElem?_getD, List.getElem?_replicate, if_pos h]
      rfl
    · exact List.getD_eq_default _ _ (by simpa using h)

/-- The search loop visits exactly the iterated pass states: it stops at
the first empty worklist, or runs out of fuel. -/
theorem spLoop_iter (st : Network α) :
    ∀ (fuel k : ℕ), ∃ m, m ≤ fuel ∧
      st.spLoop fuel (spIter st k) = (spIter st (k + m), fuel - m) ∧
      (∀ j, j < m → (spIter st (k + j)).nodes_updated ≠ []) ∧
      (fuel - m ≠ 0 → (spIter st (k + m)).nodes_updated = []) := by
  intro fuel
  induction fuel with
  | zero =>
    intro k
    refine ⟨0, le_refl 0, by simp [Network.spLoop], fun j hj => absurd hj (by omega),
      fun h => absurd rfl h⟩
  | succ fuel ih =>
    intro k
    by_cases he : (spIter st k).nodes_updated.isEmpty
    · refine ⟨0, by omega, ?_, fun j hj => absurd hj (by omega), fun _ => ?_⟩
      · rw [Network.spLoop, if_pos he]
        simp
      · simpa using (List.isEmpty_iff).mp he
    · obtain ⟨m, hm, heq, hne, hemp⟩ := ih (k + 1)
      refine ⟨m + 1, by omega, ?_, ?_, ?_⟩
      · rw [Network.spLoop, if_neg he]
        show st.spLoop fuel (st.spPass (spIter st k)) = _
        rw [show st.spPass (spIter st k) = spIter st (k + 1) from rfl, heq]
        rw [show k + 1 + m = k + (m + 1) from by omega,
          show fuel - m = fuel + 1 - (m + 1) from by omega]
      · intro j hj
        rcases Nat.eq_zero_or_pos j with rfl | hpos
        · intro hnil
          apply he
          rw [Nat.add_zero] at hnil
          rw [List.isEmpty_iff]
          exact hnil
        · have h2 := hne (j - 1) (by omega)
          rw [show k + j = k + 1 + (j - 1) from by omega]
          exact h2
      · intro h
        rw [show k + (m + 1) = k + 1 + m from by omega]
        exact hemp (by omega)

/-- All invariants hold at every iterated pass state. -/
theorem spIter_invs (st : Network α) (hn : 1 ≤ st.nodes.length) (hE : EndsInRange st) :
    ∀ k, SPBase st (spIter st k) ∧ SPGhost st (spIter st k) ∧
      Pending st (spIter st k) [] := by
  intro k
  induction k with
  | zero => exact ⟨SPBase_sp0 st hn, SPGhost_sp0 st, Pending_sp0 st hn⟩
  | succ k ih =>
    obtain ⟨hB, hG, hP⟩ := ih
    exact ⟨SPBase_spPass st _ hE hB, SPGhost_spPass st _ hE hB hG,
      Pending_spPass st _ hE hB hP⟩

theorem dist_some_lt (st : Network α) (s : SPState α) (hB : SPBase st s) (v : ℕ)
    (hv : s.dist v ≠ none) : v < st.nodes.length := by
  by_contra h
  apply hv
  show s.distances.getD v none = none
  exact List.getD_eq_default _ _ (by rw [hB.1]; omega)

theorem chain_desc (f : ℕ → ℕ) (w : ℕ → ℕ) (i0 : ℕ) :
    ∀ d : ℕ, (∀ i, i0 ≤ i → i < i0 + d → f (w (i + 1)) < f (w i)) →
      f (w (i0 + d)) + d ≤ f (w i0) := by
  intro d
  induction d with
  | zero => intro _; simp
  | succ d ih =>
    intro h
    have h1 := h (i0 + d) (by omega) (by omega)
    have h2 := ih (fun i hi1 hi2 => h i hi1 (by omega))
    rw [show i0 + (d + 1) = i0 + d + 1 from by omega]
    omega

/-- In a stable state the predecessor graph has no closed chain. -/
theorem stable_chain_absurd (st : Network α) (s : SPState α) (hB : SPBase st s)
    (hG : SPGhost st s)
    (hstab : ∀ u, u ≠ 1 → s.dist u ≠ none → Relaxed st s u)
    (w : ℕ → ℕ) (i0 j0 : ℕ) (hij : i0 < j0)
    (hch : ∀ i, i0 ≤ i → i < j0 → s.pred (w i) = some (w (i + 1)))
    (hcl : w i0 = w j0) : False := by
  obtain ⟨r, f, B, hfB, hK⟩ := hG
  obtain ⟨_, _, _, _, hpredB, _⟩ := hB
  have hfin : ∀ i, i0 ≤ i → i < j0 →
      w (i + 1) ≠ 1 ∧ s.dist (w (i + 1)) ≠ none ∧ s.dist (w i) ≠ none :=
    fun i h1 h2 => hpredB (w i) (w (i + 1)) (hch i h1 h2)
  by_cases hself : ∃ i, i0 ≤ i ∧ i < j0 ∧ w i = w (i + 1)
  · -- a self-loop predecessor: its recorded cost is negative, but the
    -- stable state says it is non-negative
    obtain ⟨i, h1, h2, heq⟩ := hself
    have hpv : s.pred (w i) = some (w i) := by
      have := hch i h1 h2
      rw [← heq] at this
      exact this
    obtain ⟨id, hidm, hend, hdveq, hdisj⟩ := hK (w i) (w i) hpv
    rcases hdisj with ⟨hf1, _⟩ | ⟨hf1, _⟩ | ⟨_, hcost⟩
    · exact lt_irrefl _ hf1
    · exact lt_irrefl _ hf1
    · have hu1 : w i ≠ 1 := by
        rw [heq]; exact (hfin i h1 h2).1
      have husome : s.dist (w i) ≠ none := (hfin i h1 h2).2.2
      have hrel := hstab (w i) hu1 husome id hidm
      rw [distLt_false_iff, hend, hdveq] at hrel
      simp only [distAdd, Option.map_some', distLe] at hrel
      have h0c : (0 : α) ≤ (st.getArc id).cost :=
        (le_add_iff_nonneg_right _).mp hrel
      exact absurd h0c (not_le.mpr hcost)
  · push_neg at hself
    by_cases hdesc : ∀ i, i0 ≤ i → i < j0 → f (w (i + 1)) < f (w i)
    · have := chain_desc f w i0 (j0 - i0)
        (fun i hi1 hi2 => hdesc i hi1 (by omega))
      rw [show i0 + (j0 - i0) = j0 from by omega] at this
      rw [hcl] at this
      omega
    · push_neg at hdesc
      obtain ⟨i, h1, h2, hge⟩ := hdesc
      obtain ⟨id, hidm, hend, hdveq, hdisj⟩ := hK (w i) (w (i + 1)) (hch i h1 h2)
      rcases hdisj with ⟨hf1, _⟩ | ⟨hf1, ⟨du, hdu, hlt⟩⟩ | ⟨heq', _⟩
      · exact absurd hf1 (not_lt.mpr hge)
      · have hu1 : w (i + 1) ≠ 1 := (hfin i h1 h2).1
        have husome : s.dist (w (i + 1)) ≠ none := (hfin i h1 h2).2.1
        have hrel := hstab (w (i + 1)) hu1 husome id hidm
        rw [distLt_false_iff, hend, hdveq, hdu] at hrel
        simp only [distAdd, Option.map_some', distLe] at hrel
        have : r (w i) ≤ du := le_of_add_le_add_right hrel
        exact absurd hlt (not_lt.mpr this)
      · exact hself i h1 h2 heq'.symm

/-- Fuel exhaustion of the reconstruction yields a long predecessor
chain. -/
theorem buildPathAux_none_chain (preds : List (Option ℕ)) :
    ∀ (fuel cur : ℕ), buildPathAux preds fuel cur = none →
      ∃ w : ℕ → ℕ, w 0 = cur ∧
        ∀ i, i < fuel → preds.getD (w i) none = some (w (i + 1)) := by
  intro fuel
  induction fuel with
  | zero =>
    intro cur _
    exact ⟨fun _ => cur, rfl, fun i hi => absurd hi (by omega)⟩
  | succ fuel ih =>
    intro cur h
    unfold buildPathAux at h
    rcases hp : preds.getD cur none with _ | p <;> simp only [hp] at h
    · exact absurd h (by simp)
    · have hnone : buildPathAux preds fuel p = none := by
        rcases hb : buildPathAux preds fuel p with _ | l
        · rfl
        · rw [hb] at h
          exact absurd h (by simp)
      obtain ⟨w', hw0, hwch⟩ := ih p hnone
      refine ⟨fun i => match i with | 0 => cur | i + 1 => w' i, rfl, ?_⟩
      intro i hi
      match i with
      | 0 =>
        show preds.getD cur none = some (w' 0)
        rw [hw0, hp]
      | i + 1 =>
        show preds.getD (w' i) none = some (w' (i + 1))
        exact hwch i (by omega)

/-- On a stable state the reconstruction never exhausts its fuel. -/
theorem reconstruction_ok (st : Network α) (s : SPState α) (hB : SPBase st s)
    (hG : SPGhost st s)
    (hstab : ∀ u, u ≠ 1 → s.dist u ≠ none → Relaxed st s u) :
    ∃ l, buildPathAux s.predecessors (st.nodes.length + 1) 1 = some l := by
  rcases hb : buildPathAux s.predecessors (st.nodes.length + 1) 1 with _ | l
  · exfalso
    obtain ⟨w, hw0, hwch⟩ := buildPathAux_none_chain s.predecessors _ 1 hb
    have hwch' : ∀ i, i < st.nodes.length + 1 → s.pred (w i) = some (w (i + 1)) :=
      fun i hi => hwch i hi
    have hpredB := hB.2.2.2.2.1
    have hlt : ∀ i, 1 ≤ i → i ≤ st.nodes.length + 1 → w i < st.nodes.length := by
      intro i h1 h2
      have hp := hwch' (i - 1) (by omega)
      have := hpredB (w (i - 1)) (w (i - 1 + 1)) hp
      rw [show i - 1 + 1 = i from by omega] at this
      exact dist_some_lt st s hB (w i) this.2.1
    -- pigeonhole on the `nodes.length + 1` values `w 1 … w (n + 1)`
    have hmaps : ∀ a ∈ Finset.range (st.nodes.length + 1),
        w (a + 1) ∈ Finset.range st.nodes.length := by
      intro a ha
      rw [Finset.mem_range] at ha ⊢
      exact hlt (a + 1) (by omega) (by omega)
    obtain ⟨x, hx, y, hy, hxy, hfxy⟩ :=
      Finset.exists_ne_map_eq_of_card_lt_of_maps_to
        (by simp : (Finset.range st.nodes.length).card < (Finset.range (st.nodes.length + 1)).card)
        hmaps
    rw [Finset.mem_range] at hx hy
    rcases lt_or_gt_of_ne hxy with hlt' | hlt'
    · exact stable_chain_absurd st s hB hG hstab w (x + 1) (y + 1) (by omega)
        (fun i hi1 hi2 => hwch' i (by omega)) hfxy
    · exact stable_chain_absurd st s hB hG hstab w (y + 1) (x + 1) (by omega)
        (fun i hi1 hi2 => hwch' i (by omega)) hfxy.symm
  · exact ⟨l, rfl⟩

/-- Along a reconstructed path every node keeps a finite distance. -/
theorem buildPathAux_last_dist (st : Network α) (s : SPState α) (hB : SPBase st s) :
    ∀ (fuel cur : ℕ) (l : List ℕ), buildPathAux s.predecessors fuel cur = some l →
      s.dist cur ≠ none → ∀ last, l.getLast? = some last → s.dist last ≠ none := by
  intro fuel
  induction fuel with
  | zero => intro cur l h; simp [buildPathAux] at h
  | succ fuel ih =>
    intro cur l h hcur last hlast
    unfold buildPathAux at h
    rcases hp : s.predecessors.getD cur none with _ | p <;>
      simp only [hp, Option.some.injEq] at h
    · subst h
      simp only [List.getLast?_singleton, Option.some.injEq] at hlast
      subst hlast
      exact hcur
    · rcases Option.map_eq_some'.mp h with ⟨l₂, hb, hl⟩
      subst hl
      have hpp : s.pred cur = some p := hp
      have hpfin := (hB.2.2.2.2.1 cur p hpp).2.1
      obtain ⟨l₃, hl3⟩ := buildPathAux_head s.predecessors fuel p l₂ hb
      subst hl3
      rw [List.getLast?_cons_cons] at hlast
      exact ih p _ hb hpfin last hlast

/-- The reconstruction ends at the source. -/
theorem buildPathAux_last_zero (st : Network α) (s : SPState α) (hB : SPBase st s)
    (l : List ℕ) (hb : buildPathAux s.predecessors (st.nodes.length + 1) 1 = some l)
    (h1fin : s.dist 1 ≠ none) : l.getLast? = some 0 := by
  obtain ⟨⟨last, hlast, hpl⟩, _⟩ := buildPathAux_pred s.predecessors _ 1 l hb
  have hfin := buildPathAux_last_dist st s hB _ 1 l hb h1fin last hlast
  by_cases h0 : last = 0
  · rw [h0] at hlast
    exact hlast
  · exfalso
    exact hB.2.2.2.1 last h0 hfin hpl

theorem find_shortest_path_eq (st : Network α) :
    st.find_shortest_path =
      (if (st.spLoop st.nodes.length (sp0 st)).2 = 0 then SPRes.bugNegCycle
       else
         match (st.spLoop st.nodes.length (sp0 st)).1.predecessors.getD 1 none with
         | none => SPRes.infeasible
         | some _ =>
           match buildPathAux (st.spLoop st.nodes.length (sp0 st)).1.predecessors
               (st.nodes.length + 1) 1 with
           | none => SPRes.looped
           | some revPath =>
             if revPath.getLast? = some 0 then SPRes.ok revPath.reverse
             else SPRes.bugNotSource) := rfl

/-- Complete case split of `find_shortest_path` on a well-formed network:
fuel exhaustion yields the negative-cycle panic, and otherwise the run ends
in the infeasibility error or a path — never the not-source panic and
never divergence. -/
theorem find_shortest_path_cases (st : Network α) (hn : 1 ≤ st.nodes.length)
    (hE : EndsInRange st) :
    ((st.spLoop st.nodes.length (sp0 st)).2 = 0 ∧
      st.find_shortest_path = SPRes.bugNegCycle) ∨
    ((st.spLoop st.nodes.length (sp0 st)).2 ≠ 0 ∧
      (st.find_shortest_path = SPRes.infeasible ∨
       ∃ p, st.find_shortest_path = SPRes.ok p)) := by
  obtain ⟨m, hm, heq, hne, hemp⟩ := spLoop_iter st st.nodes.length 0
  have heq' : st.spLoop st.nodes.length (sp0 st)
      = (spIter st m, st.nodes.length - m) := by
    have h0 : spIter st 0 = sp0 st := rfl
    rw [← h0]
    rw [heq, Nat.zero_add]
  by_cases hz : (st.spLoop st.nodes.length (sp0 st)).2 = 0
  · left
    refine ⟨hz, ?_⟩
    simp only [find_shortest_path_eq]
    rw [if_pos hz]
  · right
    refine ⟨hz, ?_⟩
    have hz' : ¬(st.nodes.length - m = 0) := by
      rw [heq'] at hz
      exact hz
    have hwl : (spIter st m).nodes_updated = [] := by
      have := hemp (by omega)
      rw [Nat.zero_add] at this
      exact this
    obtain ⟨hB, hG, hP⟩ := spIter_invs st hn hE m
    have hstab : ∀ u, u ≠ 1 → (spIter st m).dist u ≠ none →
        Relaxed st (spIter st m) u :=
      fun u h1 h2 => hP u h1 h2 (by rw [hwl]; simp) (by simp)
    simp only [find_shortest_path_eq, heq']
    rw [if_neg hz']
    rcases hpu : (spIter st m).pred 1 with _ | u0
    · left
      simp only [SPState.pred] at hpu
      rw [hpu]
    · right
      have h1fin : (spIter st m).dist 1 ≠ none :=
        (hB.2.2.2.2.1 1 u0 hpu).2.2
      obtain ⟨l, hbl⟩ := reconstruction_ok st (spIter st m) hB hG hstab
      have hlast := buildPathAux_last_zero st _ hB l hbl h1fin
      refine ⟨l.reverse, ?_⟩
      simp only [SPState.pred] at hpu
      rw [hpu, hbl]
      show (if l.getLast? = some 0 then SPRes.ok l.reverse else SPRes.bugNotSource)
        = SPRes.ok l.reverse
      rw [if_pos hlast]

/-! Walk utilities for the pass-count bound. -/

theorem walkCost_nil (st : Network α) : walkCost st [] = 0 := rfl

theorem walkCost_cons (st : Network α) (id : ℕ) (l : List ℕ) :
    walkCost st (id :: l) = (st.getArc id).cost + walkCost st l := by
  simp [walkCost]

theorem walkCost_append (st : Network α) (l1 l2 : List ℕ) :
    walkCost st (l1 ++ l2) = walkCost st l1 + walkCost st l2 := by
  simp [walkCost]

theorem IsWalk_append (st : Network α) :
    ∀ (l1 : List ℕ) (a b : ℕ), IsWalk st l1 a b →
      ∀ (l2 : List ℕ) (c : ℕ), IsWalk st l2 b c → IsWalk st (l1 ++ l2) a c := by
  intro l1
  induction l1 with
  | nil =>
    intro a b h l2 c h2
    have : a = b := h
    rw [List.nil_append, this]
    exact h2
  | cons id l ih =>
    intro a b h l2 c h2
    obtain ⟨h1, hm, hw⟩ := h
    exact ⟨h1, hm, ih _ _ hw l2 c h2⟩

theorem walkVerts_length (st : Network α) :
    ∀ (l : List ℕ) (a : ℕ), (walkVerts st l a).length = l.length + 1 := by
  intro l
  induction l with
  | nil => intro a; rfl
  | cons id l ih => intro a; simp [walkVerts, ih]

theorem walkVerts_mem_self (st : Network α) :
    ∀ (l : List ℕ) (a : ℕ), a ∈ walkVerts st l a := by
  intro l a
  cases l with
  | nil => simp [walkVerts]
  | cons id l => simp [walkVerts]

theorem walkVerts_take (st : Network α) :
    ∀ (l : List ℕ) (a : ℕ) (i : ℕ),
      walkVerts st (l.take i) a = (walkVerts st l a).take (i + 1) := by
  intro l
  induction l with
  | nil => intro a i; simp [walkVerts]
  | cons id l ih =>
    intro a i
    cases i with
    | zero => simp [walkVerts]
    | succ i =>
      simp only [List.take_succ_cons, walkVerts, ih]

theorem walkVerts_drop (st : Network α) :
    ∀ (l : List ℕ) (a : ℕ) (i : ℕ), i ≤ l.length →
      walkVerts st (l.drop i) ((walkVerts st l a).getD i 0)
        = (walkVerts st l a).drop i := by
  intro l
  induction l with
  | nil =>
    intro a i hi
    have : i = 0 := by simpa using hi
    subst this
    rfl
  | cons id l ih =>
    intro a i hi
    cases i with
    | zero => rfl
    | succ i =>
      show walkVerts st (l.drop i) ((walkVerts st l ((st.getArc id).end_node)).getD i 0)
        = (walkVerts st l ((st.getArc id).end_node)).drop i
      exact ih _ i (by simpa using hi)

theorem getD_drop_nat {β : Type} :
    ∀ (l : List β) (i k : ℕ) (d : β), (l.drop i).getD k d = l.getD (i + k) d := by
  intro l
  induction l with
  | nil => intro i k d; simp
  | cons a as ih =>
    intro i k d
    cases i with
    | zero => simp
    | succ i =>
      show (as.drop i).getD k d = (a :: as).getD (i + 1 + k) d
      rw [ih i k d]
      rw [show i + 1 + k = (i + k) + 1 from by omega]
      rfl

theorem IsWalk_take_drop (st : Network α) :
    ∀ (l : List ℕ) (a b : ℕ), IsWalk st l a b → ∀ i, i ≤ l.length →
      IsWalk st (l.take i) a ((walkVerts st l a).getD i 0) ∧
      IsWalk st (l.drop i) ((walkVerts st l a).getD i 0) b := by
  intro l
  induction l with
  | nil =>
    intro a b h i hi
    have : i = 0 := by simpa using hi
    subst this
    exact ⟨rfl, h⟩
  | cons id l ih =>
    intro a b h i hi
    obtain ⟨h1, hm, hw⟩ := h
    cases i with
    | zero => exact ⟨rfl, h1, hm, hw⟩
    | succ i =>
      obtain ⟨g1, g2⟩ := ih _ b hw i (by simpa using hi)
      exact ⟨⟨h1, hm, g1⟩, g2⟩

theorem walkVerts_ne_one (st : Network α) :
    ∀ (l : List ℕ) (a b : ℕ), IsWalk st l a b → b ≠ 1 →
      ∀ x ∈ walkVerts st l a, x ≠ 1 := by
  intro l
  induction l with
  | nil =>
    intro a b h hb x hx
    have hab : a = b := h
    have : x = a := by simpa [walkVerts] using hx
    rw [this, hab]
    exact hb
  | cons id l ih =>
    intro a b h hb x hx
    obtain ⟨h1, _, hw⟩ := h
    rcases List.mem_cons.mp (by simpa [walkVerts] using hx) with rfl | hx'
    · exact h1
    · exact ih _ b hw hb x hx'

theorem walkVerts_lt (st : Network α) (hE : EndsInRange st) :
    ∀ (l : List ℕ) (a b : ℕ), IsWalk st l a b → a < st.nodes.length →
      ∀ x ∈ walkVerts st l a, x < st.nodes.length := by
  intro l
  induction l with
  | nil =>
    intro a b h ha x hx
    have : x = a := by simpa [walkVerts] using hx
    rw [this]
    exact ha
  | cons id l ih =>
    intro a b h ha x hx
    obtain ⟨_, hm, hw⟩ := h
    rcases List.mem_cons.mp (by simpa [walkVerts] using hx) with rfl | hx'
    · exact ha
    · exact ih _ b hw (hE a id hm) x hx'

theorem distAdd_distAdd (a : Option α) (c d : α) :
    distAdd (distAdd a c) d = distAdd a (c + d) := by
  rcases a with _ | x <;> simp [distAdd, add_assoc]

theorem distLe_distAdd_zero (a : Option α) : distLe a (distAdd a 0) := by
  rcases a with _ | x <;> simp [distAdd, distLe]

theorem stable_walk_cost (st : Network α) (s : SPState α)
    (hstab : ∀ u, u ≠ 1 → s.dist u ≠ none → Relaxed st s u) :
    ∀ (l : List ℕ) (a b : ℕ), IsWalk st l a b →
      (∀ x ∈ walkVerts st l a, s.dist x ≠ none) →
      distLe (s.dist b) (distAdd (s.dist a) (walkCost st l)) := by
  intro l
  induction l with
  | nil =>
    intro a b h hfin
    have hab : a = b := h
    subst hab
    rw [walkCost_nil]
    exact distLe_distAdd_zero _
  | cons id l ih =>
    intro a b h hfin
    obtain ⟨h1, hm, hw⟩ := h
    have hafin : s.dist a ≠ none := hfin a (walkVerts_mem_self st _ a)
    have hrel := hstab a h1 hafin id hm
    rw [distLt_false_iff] at hrel
    have hfin' : ∀ x ∈ walkVerts st l ((st.getArc id).end_node), s.dist x ≠ none := by
      intro x hx
      refine hfin x ?_
      simp only [walkVerts, List.mem_cons]
      exact Or.inr hx
    have ih' := ih _ b hw hfin'
    rw [walkCost_cons, ← distAdd_distAdd]
    exact distLe_trans ih' (distLe_add _ hrel)

theorem stable_cycle_nonneg (st : Network α) (s : SPState α)
    (hstab : ∀ u, u ≠ 1 → s.dist u ≠ none → Relaxed st s u)
    (l : List ℕ) (x : ℕ) (hw : IsWalk st l x x)
    (hfin : ∀ y ∈ walkVerts st l x, s.dist y ≠ none) :
    0 ≤ walkCost st l := by
  have h := stable_walk_cost st s hstab l x x hw hfin
  have hxfin : s.dist x ≠ none := hfin x (walkVerts_mem_self st l x)
  rcases hd : s.dist x with _ | dx
  · exact absurd hd hxfin
  · rw [hd] at h
    simp only [distAdd, Option.map_some', distLe] at h
    exact (le_add_iff_nonneg_right _).mp h

theorem walkVerts_append (st : Network α) :
    ∀ (l1 : List ℕ) (a b : ℕ), IsWalk st l1 a b → ∀ (l2 : List ℕ),
      walkVerts st (l1 ++ l2) a = (walkVerts st l1 a).dropLast ++ walkVerts st l2 b := by
  intro l1
  induction l1 with
  | nil =>
    intro a b h l2
    have : a = b := h
    subst this
    simp [walkVerts]
  | cons id l ih =>
    intro a b h l2
    obtain ⟨_, _, hw⟩ := h
    show a :: walkVerts st (l ++ l2) ((st.getArc id).end_node)
      = (a :: walkVerts st l ((st.getArc id).end_node)).dropLast ++ walkVerts st l2 b
    rw [ih _ b hw l2]
    have hne : walkVerts st l ((st.getArc id).end_node) ≠ [] := by
      intro hnil
      have := walkVerts_length st l ((st.getArc id).end_node)
      rw [hnil] at this
      simp at this
    rw [List.dropLast_cons_of_ne_nil hne, List.cons_append]

theorem walk_split_repeat (st : Network α) (s : SPState α)
    (hstab : ∀ u, u ≠ 1 → s.dist u ≠ none → Relaxed st s u)
    (l : List ℕ) (v : ℕ) (hw : IsWalk st l 0 v)
    (hfin : ∀ x ∈ walkVerts st l 0, s.dist x ≠ none)
    (i j : ℕ) (hij : i < j) (hjl : j ≤ l.length)
    (hrep : (walkVerts st l 0).getD i 0 = (walkVerts st l 0).getD j 0) :
    ∃ l', IsWalk st l' 0 v ∧ l'.length < l.length ∧
      (∀ x ∈ walkVerts st l' 0, s.dist x ≠ none) ∧
      walkCost st l' ≤ walkCost st l := by
  obtain ⟨hw1, hw2⟩ := IsWalk_take_drop st l 0 v hw i (by omega)
  obtain ⟨hw3, hw4⟩ := IsWalk_take_drop st (l.drop i) _ v hw2 (j - i)
    (by rw [List.length_drop]; omega)
  have hvij : (walkVerts st (l.drop i) ((walkVerts st l 0).getD i 0)).getD (j - i) 0
      = (walkVerts st l 0).getD j 0 := by
    rw [walkVerts_drop st l 0 i (by omega), getD_drop_nat]
    congr 1
    omega
  rw [hvij, ← hrep] at hw3 hw4
  have hdd : (l.drop i).drop (j - i) = l.drop j := by
    rw [List.drop_drop]
    congr 1
    omega
  rw [hdd] at hw4
  have hmid : l.drop i = (l.drop i).take (j - i) ++ l.drop j := by
    conv_lhs => rw [← List.take_append_drop (j - i) (l.drop i)]
    rw [hdd]
  have hwalk : IsWalk st (l.take i ++ l.drop j) 0 v :=
    IsWalk_append st _ _ _ hw1 _ _ hw4
  refine ⟨l.take i ++ l.drop j, hwalk, ?_, ?_, ?_⟩
  · rw [List.length_append, List.length_take, List.length_drop,
      min_eq_left (show i ≤ l.length by omega)]
    omega
  · intro y hy
    rw [walkVerts_append st _ _ _ hw1 _] at hy
    rcases List.mem_append.mp hy with hy1 | hy2
    · refine hfin y ?_
      have hy1' := List.mem_of_mem_dropLast hy1
      rw [walkVerts_take st l 0 i] at hy1'
      exact List.mem_of_mem_take hy1'
    · refine hfin y ?_
      have : walkVerts st (l.drop j) ((walkVerts st l 0).getD j 0)
          = (walkVerts st l 0).drop j := walkVerts_drop st l 0 j (by omega)
      rw [← hrep] at this
      rw [this] at hy2
      exact List.mem_of_mem_drop hy2
  · have hcost : walkCost st l
        = walkCost st (l.take i) + (walkCost st ((l.drop i).take (j - i))
          + walkCost st (l.drop j)) := by
      conv_lhs => rw [← List.take_append_drop i l]
      rw [walkCost_append]
      congr 1
      conv_lhs => rw [hmid]
      rw [walkCost_append]
    have hcyc : 0 ≤ walkCost st ((l.drop i).take (j - i)) := by
      refine stable_cycle_nonneg st s hstab _ _ hw3 ?_
      intro y hy
      refine hfin y ?_
      rw [walkVerts_take st (l.drop i) _ (j - i),
        walkVerts_drop st l 0 i (by omega)] at hy
      have hy' := List.mem_of_mem_take hy
      exact List.mem_of_mem_drop hy'
    rw [walkCost_append, hcost]
    have := add_le_add_left hcyc (walkCost st (l.drop j))
    have h2 : walkCost st (l.drop j)
        ≤ walkCost st ((l.drop i).take (j - i)) + walkCost st (l.drop j) := by
      simpa using this
    calc walkCost st (l.take i) + walkCost st (l.drop j)
        ≤ walkCost st (l.take i)
          + (walkCost st ((l.drop i).take (j - i)) + walkCost st (l.drop j)) :=
          add_le_add_left h2 _
      _ = _ := rfl

theorem walk_shorten (st : Network α) (s : SPState α) (hE : EndsInRange st)
    (hn : 2 ≤ st.nodes.length)
    (hstab : ∀ u, u ≠ 1 → s.dist u ≠ none → Relaxed st s u) :
    ∀ (N : ℕ) (l : List ℕ) (v : ℕ), l.length ≤ N → IsWalk st l 0 v → v ≠ 1 →
      (∀ x ∈ walkVerts st l 0, s.dist x ≠ none) →
      ∃ l', IsWalk st l' 0 v ∧ l'.length + 2 ≤ st.nodes.length ∧
        walkCost st l' ≤ walkCost st l := by
  intro N
  induction N with
  | zero =>
    intro l v hlen hw _ _
    have : l = [] := List.length_eq_zero.mp (by omega)
    subst this
    exact ⟨[], hw, by omega, le_refl _⟩
  | succ N ih =>
    intro l v hlen hw hv1 hfin
    by_cases hsmall : l.length + 2 ≤ st.nodes.length
    · exact ⟨l, hw, hsmall, le_refl _⟩
    · have hvlt := walkVerts_lt st hE l 0 v hw (by omega)
      have hvne := walkVerts_ne_one st l 0 v hw hv1
      have hmaps : ∀ a ∈ Finset.range (l.length + 1),
          (walkVerts st l 0).getD a 0 ∈ (Finset.range st.nodes.length).erase 1 := by
        intro a ha
        rw [Finset.mem_range] at ha
        have hmem : (walkVerts st l 0).getD a 0 ∈ walkVerts st l 0 :=
          getD_mem _ _ (by rw [walkVerts_length]; omega)
        rw [Finset.mem_erase, Finset.mem_range]
        exact ⟨hvne _ hmem, hvlt _ hmem⟩
      have hcard : ((Finset.range st.nodes.length).erase 1).card
          < (Finset.range (l.length + 1)).card := by
        rw [Finset.card_erase_of_mem (by rw [Finset.mem_range]; omega),
          Finset.card_range, Finset.card_range]
        omega
      obtain ⟨a, ha, b, hb, hab, hfab⟩ :=
        Finset.exists_ne_map_eq_of_card_lt_of_maps_to hcard hmaps
      rw [Finset.mem_range] at ha hb
      rcases lt_or_gt_of_ne hab with h | h
      · obtain ⟨l1, hw1, hlen1, hfin1, hc1⟩ := walk_split_repeat st s hstab l v hw hfin
          a b h (by omega) hfab
        obtain ⟨l2, hw2, hlen2, hc2⟩ := ih l1 v (by omega) hw1 hv1 hfin1
        exact ⟨l2, hw2, hlen2, le_trans hc2 hc1⟩
      · obtain ⟨l1, hw1, hlen1, hfin1, hc1⟩ := walk_split_repeat st s hstab l v hw hfin
          b a h (by omega) hfab.symm
        obtain ⟨l2, hw2, hlen2, hc2⟩ := ih l1 v (by omega) hw1 hv1 hfin1
        exact ⟨l2, hw2, hlen2, le_trans hc2 hc1⟩

/-! Per-pass bound: every arc of a snapshot node is relaxed against a
distance no larger than the node's distance at pass entry. -/

theorem relaxArc_bound (st : Network α) (u : ℕ) (s : SPState α) (arcId : ℕ)
    (hvd : (st.getArc arcId).end_node < s.distances.length) :
    distLe ((st.relaxArc u s arcId).dist ((st.getArc arcId).end_node))
      (distAdd (s.dist u) (st.getArc arcId).cost) := by
  rcases relaxArc_cases st u s arcId with ⟨hf, he⟩ | ⟨_, he⟩
  · rw [he]
    rw [distLt_false_iff] at hf
    exact hf
  · rw [he]
    show distLe ((s.distances.set ((st.getArc arcId).end_node)
        (distAdd (s.dist u) (st.getArc arcId).cost)).getD ((st.getArc arcId).end_node) none)
      (distAdd (s.dist u) (st.getArc arcId).cost)
    rw [getD_set_self _ _ _ hvd]
    exact distLe_refl _

theorem foldArcs_bound (st : Network α) (u : ℕ) (hu1 : u ≠ 1) (hE : EndsInRange st) :
    ∀ (ids : List ℕ) (s : SPState α), (∀ id ∈ ids, id ∈ (st.getNode u).connected_arcs) →
      SPBase st s →
      ∀ id ∈ ids, distLe ((ids.foldl (st.relaxArc u) s).dist ((st.getArc id).end_node))
        (distAdd (s.dist u) (st.getArc id).cost) := by
  intro ids
  induction ids with
  | nil => intro s _ _ id hid; simp at hid
  | cons a as ih =>
    intro s hids hB id hid
    simp only [List.foldl_cons]
    rcases List.mem_cons.mp hid with rfl | hid'
    · have hvd : (st.getArc id).end_node < s.distances.length := by
        rw [hB.1]
        exact hE u id (hids id (List.mem_cons_self _ _))
      have h1 := relaxArc_bound st u s id hvd
      have h2 : distLe
          ((as.foldl (st.relaxArc u) (st.relaxArc u s id)).dist ((st.getArc id).end_node))
          ((st.relaxArc u s id).dist ((st.getArc id).end_node)) :=
        foldl_relaxArc_mono st u as _ _
      exact distLe_trans h2 h1
    · have hBa := SPBase_relaxArc st u s a hE (hids a (List.mem_cons_self _ _)) hu1 hB
      have h1 := ih (st.relaxArc u s a)
        (fun i hm => hids i (List.mem_cons_of_mem a hm)) hBa id hid'
      have h2 : distLe (distAdd ((st.relaxArc u s a).dist u) (st.getArc id).cost)
          (distAdd (s.dist u) (st.getArc id).cost) :=
        distLe_add _ (relaxArc_mono st u s a u)
      exact distLe_trans h1 h2

theorem relaxFrom_bound (st : Network α) (s : SPState α) (u : ℕ) (hu1 : u ≠ 1)
    (hE : EndsInRange st) (hB : SPBase st s) :
    ∀ id ∈ (st.getNode u).connected_arcs,
      distLe ((st.relaxFrom s u).dist ((st.getArc id).end_node))
        (distAdd (s.dist u) (st.getArc id).cost) :=
  foldArcs_bound st u hu1 hE _ s (fun _ h => h) hB

theorem foldFrom_bound (st : Network α) (hE : EndsInRange st) :
    ∀ (us : List ℕ) (s1 sRef : SPState α), (∀ x ∈ us, x ≠ 1) → SPBase st s1 →
      DistLeS s1 sRef →
      ∀ u ∈ us, ∀ id ∈ (st.getNode u).connected_arcs,
        distLe ((us.foldl st.relaxFrom s1).dist ((st.getArc id).end_node))
          (distAdd (sRef.dist u) (st.getArc id).cost) := by
  intro us
  induction us with
  | nil => intro s1 sRef _ _ _ u hu; simp at hu
  | cons a as ih =>
    intro s1 sRef hus hB hle u hu id hid
    simp only [List.foldl_cons]
    rcases List.mem_cons.mp hu with rfl | hu'
    · have h1 := relaxFrom_bound st s1 u (hus u (List.mem_cons_self _ _)) hE hB id hid
      have h2 : DistLeS (as.foldl st.relaxFrom (st.relaxFrom s1 u)) (st.relaxFrom s1 u) :=
        foldl_relaxFrom_mono st as _
      have h3 : distLe (distAdd (s1.dist u) (st.getArc id).cost)
          (distAdd (sRef.dist u) (st.getArc id).cost) := distLe_add _ (hle u)
      exact distLe_trans (distLe_trans (h2 _) h1) h3
    · exact ih (st.relaxFrom s1 a) sRef (fun x hm => hus x (List.mem_cons_of_mem a hm))
        (SPBase_relaxFrom st s1 a (hus a (List.mem_cons_self _ _)) hE hB)
        (DistLeS_trans (relaxFrom_mono st s1 a) hle) u hu' id hid

theorem spPass_bound (st : Network α) (s : SPState α) (hE : EndsInRange st)
    (hB : SPBase st s) : BoundBy st (st.spPass s) s s.nodes_updated := by
  intro u hu id hid
  have hB1 : SPBase st { s with nodes_updated := ([] : List ℕ) } := SPBase_clear st s hB
  have hle : DistLeS { s with nodes_updated := ([] : List ℕ) } s := fun v => distLe_refl _
  exact foldFrom_bound st hE s.nodes_updated _ s
    (fun x hx => (hB.2.2.2.2.2 x hx).1) hB1 hle u hu id hid

/-! Strict improvement of every node enqueued during a pass. -/

theorem relaxArc_strict (st : Network α) (u : ℕ) (s' sRef : SPState α) (arcId : ℕ)
    (hvd : (st.getArc arcId).end_node < s'.distances.length)
    (hle : DistLeS s' sRef) (hS : StrictOn s' sRef) :
    StrictOn (st.relaxArc u s' arcId) sRef := by
  intro x hx
  rcases relaxArc_cases st u s' arcId with ⟨_, he⟩ | ⟨himp, he⟩
  · rw [he] at hx ⊢
    exact hS x hx
  · by_cases hxv : x = (st.getArc arcId).end_node
    · subst hxv
      have hd : (st.relaxArc u s' arcId).dist ((st.getArc arcId).end_node)
          = distAdd (s'.dist u) (st.getArc arcId).cost := by
        rw [he]
        show (s'.distances.set _ _).getD _ none = _
        exact getD_set_self _ _ _ hvd
      rw [hd]
      exact distLt_le_trans himp (hle _)
    · have hd : (st.relaxArc u s' arcId).dist x = s'.dist x :=
        (relaxArc_unchanged st u s' arcId x hxv).1
      rw [hd]
      apply hS
      rw [he] at hx
      have hx' : x ∈ (if (st.getArc arcId).end_node ≠ 1
          then s'.nodes_updated ++ [(st.getArc arcId).end_node]
          else s'.nodes_updated) := hx
      by_cases h1 : (st.getArc arcId).end_node ≠ 1
      · rw [if_pos h1] at hx'
        rcases List.mem_append.mp hx' with h | h
        · exact h
        · exact absurd (by simpa using h) hxv
      · rw [if_neg h1] at hx'
        exact hx'

theorem foldArcs_strict (st : Network α) (u : ℕ) (hu1 : u ≠ 1) (hE : EndsInRange st) :
    ∀ (ids : List ℕ) (s' sRef : SPState α),
      (∀ id ∈ ids, id ∈ (st.getNode u).connected_arcs) →
      SPBase st s' → DistLeS s' sRef → StrictOn s' sRef →
      StrictOn (ids.foldl (st.relaxArc u) s') sRef := by
  intro ids
  induction ids with
  | nil => intro s' sRef _ _ _ hS; exact hS
  | cons a as ih =>
    intro s' sRef hids hB hle hS
    simp only [List.foldl_cons]
    have hvd : (st.getArc a).end_node < s'.distances.length := by
      rw [hB.1]
      exact hE u a (hids a (List.mem_cons_self _ _))
    exact ih _ sRef (fun i hm => hids i (List.mem_cons_of_mem a hm))
      (SPBase_relaxArc st u s' a hE (hids a (List.mem_cons_self _ _)) hu1 hB)
      (DistLeS_trans (relaxArc_mono st u s' a) hle)
      (relaxArc_strict st u s' sRef a hvd hle hS)

theorem foldFrom_strict (st : Network α) (hE : EndsInRange st) :
    ∀ (us : List ℕ) (s' sRef : SPState α), (∀ x ∈ us, x ≠ 1) → SPBase st s' →
      DistLeS s' sRef → StrictOn s' sRef →
      StrictOn (us.foldl st.relaxFrom s') sRef := by
  intro us
  induction us with
  | nil => intro s' sRef _ _ _ hS; exact hS
  | cons a as ih =>
    intro s' sRef hus hB hle hS
    simp only [List.foldl_cons]
    exact ih _ sRef (fun x hm => hus x (List.mem_cons_of_mem a hm))
      (SPBase_relaxFrom st s' a (hus a (List.mem_cons_self _ _)) hE hB)
      (DistLeS_trans (relaxFrom_mono st s' a) hle)
      (foldArcs_strict st a (hus a (List.mem_cons_self _ _)) hE _ s' sRef
        (fun _ h => h) hB hle hS)

theorem spPass_strict (st : Network α) (s : SPState α) (hE : EndsInRange st)
    (hB : SPBase st s) : StrictOn (st.spPass s) s := by
  intro x hx
  have hx' : x ∈ dedupAdj (sortNat ((s.nodes_updated.foldl st.relaxFrom
      { s with nodes_updated := ([] : List ℕ) }).nodes_updated)) := hx
  have hx2 := (mem_sortNat x _).mp ((mem_dedupAdj x _).mp hx')
  have hS0 : StrictOn { s with nodes_updated := ([] : List ℕ) } s := by
    intro y hy
    exact absurd hy (by simp)
  have hle0 : DistLeS { s with nodes_updated := ([] : List ℕ) } s :=
    fun v => distLe_refl _
  exact foldFrom_strict st hE s.nodes_updated _ s
    (fun y hy => (hB.2.2.2.2.2 y hy).1) (SPBase_clear st s hB) hle0 hS0 x hx2

/-! Preservation of the walk ghosts through a pass. -/

theorem SPWalksMid_relaxArc (st : Network α) (u : ℕ) (s' : SPState α) (arcId : ℕ)
    (k : ℕ) (snap : List ℕ) (hu1 : u ≠ 1)
    (harc : arcId ∈ (st.getNode u).connected_arcs)
    (hvd : (st.getArc arcId).end_node < s'.distances.length)
    (husnap : u ∈ snap)
    (hM : SPWalksMid st s' k snap) :
    SPWalksMid st (st.relaxArc u s' arcId) k snap := by
  intro v dv hdv
  have hmono := relaxArc_mono st u s' arcId
  rcases relaxArc_cases st u s' arcId with ⟨_, he⟩ | ⟨himp, he⟩
  · rw [he] at hdv ⊢
    exact hM v dv hdv
  · by_cases hxv : v = (st.getArc arcId).end_node
    · subst hxv
      have hd : (st.relaxArc u s' arcId).dist ((st.getArc arcId).end_node)
          = distAdd (s'.dist u) (st.getArc arcId).cost := by
        rw [he]
        show (s'.distances.set _ _).getD _ none = _
        exact getD_set_self _ _ _ hvd
      have hdu : ∃ du, s'.dist u = some du := by
        rcases hu : s'.dist u with _ | z
        · rw [hu] at himp
          simp [distAdd, distLt] at himp
        · exact ⟨z, rfl⟩
      obtain ⟨du, hdu⟩ := hdu
      obtain ⟨lu, hwu, hcu, hfu, hsnapu, _⟩ := hM u du hdu
      have hlu : k ≤ lu.length := hsnapu husnap
      have hdvval : du + (st.getArc arcId).cost = dv := by
        have h := hdv
        rw [hd, hdu] at h
        simp only [distAdd, Option.map_some', Option.some.injEq] at h
        exact h
      refine ⟨lu ++ [arcId], ?_, ?_, ?_, ?_, ?_⟩
      · exact IsWalk_append st lu 0 u hwu [arcId] _ ⟨hu1, harc, rfl⟩
      · rw [walkCost_append, hcu, walkCost_cons, walkCost_nil, add_zero]
        exact hdvval
      · intro x hx
        rw [walkVerts_append st lu 0 u hwu [arcId]] at hx
        rcases List.mem_append.mp hx with h | h
        · exact dist_some_of_mono hmono (hfu x (List.mem_of_mem_dropLast h))
        · have hx2 : x = u ∨ x = (st.getArc arcId).end_node := by
            simpa [walkVerts] using h
          rcases hx2 with rfl | rfl
          · exact dist_some_of_mono hmono (by rw [hdu]; simp)
          · rw [hdv]
            simp
      · intro _
        rw [List.length_append]
        omega
      · intro _
        rw [List.length_append]
        simp only [List.length_singleton]
        omega
    · have hd : (st.relaxArc u s' arcId).dist v = s'.dist v :=
        (relaxArc_unchanged st u s' arcId v hxv).1
      rw [hd] at hdv
      obtain ⟨l, hw, hc, hf, hsnap, hwl⟩ := hM v dv hdv
      refine ⟨l, hw, hc, fun x hx => dist_some_of_mono hmono (hf x hx), hsnap, ?_⟩
      intro hv
      apply hwl
      obtain ⟨t, happ, ht⟩ := relaxArc_worklist st u s' arcId
      rw [happ] at hv
      rcases List.mem_append.mp hv with h | h
      · exact h
      · exact absurd ((ht v h).1) hxv

theorem SPWalksMid_foldArcs (st : Network α) (u : ℕ) (hu1 : u ≠ 1)
    (hE : EndsInRange st) (k : ℕ) (snap : List ℕ) (husnap : u ∈ snap) :
    ∀ (ids : List ℕ) (s' : SPState α),
      (∀ id ∈ ids, id ∈ (st.getNode u).connected_arcs) → SPBase st s' →
      SPWalksMid st s' k snap → SPWalksMid st (ids.foldl (st.relaxArc u) s') k snap := by
  intro ids
  induction ids with
  | nil => intro s' _ _ hM; exact hM
  | cons a as ih =>
    intro s' hids hB hM
    simp only [List.foldl_cons]
    have hvd : (st.getArc a).end_node < s'.distances.length := by
      rw [hB.1]
      exact hE u a (hids a (List.mem_cons_self _ _))
    exact ih _ (fun i hm => hids i (List.mem_cons_of_mem a hm))
      (SPBase_relaxArc st u s' a hE (hids a (List.mem_cons_self _ _)) hu1 hB)
      (SPWalksMid_relaxArc st u s' a k snap hu1 (hids a (List.mem_cons_self _ _))
        hvd husnap hM)

theorem SPWalksMid_foldFrom (st : Network α) (hE : EndsInRange st) (k : ℕ)
    (snap : List ℕ) :
    ∀ (us : List ℕ) (s' : SPState α), (∀ x ∈ us, x ≠ 1 ∧ x ∈ snap) → SPBase st s' →
      SPWalksMid st s' k snap → SPWalksMid st (us.foldl st.relaxFrom s') k snap := by
  intro us
  induction us with
  | nil => intro s' _ _ hM; exact hM
  | cons a as ih =>
    intro s' hus hB hM
    simp only [List.foldl_cons]
    exact ih _ (fun x hm => hus x (List.mem_cons_of_mem a hm))
      (SPBase_relaxFrom st s' a (hus a (List.mem_cons_self _ _)).1 hE hB)
      (SPWalksMid_foldArcs st a (hus a (List.mem_cons_self _ _)).1 hE k snap
        (hus a (List.mem_cons_self _ _)).2 _ s' (fun _ h => h) hB hM)

theorem SPWalks_spPass (st : Network α) (s : SPState α) (hE : EndsInRange st)
    (hB : SPBase st s) (k : ℕ) (hW : SPWalks st s k) :
    SPWalks st (st.spPass s) (k + 1) := by
  have hM0 : SPWalksMid st { s with nodes_updated := ([] : List ℕ) } k
      s.nodes_updated := by
    intro v dv hdv
    obtain ⟨l, hw, hc, hf, hwl⟩ := hW v dv hdv
    exact ⟨l, hw, hc, hf, hwl, fun h => absurd h (by simp)⟩
  have hM := SPWalksMid_foldFrom st hE k s.nodes_updated s.nodes_updated _
    (fun x hx => ⟨(hB.2.2.2.2.2 x hx).1, hx⟩) (SPBase_clear st s hB) hM0
  intro v dv hdv
  have hdv' : (s.nodes_updated.foldl st.relaxFrom
      { s with nodes_updated := ([] : List ℕ) }).dist v = some dv := hdv
  obtain ⟨l, hw, hc, hf, _, hwl⟩ := hM v dv hdv'
  refine ⟨l, hw, hc, fun x hx => hf x hx, ?_⟩
  intro hv
  apply hwl
  have hv' : v ∈ dedupAdj (sortNat ((s.nodes_updated.foldl st.relaxFrom
      { s with nodes_updated := ([] : List ℕ) }).nodes_updated)) := hv
  exact (mem_sortNat v _).mp ((mem_dedupAdj v _).mp hv')

theorem sp0_dist_cases (st : Network α) (v : ℕ) (dv : α)
    (hdv : (sp0 st : SPState α).dist v = some dv) : v = 0 ∧ dv = 0 := by
  by_cases h0 : v = 0
  · subst h0
    refine ⟨rfl, ?_⟩
    by_cases hL : 0 < st.nodes.length
    · have h : ((List.replicate st.nodes.length (none : Option α)).set 0
          (some 0)).getD 0 none = some dv := hdv
      rw [getD_set_self _ _ _ (by simpa using hL)] at h
      exact (Option.some.inj h).symm
    · exfalso
      have hL0 : st.nodes.length = 0 := by omega
      have h : ((List.replicate st.nodes.length (none : Option α)).set 0
          (some 0)).getD 0 none = some dv := hdv
      rw [hL0] at h
      exact Option.noConfusion h
  · exfalso
    have h : ((List.replicate st.nodes.length (none : Option α)).set 0
        (some 0)).getD v none = some dv := hdv
    rw [getD_set_ne _ _ _ (fun e => h0 e.symm)] at h
    rcases Nat.lt_or_ge v st.nodes.length with hlt | hge
    · rw [List.getD_eq_getElem?_getD, List.getElem?_replicate, if_pos hlt] at h
      exact Option.noConfusion h
    · rw [List.getD_eq_default _ _ (by simpa using hge)] at h
      exact Option.noConfusion h

theorem sp0_walks (st : Network α) : SPWalks st (sp0 st) 0 := by
  intro v dv hdv
  obtain ⟨rfl, rfl⟩ := sp0_dist_cases st v dv hdv
  refine ⟨[], rfl, walkCost_nil st, ?_, fun _ => by omega⟩
  intro x hx
  have hx0 : x = 0 := by simpa [walkVerts] using hx
  subst hx0
  rw [hdv]
  simp

theorem spIter_walks (st : Network α) (hE : EndsInRange st)
    (hn : 1 ≤ st.nodes.length) :
    ∀ k, SPWalks st (spIter st k) k := by
  intro k
  induction k with
  | zero => exact sp0_walks st
  | succ k ih =>
    exact SPWalks_spPass st (spIter st k) hE (spIter_invs st hn hE k).1 k ih

/-! Upper bounds: after `k` passes every walk of at most `k` arcs bounds
its end node's distance. -/

theorem sp0_upper (st : Network α) (hn : 1 ≤ st.nodes.length) :
    SPUpper st (sp0 st) 0 := by
  intro l v hw hl
  have hnil : l = [] := List.length_eq_zero.mp (by omega)
  subst hnil
  have hv : (0 : ℕ) = v := hw
  subst hv
  refine ⟨0, ?_, by rw [walkCost_nil]⟩
  show ((List.replicate st.nodes.length (none : Option α)).set 0 (some 0)).getD 0 none
    = some 0
  rw [getD_set_self _ _ _ (by simpa using hn)]

theorem SPUpper_spPass (st : Network α) (s : SPState α) (hE : EndsInRange st)
    (hB : SPBase st s) (hP : Pending st s []) (k : ℕ) (hU : SPUpper st s k) :
    SPUpper st (st.spPass s) (k + 1) := by
  have hbnd := spPass_bound st s hE hB
  have hmono := spPass_mono st s
  intro l v hw hl
  by_cases hlk : l.length ≤ k
  · obtain ⟨dv, hdv, hle⟩ := hU l v hw hlk
    have h := hmono v
    rw [hdv] at h
    obtain ⟨dv', hdv', hle'⟩ := distLe_some_right h
    exact ⟨dv', hdv', le_trans hle' hle⟩
  · have hlen : l.length = k + 1 := by omega
    obtain ⟨hw1, hw2⟩ := IsWalk_take_drop st l 0 v hw k (by omega)
    have hdrop : (l.drop k).length = 1 := by
      rw [List.length_drop]
      omega
    obtain ⟨idl, hidl⟩ := List.length_eq_one.mp hdrop
    rw [hidl] at hw2
    obtain ⟨hm1, hmarc, hmend⟩ := hw2
    have hvend : (st.getArc idl).end_node = v := hmend
    obtain ⟨du, hdu, hduc⟩ := hU (l.take k) _ hw1
      (by rw [List.length_take]; exact min_le_left _ _)
    have hcost : walkCost st l = walkCost st (l.take k) + (st.getArc idl).cost := by
      conv_lhs => rw [← List.take_append_drop k l]
      rw [walkCost_append, hidl, walkCost_cons, walkCost_nil, add_zero]
    by_cases hmwl : (walkVerts st l 0).getD k 0 ∈ s.nodes_updated
    · have hb := hbnd _ hmwl idl hmarc
      rw [hvend, hdu] at hb
      have hb' : distLe ((st.spPass s).dist v)
          (some (du + (st.getArc idl).cost)) := hb
      obtain ⟨dv, hdv, hlev⟩ := distLe_some_right hb'
      refine ⟨dv, hdv, ?_⟩
      rw [hcost]
      calc dv ≤ du + (st.getArc idl).cost := hlev
        _ ≤ walkCost st (l.take k) + (st.getArc idl).cost := add_le_add_right hduc _
    · have hmfin : s.dist ((walkVerts st l 0).getD k 0) ≠ none := by
        rw [hdu]
        simp
      have hrel := hP _ hm1 hmfin hmwl (by simp) idl hmarc
      rw [distLt_false_iff] at hrel
      rw [hvend, hdu] at hrel
      have hrel' : distLe (s.dist v) (some (du + (st.getArc idl).cost)) := hrel
      obtain ⟨dv0, hdv0, hlev0⟩ := distLe_some_right hrel'
      have h2 := hmono v
      rw [hdv0] at h2
      obtain ⟨dv, hdv, hlev⟩ := distLe_some_right h2
      refine ⟨dv, hdv, ?_⟩
      rw [hcost]
      calc dv ≤ dv0 := hlev
        _ ≤ du + (st.getArc idl).cost := hlev0
        _ ≤ walkCost st (l.take k) + (st.getArc idl).cost := add_le_add_right hduc _

theorem spIter_upper (st : Network α) (hE : EndsInRange st)
    (hn : 1 ≤ st.nodes.length) :
    ∀ k, SPUpper st (spIter st k) k := by
  intro k
  induction k with
  | zero => exact sp0_upper st hn
  | succ k ih =>
    exact SPUpper_spPass st (spIter st k) hE (spIter_invs st hn hE k).1
      (spIter_invs st hn hE k).2.2 k ih

/-- If the search loop runs out of fuel — the Rust iteration counter
reaches the node count — the final worklist is non-empty: the boundary
where the counter expires exactly as the work finishes cannot occur. -/
theorem spLoop_fuel_spent (st : Network α) (hn : 2 ≤ st.nodes.length)
    (hE : EndsInRange st)
    (hz : (st.spLoop st.nodes.length (sp0 st)).2 = 0) :
    (st.spLoop st.nodes.length (sp0 st)).1.nodes_updated ≠ [] := by
  obtain ⟨n2, hneq⟩ : ∃ n2, st.nodes.length = n2 + 2 :=
    ⟨st.nodes.length - 2, by omega⟩
  obtain ⟨m, hm, heq, hne, _⟩ := spLoop_iter st st.nodes.length 0
  have heq' : st.spLoop st.nodes.length (sp0 st)
      = (spIter st m, st.nodes.length - m) := by
    have h0 : spIter st 0 = sp0 st := rfl
    rw [← h0, heq, Nat.zero_add]
  rw [heq'] at hz ⊢
  have hz' : st.nodes.length - m = 0 := hz
  have hmn : m = st.nodes.length := by omega
  show (spIter st m).nodes_updated ≠ []
  rw [hmn, hneq]
  intro hempty
  -- the state after all passes is stable
  obtain ⟨hBn, _, hPn⟩ := spIter_invs st (by omega) hE (n2 + 2)
  have hstab : ∀ u, u ≠ 1 → (spIter st (n2 + 2)).dist u ≠ none →
      Relaxed st (spIter st (n2 + 2)) u :=
    fun u h1 h2 => hPn u h1 h2 (by rw [hempty]; simp) (by simp)
  -- the worklist entering the final pass was non-empty
  have hne1 : (spIter st (n2 + 1)).nodes_updated ≠ [] := by
    have h := hne (n2 + 1) (by omega)
    rw [Nat.zero_add] at h
    exact h
  obtain ⟨v, hv⟩ := List.exists_mem_of_ne_nil _ hne1
  obtain ⟨hB1, _, _⟩ := spIter_invs st (by omega) hE (n2 + 1)
  have hv1 : v ≠ 1 := (hB1.2.2.2.2.2 v hv).1
  have hvfin : (spIter st (n2 + 1)).dist v ≠ none := (hB1.2.2.2.2.2 v hv).2
  rcases hdv : (spIter st (n2 + 1)).dist v with _ | dv
  · exact hvfin hdv
  -- its distance is the cost of a walk from the source
  obtain ⟨l, hwv, hcv, hfv, _⟩ := spIter_walks st hE (by omega) (n2 + 1) v dv hdv
  have hmonoBC : DistLeS (spIter st (n2 + 2)) (spIter st (n2 + 1)) :=
    spPass_mono st (spIter st (n2 + 1))
  have hfvC : ∀ x ∈ walkVerts st l 0, (spIter st (n2 + 2)).dist x ≠ none :=
    fun x hx => dist_some_of_mono hmonoBC (hfv x hx)
  -- shorten the walk below the node count at the stable state
  obtain ⟨l', hwl', hlen', hcl'⟩ := walk_shorten st (spIter st (n2 + 2)) hE hn hstab
    l.length l v (le_refl _) hwv hv1 hfvC
  -- the shortened walk bounds the distance two passes earlier
  obtain ⟨dv2, hdv2, hdv2le⟩ := spIter_upper st hE (by omega) n2 l' v hwl'
    (by rw [hneq] at hlen'; omega)
  -- but the final enqueue strictly improved on that distance
  have hstrict := spPass_strict st (spIter st n2) hE (spIter_invs st (by omega) hE n2).1
  have hlt : distLt ((spIter st (n2 + 1)).dist v) ((spIter st n2).dist v) = true :=
    hstrict v hv
  rw [hdv, hdv2] at hlt
  have hdvlt : dv < dv2 := distLt_some_some.mp hlt
  have hge : dv2 ≤ dv := le_trans hdv2le (by rw [← hcv]; exact hcl')
  exact absurd hdvlt (not_lt.mpr hge)

/-- An out-of-range start node has no registered arcs, so checking the
in-range starts suffices for `EndsInRange`. -/
theorem EndsInRange_of_forall_lt (st : Network α)
    (h : ∀ n, n < st.nodes.length → ∀ id ∈ (st.getNode n).connected_arcs,
      (st.getArc id).end_node < st.nodes.length) : EndsInRange st := by
  intro n id hid
  by_cases hn : n < st.nodes.length
  · exact h n hn id hid
  · exfalso
    have he : (st.getNode n).connected_arcs = [] := by
      show (st.nodes.getD n emptyNode).connected_arcs = []
      rw [List.getD_eq_default _ _ (by omega)]
      rfl
    rw [he] at hid
    exact List.not_mem_nil id hid

/-- C7: on a network with at least its two fixed nodes and in-range arc
ends, `find_shortest_path` reaches the negative-cycle panic only when the
iteration counter hits the node count with relaxation work still pending —
a non-empty final worklist; whenever the worklist empties instead (the
loop hands back leftover fuel), the run returns the `Infeasible` error
exactly when the sink has no recorded predecessor and otherwise a path,
so the not-source panic and divergence of the reconstruction loop never
occur. -/
theorem C7_panic_only_when_work_pending (st : Network α)
    (hn : 2 ≤ st.nodes.length) (hE : EndsInRange st) :
    (st.find_shortest_path = SPRes.bugNegCycle →
      (st.spLoop st.nodes.length (sp0 st)).2 = 0 ∧
      (st.spLoop st.nodes.length (sp0 st)).1.nodes_updated ≠ []) ∧
    ((st.spLoop st.nodes.length (sp0 st)).2 ≠ 0 →
      ((st.spLoop st.nodes.length (sp0 st)).1.predecessors.getD 1 none = none ∧
        st.find_shortest_path = SPRes.infeasible) ∨
      ((st.spLoop st.nodes.length (sp0 st)).1.predecessors.getD 1 none ≠ none ∧
        ∃ p, st.find_shortest_path = SPRes.ok p)) := by
  constructor
  · intro hbug
    rcases find_shortest_path_cases st (by omega) hE with ⟨hz, _⟩ | ⟨_, hres⟩
    · exact ⟨hz, spLoop_fuel_spent st hn hE hz⟩
    · exfalso
      rcases hres with h | ⟨p, h⟩
      · rw [h] at hbug
        exact SPRes.noConfusion hbug
      · rw [h] at hbug
        exact SPRes.noConfusion hbug
  · intro hnz
    rcases hpred : (st.spLoop st.nodes.length (sp0 st)).1.predecessors.getD 1 none
      with _ | u0
    · left
      refine ⟨rfl, ?_⟩
      rw [find_shortest_path_eq, if_neg hnz, hpred]
    · right
      refine ⟨fun h => Option.noConfusion h, ?_⟩
      rcases find_shortest_path_cases st (by omega) hE with ⟨hz, _⟩ | ⟨_, hres⟩
      · exact absurd hz hnz
      · rcases hres with h | hok
        · exfalso
          rw [find_shortest_path_eq, if_neg hnz, hpred] at h
          have h2 : (match buildPathAux
              (st.spLoop st.nodes.length (sp0 st)).1.predecessors
              (st.nodes.length + 1) 1 with
            | none => SPRes.looped
            | some revPath => if revPath.getLast? = some 0
                then SPRes.ok revPath.reverse else SPRes.bugNotSource)
              = SPRes.infeasible := h
          rcases hbp : buildPathAux (st.spLoop st.nodes.length (sp0 st)).1.predecessors
              (st.nodes.length + 1) 1 with _ | rp
          · have h3 : SPRes.looped = SPRes.infeasible := by
              rw [hbp] at h2
              exact h2
            exact SPRes.noConfusion h3
          · have h3 : (if rp.getLast? = some 0 then SPRes.ok rp.reverse
                else SPRes.bugNotSource) = SPRes.infeasible := by
              rw [hbp] at h2
              exact h2
            by_cases hlast : rp.getLast? = some 0
            · rw [if_pos hlast] at h3
              exact SPRes.noConfusion h3
            · rw [if_neg hlast] at h3
              exact SPRes.noConfusion h3
        · exact hok

/-- Witness: the network built from `c7cmds` satisfies the hypotheses of
the C7 theorem, and its search run obeys the stated dichotomy. -/
theorem C7_witness :
    2 ≤ (build c7cmds).nodes.length ∧
    (((build c7cmds).spLoop (build c7cmds).nodes.length (sp0 (build c7cmds))).2 ≠ 0 →
      ((((build c7cmds).spLoop (build c7cmds).nodes.length
          (sp0 (build c7cmds))).1.predecessors.getD 1 none = none ∧
        (build c7cmds).find_shortest_path = SPRes.infeasible) ∨
       (((build c7cmds).spLoop (build c7cmds).nodes.length
          (sp0 (build c7cmds))).1.predecessors.getD 1 none ≠ none ∧
        ∃ p, (build c7cmds).find_shortest_path = SPRes.ok p))) :=
  ⟨by decide, (C7_panic_only_when_work_pending (build c7cmds) (by decide)
      (EndsInRange_of_forall_lt _ (by decide))).2⟩

end AssignmentSolver
